import Mathlib

/-!
# nsc `cmd/common.go`: parsing and formatting helpers

A shallow embedding of the string helpers of `cmd/common.go`
(`FormatKeys`, `ExtractToken`, `FormatJwt`, `ParseExpiry`, `ParseNumber`,
`ParseDataSize`, `LooksLikeNKey`, `ParseNKey`) together with the parts of the
Go standard library they call (`regexp`, `strconv.ParseInt`, `strings.ToUpper`,
`time.Parse`, `Time.Unix`, `Time.Add`, `Time.AddDate`).

Conventions of the embedding:

* a Go `string` is a `List Char`: the sequence of its runes (the text is taken
  to be valid UTF-8);
* `int64` values are `Int`, with `wrap64` applied where Go arithmetic can
  overflow;
* a Go `(value, error)` result is an `Except Error value`;
* the value of `time.Now()` is an explicit argument: the instant together
  with its location, the local time zone of the process.
-/

namespace Nsc

/-! ## Regular expressions (the fragment of Go `regexp` used by the source) -/

/-- Regular expressions, restricted to the constructs that occur in the
patterns of `cmd/common.go`. -/
inductive Regex where
  /-- one character of a class, such as `\d`, `.` or `[K|M|G]` -/
  | cls (p : Char → Bool)
  /-- a literal text -/
  | lit (s : List Char)
  /-- greedy `c+` for a character class `c` -/
  | plus (p : Char → Bool)
  /-- concatenation -/
  | seq (r₁ r₂ : Regex)
  /-- alternation `r₁|r₂`, the left branch preferred -/
  | alt (r₁ r₂ : Regex)
  /-- capturing group number `i` -/
  | group (i : Nat) (r : Regex)
  /-- the anchor `$` (without the `m` flag): end of text -/
  | eot

/-- Submatches by group number; a group that took no part in the match is the
empty text, as in `FindStringSubmatch`. -/
abbrev Caps := Nat → List Char

/-- Record the text of group `i`. -/
def setCap (m : Caps) (i : Nat) (t : List Char) : Caps :=
  fun j => if j = i then t else m j

/-- The text consumed between the input `xs` and its suffix `rest`. -/
def consumed (xs rest : List Char) : List Char :=
  xs.take (xs.length - rest.length)

/-- Greedy one-or-more repetition of a class: the longest run is tried first,
and the run is shortened one character at a time while the continuation
fails. -/
def plusLoop (p : Char → Bool) (k : List Char → Option Caps) :
    List Char → Option Caps
  | [] => none
  | c :: cs =>
    if p c then
      match plusLoop p k cs with
      | some r => some r
      | none => k cs
    else none

/-- Backtracking matcher with leftmost-first (Perl, RE2) preference order:
`r.run k xs m` matches `r` at the head of `xs` with submatches `m` so far and
hands the rest of the input to the continuation `k`; the first success in
preference order is the result. -/
def Regex.run : Regex → (List Char → Caps → Option Caps) → List Char → Caps →
    Option Caps
  | .cls p, k, xs, m =>
    match xs with
    | [] => none
    | c :: cs => if p c then k cs m else none
  | .lit s, k, xs, m =>
    if s.isPrefixOf xs then k (xs.drop s.length) m else none
  | .plus p, k, xs, m => plusLoop p (fun rest => k rest m) xs
  | .seq r₁ r₂, k, xs, m => r₁.run (fun rest m₁ => r₂.run k rest m₁) xs m
  | .alt r₁ r₂, k, xs, m =>
    match r₁.run k xs m with
    | some r => some r
    | none => r₂.run k xs m
  | .group i r, k, xs, m =>
    r.run (fun rest m₁ => k rest (setCap m₁ i (consumed xs rest))) xs m
  | .eot, k, xs, m =>
    match xs with
    | [] => k [] m
    | _ :: _ => none

/-- A match of `r` starting exactly at the head of `xs`; group 0 is the whole
match. -/
def Regex.matchAt (r : Regex) (xs : List Char) : Option Caps :=
  r.run (fun rest m => some (setCap m 0 (consumed xs rest))) xs (fun _ => [])

/-- Go `FindStringSubmatch`: the leftmost match, `none` for Go's `nil`. -/
def Regex.find (r : Regex) : List Char → Option Caps
  | [] => r.matchAt []
  | c :: cs =>
    match r.matchAt (c :: cs) with
    | some m => some m
    | none => r.find cs

/-- Go `MatchString`. -/
def Regex.matchString (r : Regex) (xs : List Char) : Bool :=
  (r.find xs).isSome

/-- Go `ReplaceAllString` for a pattern `c+` over a character class `c`: every
maximal run of class characters is replaced by `repl`. The flag tells whether
the previous character belonged to a run. -/
def replaceRunsAux (p : Char → Bool) (repl : List Char) :
    Bool → List Char → List Char
  | _, [] => []
  | inRun, c :: cs =>
    if p c then
      if inRun then replaceRunsAux p repl true cs
      else repl ++ replaceRunsAux p repl true cs
    else c :: replaceRunsAux p repl false cs

/-- Go `ReplaceAllString` for a pattern `c+` over a character class `c`. -/
def replaceRuns (p : Char → Bool) (repl : List Char) (xs : List Char) :
    List Char :=
  replaceRunsAux p repl false xs

/-! ### Character classes -/

/-- The class `\s` of Go `regexp`: `[\t\n\f\r ]`. -/
def isSpace (c : Char) : Bool :=
  c == '\t' || c == '\n' || c == Char.ofNat 12 || c == '\r' || c == ' '

/-- The class `\-`. -/
def isDash (c : Char) : Bool := c == '-'

/-- The class `\d` of Go `regexp`: `[0-9]`, the code points 48 to 57. -/
def isDigit (c : Char) : Bool := 48 ≤ c.toNat && c.toNat ≤ 57

/-- The class `.` (without the `s` flag): any character but a line feed. -/
def isAny (c : Char) : Bool := c != '\n'

/-- The class `[K|M|G]`: the bar is a member of the class. -/
def isKMG (c : Char) : Bool := c == 'K' || c == '|' || c == 'M' || c == 'G'

/-- The class `[B|K|M]`: the bar is a member of the class. -/
def isBKM (c : Char) : Bool := c == 'B' || c == '|' || c == 'K' || c == 'M'

/-- The class `[mhdMyw]`. -/
def isUnit (c : Char) : Bool :=
  c == 'm' || c == 'h' || c == 'd' || c == 'M' || c == 'y' || c == 'w'

/-! ## `strings.ToUpper` -/

/-- Go `unicode.ToUpper` on one rune. On ASCII it maps `a`..`z` (the code
points 97 to 122) to `A`..`Z` and fixes everything else; outside ASCII it
follows the Unicode case tables, which are taken as the parameter `tbl`. -/
def toUpperRune (tbl : Char → Char) (c : Char) : Char :=
  if c.toNat < 128 then
    if 97 ≤ c.toNat ∧ c.toNat ≤ 122 then Char.ofNat (c.toNat - 32) else c
  else tbl c

/-- Go `strings.ToUpper`. -/
def ToUpper (tbl : Char → Char) (s : List Char) : List Char :=
  s.map (toUpperRune tbl)

/-! ## `FormatJwt` and `ExtractToken` -/

/-- The sub-pattern `\-BEGIN.+(JWT|KEY)\-`, its inner group being number
`i`. -/
def openMarkerRe (i : Nat) : Regex :=
  .seq (.lit ['-', 'B', 'E', 'G', 'I', 'N'])
    (.seq (.plus isAny)
      (.seq (.group i (.alt (.lit ['J', 'W', 'T']) (.lit ['K', 'E', 'Y'])))
        (.lit ['-'])))

/-- The sub-pattern `\-END.+(JWT|KEY)\-`, its inner group being number `i`. -/
def closeMarkerRe (i : Nat) : Regex :=
  .seq (.lit ['-', 'E', 'N', 'D'])
    (.seq (.plus isAny)
      (.seq (.group i (.alt (.lit ['J', 'W', 'T']) (.lit ['K', 'E', 'Y'])))
        (.lit ['-'])))

/-- The pattern of `ExtractToken`,
`(?m)(\-BEGIN.+(JWT|KEY)\-)(?P<token>.+)(\-END.+(JWT|KEY)\-)`; the flag `(?m)`
changes only `^` and `$`, which the pattern does not use. The group named
`token` is number 3. -/
def tokenRe : Regex :=
  .seq (.group 1 (openMarkerRe 2))
    (.seq (.group 3 (.plus isAny)) (.group 4 (closeMarkerRe 5)))

/-- The first two statements of `ExtractToken`: all whitespace removed
(`\s+` replaced by nothing), then every run of dashes (`\-+`) replaced by one
dash. -/
def normalize (s : List Char) : List Char :=
  replaceRuns isDash ['-'] (replaceRuns isSpace [] s)

/-- Go `ExtractToken`: the submatch named `token` (group 3) of the marker
pattern in the normalized text, and the input itself when there is no match. -/
def ExtractToken (s : List Char) : List Char :=
  match tokenRe.find (normalize s) with
  | some m => m 3
  | none => s

/-- Go `FormatJwt`; `Fprintln` writes its argument and a line feed. -/
def FormatJwt (tbl : Char → Char) (jwtType jwt : List Char) : List Char :=
  let label := ToUpper tbl jwtType
  "-----BEGIN ".toList ++ label ++ " JWT-----\n".toList
    ++ (jwt ++ ['\n'])
    ++ ("------END ".toList ++ label ++ " JWT------\n".toList)
    ++ ['\n']

/-- Go `FormatKeys`; `Fprintln` writes its argument and a line feed. -/
def FormatKeys (tbl : Char → Char) (keyType publicKey privateKey : List Char) :
    List Char :=
  let label := ToUpper tbl keyType
  let w : List Char := []
  let w :=
    if privateKey ≠ [] then
      w ++ "************************* IMPORTANT *************************\n".toList
        ++ "Your options generated NKEYs which can be used to create\n".toList
        ++ "entities or prove identity.\n".toList
        ++ "\n".toList
        ++ "Generated keys printed below are sensitive and should be\n".toList
        ++ "treated as secrets to prevent unauthorized access.\n".toList
        ++ "\n".toList
        ++ "The private key is not saved by the tool. Please save\n".toList
        ++ "it now as it will be required by the user to connect to NATS.\n".toList
        ++ "The public key is saved and uniquely identifies the user.\n".toList
        ++ "\n".toList
        ++ ("-----BEGIN ".toList ++ label ++ " PRIVATE KEY-----\n".toList)
        ++ (privateKey ++ ['\n'])
        ++ ("------END ".toList ++ label ++ " PRIVATE KEY------\n".toList)
        ++ "\n".toList
        ++ "*************************************************************\n".toList
        ++ "\n".toList
    else w
  let w :=
    if publicKey ≠ [] then
      w ++ ("-----BEGIN ".toList ++ label ++ " PUB KEY-----\n".toList)
        ++ (publicKey ++ ['\n'])
        ++ ("------END ".toList ++ label ++ " PUB KEY------\n".toList)
        ++ "\n".toList
    else w
  w ++ "\n".toList

/-! ## Errors -/

/-- The two failure kinds of `strconv.NumError`. -/
inductive NumErrKind where
  /-- `strconv.ErrSyntax` -/
  | malformed
  /-- `strconv.ErrRange` -/
  | range
  deriving DecidableEq, Repr

/-- The error values the parsers of `cmd/common.go` can return. -/
inductive Error where
  /-- `fmt.Errorf("couldn't parse number: %v", s)` -/
  | couldntParseNumber (s : List Char)
  /-- `fmt.Errorf("couldn't parse data size: %v", s)` -/
  | couldntParseDataSize (s : List Char)
  /-- `fmt.Errorf("couldn't parse expiry: %v", s)` -/
  | couldntParseExpiry (s : List Char)
  /-- `fmt.Errorf("unknown interval %q in %q", unit, whole)` -/
  | unknownInterval (unit whole : List Char)
  /-- `*strconv.NumError` of `ParseInt` on the text `num` -/
  | numError (num : List Char) (kind : NumErrKind)
  /-- `*time.ParseError` of `time.Parse` on the text `value` -/
  | timeParse (value : List Char)
  /-- an error of the key decoders of the `nkeys` package -/
  | invalidKeyEncoding (value : List Char)
  deriving DecidableEq, Repr

deriving instance DecidableEq for Except

/-- Go `Error()` for the errors made by `fmt.Errorf` with the verb `%v`, which
prints a text as it is. The messages of the other errors quote their operand
with `strconv.Quote` and are left out (`none`). -/
def Error.message : Error → Option (List Char)
  | .couldntParseNumber s => some ("couldn't parse number: ".toList ++ s)
  | .couldntParseDataSize s => some ("couldn't parse data size: ".toList ++ s)
  | .couldntParseExpiry s => some ("couldn't parse expiry: ".toList ++ s)
  | _ => none

/-! ## `strconv.ParseInt` -/

/-- Value of a decimal digit character. -/
def digitVal (c : Char) : Nat := c.toNat - 48

/-- Value of a run of decimal digits, most significant first. -/
def digitsVal (s : List Char) : Nat :=
  s.foldl (fun acc c => 10 * acc + digitVal c) 0

/-- Go `strconv.ParseInt(s, 10, 64)`: an optional sign, then one or more
decimal digits; the value must fit a 64-bit signed integer. -/
def ParseInt (s : List Char) : Except Error Int :=
  match s with
  | [] => .error (.numError s .malformed)
  | c :: cs =>
    let neg := c == '-'
    let body := if c == '+' || c == '-' then cs else s
    if body.isEmpty || !body.all isDigit then .error (.numError s .malformed)
    else
      let un := digitsVal body
      if !neg && un ≥ 2 ^ 63 then .error (.numError s .range)
      else if neg && un > 2 ^ 63 then .error (.numError s .range)
      else .ok (if neg then -(un : Int) else (un : Int))

/-- Reduction of an integer to the range of Go `int64` (two's complement
wrap-around). -/
def wrap64 (x : Int) : Int := (x + 2 ^ 63) % 2 ^ 64 - 2 ^ 63

/-! ## `ParseNumber` and `ParseDataSize` -/

/-- The pattern `(\d+$)`. -/
def trailingDigitsRe : Regex :=
  .group 1 (.seq (.plus isDigit) .eot)

/-- The pattern `(\d+)([K|M|G])`. -/
def numberSuffixRe : Regex :=
  .seq (.group 1 (.plus isDigit)) (.group 2 (.cls isKMG))

/-- The pattern `(\d+)([B|K|M])`. -/
def dataSizeSuffixRe : Regex :=
  .seq (.group 1 (.plus isDigit)) (.group 2 (.cls isBKM))

/-- Go `ParseNumber`. -/
def ParseNumber (tbl : Char → Char) (s : List Char) : Except Error Int :=
  if s = [] then .ok 0
  else
    let s := ToUpper tbl s
    match trailingDigitsRe.find s with
    | some m =>
      match ParseInt (m 0) with
      | .error e => .error e
      | .ok v => .ok v
    | none =>
      match numberSuffixRe.find s with
      | some m =>
        match ParseInt (m 1) with
        | .error e => .error e
        | .ok v =>
          if m 2 = ['K'] then .ok (wrap64 (v * 1000))
          else if m 2 = ['M'] then .ok (wrap64 (v * 1000000))
          else if m 2 = ['G'] then .ok (wrap64 (v * 1000000000))
          else .error (.couldntParseNumber s)
      | none => .error (.couldntParseNumber s)

/-- Go `ParseDataSize`. -/
def ParseDataSize (tbl : Char → Char) (s : List Char) : Except Error Int :=
  if s = [] then .ok 0
  else
    let s := ToUpper tbl s
    match trailingDigitsRe.find s with
    | some m =>
      match ParseInt (m 0) with
      | .error e => .error e
      | .ok v => .ok v
    | none =>
      match dataSizeSuffixRe.find s with
      | some m =>
        match ParseInt (m 1) with
        | .error e => .error e
        | .ok v =>
          if m 2 = ['B'] then .ok v
          else if m 2 = ['K'] then .ok (wrap64 (v * 1000))
          else if m 2 = ['M'] then .ok (wrap64 (v * 1000000))
          else .error (.couldntParseDataSize s)
      | none => .error (.couldntParseDataSize s)

/-! ## The `time` package (the algorithms of Go 1.20) -/

/-- Go `*Location`, as far as `Time.abs` and `time.Date` use it: the method
`lookup`, which gives for an instant in Unix seconds the offset of the zone in
force then (seconds east of UTC) and the instants `start` and `end` between
which that zone is in force. -/
structure Location where
  /-- offset, start and end of the zone in force at an instant -/
  lookup : Int → Int × Int × Int

/-- Go `time.UTC`: the offset is 0 at all times, from `alpha` to `omega`. -/
def UTC : Location := { lookup := fun _ => (0, -2 ^ 63, 2 ^ 63 - 1) }

/-- A Go `time.Time`: Unix seconds (an `int64`), the nanoseconds within the
second and the location the instant is read in. `time.Now()` carries
`time.Local`, `time.Parse` without a zone gives `time.UTC`. -/
structure Time where
  /-- seconds since 1 January 1970, 00:00:00 UTC -/
  sec : Int
  /-- nanoseconds within the second -/
  nsec : Int
  /-- location of the instant -/
  loc : Location

/-- Go `Time.Unix`. -/
def Time.Unix (t : Time) : Int := t.sec

/-- Go `absoluteZeroYear`. -/
def absoluteZeroYear : Int := -292277022399

/-- Go `unixToInternal + internalToAbsolute`: seconds from the absolute epoch
(1 January of `absoluteZeroYear`) to the Unix epoch. -/
def unixToAbsolute : Int := 9223372028715321600

/-- Go `daysBefore`: days of a non-leap year before the start of month
`m + 1`. -/
def daysBefore : Nat → Int
  | 0 => 0
  | 1 => 31
  | 2 => 59
  | 3 => 90
  | 4 => 120
  | 5 => 151
  | 6 => 181
  | 7 => 212
  | 8 => 243
  | 9 => 273
  | 10 => 304
  | 11 => 334
  | _ => 365

/-- Go `isLeap`. -/
def isLeap (year : Int) : Bool :=
  year % 4 == 0 && (year % 100 != 0 || year % 400 == 0)

/-- Go `daysIn`. -/
def daysIn (month : Nat) (year : Int) : Int :=
  if month = 2 ∧ isLeap year then 29
  else daysBefore month - daysBefore (month - 1)

/-- Go `norm`: `(hi, lo)` with `lo` brought into `[0, base)`; the operations
are those of `int`, 64 bits wide, and `/` truncates. -/
def norm (hi lo base : Int) : Int × Int :=
  let (hi, lo) :=
    if lo < 0 then
      let n := wrap64 (Int.tdiv (wrap64 (wrap64 (-lo) - 1)) base + 1)
      (wrap64 (hi - n), wrap64 (lo + wrap64 (n * base)))
    else (hi, lo)
  if lo ≥ base then
    let n := Int.tdiv lo base
    (wrap64 (hi + n), wrap64 (lo - wrap64 (n * base)))
  else (hi, lo)

/-- Go `daysSinceEpoch`: days from the absolute epoch to 1 January of
`year`, computed in `uint64`. -/
def daysSinceEpoch (year : Int) : Int :=
  let y := (year - absoluteZeroYear) % 2 ^ 64
  let n := y / 400
  let y := y - 400 * n
  let d := 146097 * n
  let n := y / 100
  let y := y - 100 * n
  let d := d + 36524 * n
  let n := y / 4
  let y := y - 4 * n
  let d := d + 1461 * n
  (d + 365 * y) % 2 ^ 64

/-- Go `time.Date`. The day count and the absolute seconds are `uint64` sums
and products, which wrap modulo `2^64`; the reduction is applied where the
sum is converted to the `int64` value `unix`. The zone offset of the location
is then looked up at `unix`, and once more at `unix - offset` when that
instant is outside the zone found first. -/
def Date (year month day hour min sec nsec : Int) (loc : Location) : Time :=
  let m := wrap64 (month - 1)
  let (year, m) := norm year m 12
  let month := wrap64 (m + 1)
  let (sec, nsec) := norm sec nsec 1000000000
  let (min, sec) := norm min sec 60
  let (hour, min) := norm hour min 60
  let (day, hour) := norm day hour 24
  let d := daysSinceEpoch year
  let d := d + daysBefore (month - 1).toNat
  let d := if isLeap year ∧ month ≥ 3 then d + 1 else d
  let d := d + (day - 1)
  let abs := d * 86400 + (hour * 3600 + min * 60 + sec)
  let unix := wrap64 (abs - unixToAbsolute)
  let (offset, start, stop) := loc.lookup unix
  let unix :=
    if offset ≠ 0 then
      let utc := wrap64 (unix - offset)
      let offset := if utc < start ∨ utc ≥ stop then (loc.lookup utc).1 else offset
      wrap64 (unix - offset)
    else unix
  { sec := unix, nsec := nsec, loc := loc }

/-- Go `absDate` (with `full` set): year, month and day of the month of an
absolute time in seconds, a `uint64`. -/
def absDate (abs : Int) : Int × Int × Int :=
  let d := abs / 86400
  let n := d / 146097
  let y := 400 * n
  let d := d - 146097 * n
  let n := d / 36524
  let n := n - n / 4
  let y := y + 100 * n
  let d := d - 36524 * n
  let n := d / 1461
  let y := y + 4 * n
  let d := d - 1461 * n
  let n := d / 365
  let n := n - n / 4
  let y := y + n
  let d := d - 365 * n
  let year := y + absoluteZeroYear
  let day := d
  if isLeap year ∧ day = 31 + 29 - 1 then (year, 2, 29)
  else
    let day := if isLeap year ∧ day > 31 + 29 - 1 then day - 1 else day
    let month := day / 31
    let stop := daysBefore (month + 1).toNat
    let (month, start) :=
      if day ≥ stop then (month + 1, stop) else (month, daysBefore month.toNat)
    (year, month + 1, day - start + 1)

/-- Go `Time.abs`: the seconds from the absolute epoch to the instant as read
in its location, a `uint64`. The zone cache of the location, which `abs`
consults first, answers as `lookup` does. -/
def Time.abs (t : Time) : Int :=
  let offset := (t.loc.lookup t.sec).1
  let sec := wrap64 (t.sec + offset)
  (sec + unixToAbsolute) % 2 ^ 64

/-- Go `Time.Date`: year, month and day of the instant in its location. -/
def Time.Date (t : Time) : Int × Int × Int :=
  absDate t.abs

/-- Go `Time.Clock`: hour, minute and second within the day, in the location
of the instant. -/
def Time.Clock (t : Time) : Int × Int × Int :=
  let sec := t.abs % 86400
  let hour := sec / 3600
  let sec := sec - hour * 3600
  let min := sec / 60
  (hour, min, sec - min * 60)

/-- Go `Time.Add` for a duration `d` in nanoseconds (an `int64`). -/
def Time.Add (t : Time) (d : Int) : Time :=
  let dsec := Int.tdiv d 1000000000
  let nsec := t.nsec + Int.tmod d 1000000000
  if nsec ≥ 1000000000 then { t with sec := t.sec + (dsec + 1), nsec := nsec - 1000000000 }
  else if nsec < 0 then { t with sec := t.sec + (dsec - 1), nsec := nsec + 1000000000 }
  else { t with sec := t.sec + dsec, nsec := nsec }

/-- Go `Time.AddDate`: the date and the clock of the instant in its location,
with the three sums taken in `int`, handed to `time.Date` in the same
location. -/
def Time.AddDate (t : Time) (years months days : Int) : Time :=
  let (year, month, day) := t.Date
  let (hour, min, sec) := t.Clock
  Nsc.Date (wrap64 (year + years)) (wrap64 (month + months)) (wrap64 (day + days))
    hour min sec t.nsec t.loc

/-! ### `time.Parse` with the layout `2006-01-02` -/

/-- The layout element `2006`: exactly four decimal digits. -/
def getYear : List Char → Option (Nat × List Char)
  | a :: b :: c :: d :: rest =>
    if isDigit a && isDigit b && isDigit c && isDigit d then
      some (digitsVal [a, b, c, d], rest)
    else none
  | _ => none

/-- Go `getnum(value, true)`, for the layout elements `01` and `02`: exactly
two decimal digits. -/
def getnum (value : List Char) : Option (Nat × List Char) :=
  match value with
  | a :: b :: rest =>
    if isDigit a && isDigit b then some (digitVal a * 10 + digitVal b, rest)
    else none
  | _ => none

/-- Go `skip(value, "-")`: the literal dash of the layout. -/
def skipDash : List Char → Option (List Char)
  | c :: rest => if c == '-' then some rest else none
  | [] => none

/-- The fields read by `time.Parse("2006-01-02", value)`, or `none` where
`time.Parse` returns an error: a malformed element, a month outside 1..12,
text after the day, or a day outside the month. -/
def parseDateFields (value : List Char) : Option (Nat × Nat × Nat) :=
  match getYear value with
  | none => none
  | some (year, value) =>
    match skipDash value with
    | none => none
    | some value =>
      match getnum value with
      | none => none
      | some (month, value) =>
        if month ≤ 0 ∨ 12 < month then none
        else
          match skipDash value with
          | none => none
          | some value =>
            match getnum value with
            | none => none
            | some (day, value) =>
              if value ≠ [] then none
              else if (day : Int) < 1 ∨ (day : Int) > daysIn month year then none
              else some (year, month, day)

/-- Go `time.Parse("2006-01-02", value)`. -/
def timeParse (value : List Char) : Except Error Time :=
  match parseDateFields value with
  | none => .error (.timeParse value)
  | some (year, month, day) => .ok (Date year month day 0 0 0 0 UTC)

/-! ## `ParseExpiry` -/

/-- The pattern `(\d){4}-(\d){2}-(\d){2}`; a repeated group is unrolled, each
copy writing the same group number. -/
def dateRe : Regex :=
  .seq (.group 1 (.cls isDigit)) (.seq (.group 1 (.cls isDigit))
    (.seq (.group 1 (.cls isDigit)) (.seq (.group 1 (.cls isDigit))
      (.seq (.lit ['-'])
        (.seq (.group 2 (.cls isDigit)) (.seq (.group 2 (.cls isDigit))
          (.seq (.lit ['-'])
            (.seq (.group 3 (.cls isDigit)) (.group 3 (.cls isDigit))))))))))

/-- The pattern `(?P<count>\d+)(?P<qualifier>[mhdMyw])`. -/
def intervalRe : Regex :=
  .seq (.group 1 (.plus isDigit)) (.group 2 (.cls isUnit))

/-- Go `time.Minute`, in nanoseconds. -/
def Minute : Int := 60000000000

/-- Go `time.Hour`, in nanoseconds. -/
def Hour : Int := 3600000000000

/-- Go `ParseExpiry`, with the value of `time.Now()`, the current instant in
the local location, as the argument `now` (`int` is 64 bits wide). -/
def ParseExpiry (now : Time) (s : List Char) : Except Error Int :=
  if s = [] ∨ s = ['0'] then .ok 0
  else if dateRe.matchString s then
    match timeParse s with
    | .error e => .error e
    | .ok t => .ok t.Unix
  else
    match intervalRe.find s with
    | some m =>
      match ParseInt (m 1) with
      | .error e => .error e
      | .ok count =>
        if count = 0 then .ok 0
        else if m 2 = ['m'] then .ok (now.Add (wrap64 (count * Minute))).Unix
        else if m 2 = ['h'] then .ok (now.Add (wrap64 (count * Hour))).Unix
        else if m 2 = ['d'] then .ok (now.AddDate 0 0 count).Unix
        else if m 2 = ['w'] then .ok (now.AddDate 0 0 (wrap64 (7 * count))).Unix
        else if m 2 = ['M'] then .ok (now.AddDate 0 count 0).Unix
        else if m 2 = ['y'] then .ok (now.AddDate count 0 0).Unix
        else .error (.unknownInterval (m 2) (m 0))
    | none => .error (.couldntParseExpiry s)


/-! ## `LooksLikeNKey` and `ParseNKey` -/

/-- Go `len(s)`: the length of the text in bytes of its UTF-8 encoding. -/
def byteLen (s : List Char) : Nat :=
  (s.map Char.utf8Size).sum

/-- Go `LooksLikeNKey`. The byte `pfx` is given as the character that
`string(pfx)` consists of, and `sep` is `filepath.Separator`, which depends
on the operating system. -/
def LooksLikeNKey (sep : Char) (s : List Char) (pfx : Char) : Bool :=
  let pre := [pfx]
  if byteLen s = 109 ∨ byteLen s = 58 then
    let pre := 'S' :: [pfx]
    pre.isPrefixOf s && !s.contains sep
  else if byteLen s = 56 then
    pre.isPrefixOf s && !s.contains sep
  else false

/-- Go `ParseNKey`, with the decoders `nkeys.FromSeed` and
`nkeys.FromPublicKey` as arguments; `none` is the run-time panic of the index
expression `s[0]` on the empty text. -/
def ParseNKey {KeyPair : Type} (fromSeed fromPublicKey : List Char → Except Error KeyPair)
    (s : List Char) : Option (Except Error KeyPair) :=
  match s with
  | [] => none
  | c :: _ => if c = 'S' then some (fromSeed s) else some (fromPublicKey s)

/-! ## Notions used to state the properties -/

/-- ASCII letters and digits. -/
def isAlnum (c : Char) : Bool :=
  (97 ≤ c.toNat && c.toNat ≤ 122) || (65 ≤ c.toNat && c.toNat ≤ 90) ||
    (48 ≤ c.toNat && c.toNat ≤ 57)

/-- The text of the marker kind `(JWT|KEY)`. -/
def IsKind (X : List Char) : Prop := X = ['J', 'W', 'T'] ∨ X = ['K', 'E', 'Y']

/-- A text that `.` can cross and that holds no dash. -/
def Plain (t : List Char) : Prop := ∀ c ∈ t, isAny c = true ∧ c ≠ '-'

/-- The common shape of the patterns `(\d+)([K|M|G])`, `(\d+)([B|K|M])` and
`(\d+)([mhdMyw])`: a digit run in group 1, one character of a class in
group 2. -/
def digitsThen (q : Char → Bool) : Regex :=
  .seq (.group 1 (.plus isDigit)) (.group 2 (.cls q))

/-- The multiplier that `ParseNumber` and `ParseDataSize` attach to a suffix
letter: 1,000 for `K`, 1,000,000 for `M`, 1,000,000,000 for `G`, in either
case, and 1 for `B`. -/
def suffixMultiplier (c : Char) : Nat :=
  if c = 'K' ∨ c = 'k' then 1000
  else if c = 'M' ∨ c = 'm' then 1000000
  else if c = 'G' ∨ c = 'g' then 1000000000
  else 1

/-- A date-shaped text: four digits, a dash, two digits, a dash, two
digits. -/
def DateShaped (a : List Char) : Prop :=
  ∃ y₁ y₂ y₃ y₄ m₁ m₂ d₁ d₂, a = [y₁, y₂, y₃, y₄, '-', m₁, m₂, '-', d₁, d₂] ∧
    isDigit y₁ = true ∧ isDigit y₂ = true ∧ isDigit y₃ = true ∧ isDigit y₄ = true ∧
    isDigit m₁ = true ∧ isDigit m₂ = true ∧ isDigit d₁ = true ∧ isDigit d₂ = true

/-- The leap-year rule of the Gregorian calendar. -/
def leapYear (y : Nat) : Bool :=
  (y % 4 == 0 && y % 100 != 0) || y % 400 == 0

/-- Number of days of month `m` (1 to 12) of year `y`. -/
def monthLength (y m : Nat) : Nat :=
  if m = 2 then (if leapYear y then 29 else 28)
  else if m = 4 ∨ m = 6 ∨ m = 9 ∨ m = 11 then 30
  else 31

/-- Number of days of year `y`. -/
def yearLength (y : Nat) : Nat := if leapYear y then 366 else 365

/-- Number of days of the years `0` to `y - 1`, counted year by year. -/
def daysBeforeYear : Nat → Nat
  | 0 => 0
  | y + 1 => daysBeforeYear y + yearLength y

/-- Number of days of the first `k` months of year `y`, counted month by
month. -/
def daysBeforeMonth (y : Nat) : Nat → Nat
  | 0 => 0
  | k + 1 => daysBeforeMonth y k + monthLength y (k + 1)

/-- Number of days from 1 January of year 0 to the day `d` of month `m` of
year `y`. -/
def dayNumber (y m d : Nat) : Nat :=
  daysBeforeYear y + daysBeforeMonth y (m - 1) + (d - 1)

/-- The Unix timestamp of midnight UTC of a calendar day, in the words of the
specification: 86,400 seconds for every day since 1 January 1970, the days
being counted by `dayNumber`. It is compared with the closed formula of
`Date`. -/
def unixMidnight (y m d : Nat) : Int :=
  86400 * ((dayNumber y m d : Int) - (dayNumber 1970 1 1 : Int))

/-- A valid calendar date with a four-digit year, in the words of the
specification. -/
def ValidDate (y m d : Nat) : Prop :=
  y ≤ 9999 ∧ 1 ≤ m ∧ m ≤ 12 ∧ 1 ≤ d ∧ d ≤ monthLength y m

instance (y m d : Nat) : Decidable (ValidDate y m d) := by
  unfold ValidDate
  infer_instance

/-- The text `YYYY-MM-DD` of a date, every field padded with zeros. -/
def dateText (y m d : Nat) : List Char :=
  [Nat.digitChar (y / 1000 % 10), Nat.digitChar (y / 100 % 10),
    Nat.digitChar (y / 10 % 10), Nat.digitChar (y % 10), '-',
    Nat.digitChar (m / 10 % 10), Nat.digitChar (m % 10), '-',
    Nat.digitChar (d / 10 % 10), Nat.digitChar (d % 10)]

/-- The day count of `daysSinceEpoch` taken in the integers, without the
reductions modulo `2^64`. -/
def daysSinceEpochExact (year : Int) : Int :=
  let y := year - absoluteZeroYear
  let n := y / 400
  let y := y - 400 * n
  let d := 146097 * n
  let n := y / 100
  let y := y - 100 * n
  let d := d + 36524 * n
  let n := y / 4
  let y := y - 4 * n
  let d := d + 1461 * n
  d + 365 * y

/-- The values `time.Now()` can have: an instant within some `2^61` seconds of
1970, with the nanoseconds within the second, in a location whose zone offsets
are 32-bit values, as they are in the time zone database. -/
def Time.WellFormed (t : Time) : Prop :=
  -2 ^ 61 ≤ t.sec ∧ t.sec ≤ 2 ^ 61 ∧ 0 ≤ t.nsec ∧ t.nsec < 1000000000 ∧
    ∀ u, -2 ^ 31 ≤ (t.loc.lookup u).1 ∧ (t.loc.lookup u).1 ≤ 2 ^ 31

/-- The zone offset in force at an instant in its location, in seconds east of
UTC; the wall clock of the location reads `t.Unix + t.zoneOffset`. -/
def Time.zoneOffset (t : Time) : Int := (t.loc.lookup t.sec).1

/-- A location with the one offset `o` at all times, such as `time.UTC` or a
zone without daylight saving time. -/
def Location.Fixed (l : Location) (o : Int) : Prop :=
  ∀ u, (l.lookup u).1 = o

/-- The zone offset that holds in the location `l` for the wall-clock reading
`wall` (local seconds, counted as if the location were UTC): the offset in
force at the instant `wall`, or, when the instant `wall - offset` lies outside
the zone in force at `wall`, the offset in force at `wall - offset`. -/
def Location.offsetFor (l : Location) (wall : Int) : Int :=
  let z := l.lookup wall
  if z.1 ≠ 0 ∧ (wall - z.1 < z.2.1 ∨ wall - z.1 ≥ z.2.2) then (l.lookup (wall - z.1)).1
  else z.1

/-- The location `America/New_York` around 9 March 2025: Eastern Standard Time
(UTC-5) from 3 November 2024, 06:00 UTC, and Eastern Daylight Time (UTC-4) from
9 March 2025, 07:00 UTC, to 2 November 2025, 06:00 UTC. -/
def newYork2025 : Location :=
  { lookup := fun u =>
      if u < 1741503600 then (-18000, 1730613600, 1741503600)
      else (-14400, 1741503600, 1762063200) }

/-- The warning that opens the private section of a key listing, in the words
of the specification: a banner, the explanation that the keys are sensitive
and that the private key is not saved, and a blank line. -/
def keyWarning : List Char :=
  (List.replicate 25 '*' ++ " IMPORTANT ".toList ++ List.replicate 25 '*' ++ ['\n'])
    ++ ("Your options generated NKEYs which can be used to create\n"
      ++ "entities or prove identity.\n\n"
      ++ "Generated keys printed below are sensitive and should be\n"
      ++ "treated as secrets to prevent unauthorized access.\n\n"
      ++ "The private key is not saved by the tool. Please save\n"
      ++ "it now as it will be required by the user to connect to NATS.\n"
      ++ "The public key is saved and uniquely identifies the user.\n\n").toList

/-- The private section of a key listing for the upper-case label `L`: the
warning, the delimited private key, the closing line of asterisks and a blank
line. -/
def privateSection (L priv : List Char) : List Char :=
  keyWarning
    ++ ("-----BEGIN ".toList ++ L ++ " PRIVATE KEY-----\n".toList ++ priv
      ++ "\n------END ".toList ++ L ++ " PRIVATE KEY------\n\n".toList)
    ++ (List.replicate 61 '*' ++ ['\n'])
    ++ ['\n']

/-- The public block of a key listing for the upper-case label `L`. -/
def publicBlock (L pub : List Char) : List Char :=
  "-----BEGIN ".toList ++ L ++ " PUB KEY-----\n".toList ++ pub
    ++ "\n------END ".toList ++ L ++ " PUB KEY------\n\n".toList

/-! ## Declarative meaning of patterns -/

/-- Declarative meaning of a pattern: `r.Sem a b m m'` says that `r` can
consume the text `a` when followed by the text `b`, turning the submatches `m`
into `m'`. -/
def Regex.Sem : Regex → List Char → List Char → Caps → Caps → Prop
  | .cls p, a, _, m, m' => (∃ c, a = [c] ∧ p c = true) ∧ m' = m
  | .lit s, a, _, m, m' => a = s ∧ m' = m
  | .plus p, a, _, m, m' => a ≠ [] ∧ (∀ c ∈ a, p c = true) ∧ m' = m
  | .seq r₁ r₂, a, b, m, m' =>
    ∃ a₁ a₂ m₁, a = a₁ ++ a₂ ∧ r₁.Sem a₁ (a₂ ++ b) m m₁ ∧ r₂.Sem a₂ b m₁ m'
  | .alt r₁ r₂, a, b, m, m' => r₁.Sem a b m m' ∨ r₂.Sem a b m m'
  | .group i r, a, b, m, m' => ∃ m₁, r.Sem a b m m₁ ∧ m' = setCap m₁ i a
  | .eot, a, b, m, m' => a = [] ∧ b = [] ∧ m' = m

/-! ## Properties of the matcher -/

theorem consumed_append (a b : List Char) : consumed (a ++ b) b = a := by
  simp [consumed]

theorem plusLoop_sound (p : Char → Bool) (k : List Char → Option Caps) :
    ∀ (xs : List Char) (res : Caps), plusLoop p k xs = some res →
      ∃ a b, xs = a ++ b ∧ a ≠ [] ∧ (∀ c ∈ a, p c = true) ∧ k b = some res := by
  intro xs
  induction xs with
  | nil => intro res h; simp [plusLoop] at h
  | cons c cs ih =>
    intro res h
    unfold plusLoop at h
    by_cases hc : p c = true
    · rw [if_pos hc] at h
      cases hrec : plusLoop p k cs with
      | some r =>
        rw [hrec] at h
        obtain ⟨a, b, hab, hne, hall, hk⟩ := ih r hrec
        refine ⟨c :: a, b, by simp [hab], by simp, ?_, ?_⟩
        · intro x hx
          rcases List.mem_cons.mp hx with rfl | hx
          · exact hc
          · exact hall x hx
        · simpa using h ▸ hk
      | none =>
        rw [hrec] at h
        exact ⟨[c], cs, rfl, by simp, by simpa using hc, h⟩
    · rw [if_neg hc] at h
      cases h

theorem plusLoop_complete (p : Char → Bool) (k : List Char → Option Caps) :
    ∀ (a b : List Char), a ≠ [] → (∀ c ∈ a, p c = true) → (k b).isSome →
      (plusLoop p k (a ++ b)).isSome := by
  intro a
  induction a with
  | nil => intro b h; exact absurd rfl h
  | cons c cs ih =>
    intro b _ hall hk
    have hc : p c = true := hall c (List.mem_cons_self _ _)
    simp only [List.cons_append, plusLoop, hc, if_true]
    cases cs with
    | nil =>
      cases h : plusLoop p k ([] ++ b) with
      | some r => simp
      | none => simpa using hk
    | cons d ds =>
      have := ih b (by simp) (fun x hx => hall x (List.mem_cons_of_mem _ hx)) hk
      cases h : plusLoop p k (d :: ds ++ b) with
      | some r => simp
      | none => rw [h] at this; cases this

/-- Greedy choice: when no longer run lets the continuation succeed, the run
`a` is the one chosen. -/
theorem plusLoop_greedy (p : Char → Bool) (k : List Char → Option Caps) :
    ∀ (a b : List Char) (res : Caps), a ≠ [] → (∀ c ∈ a, p c = true) →
      plusLoop p k b = none → k b = some res →
      plusLoop p k (a ++ b) = some res := by
  intro a
  induction a with
  | nil => intro b res h; exact absurd rfl h
  | cons c cs ih =>
    intro b res _ hall hnone hk
    have hc : p c = true := hall c (List.mem_cons_self _ _)
    cases cs with
    | nil => simp [plusLoop, hc, hnone, hk]
    | cons d ds =>
      have h := ih b res (by simp) (fun x hx => hall x (List.mem_cons_of_mem _ hx)) hnone hk
      have : plusLoop p k (c :: (d :: ds ++ b)) = some res := by
        rw [plusLoop, if_pos hc, h]
      simpa using this

theorem run_sound : ∀ (r : Regex) (k : List Char → Caps → Option Caps)
    (xs : List Char) (m res : Caps), r.run k xs m = some res →
      ∃ a b m', xs = a ++ b ∧ r.Sem a b m m' ∧ k b m' = some res := by
  intro r
  induction r with
  | cls p =>
    intro k xs m res h
    cases xs with
    | nil => simp [Regex.run] at h
    | cons c cs =>
      simp only [Regex.run] at h
      by_cases hc : p c = true
      · rw [if_pos hc] at h
        exact ⟨[c], cs, m, rfl, ⟨⟨c, rfl, hc⟩, rfl⟩, h⟩
      · rw [if_neg hc] at h; cases h
  | lit s =>
    intro k xs m res h
    simp only [Regex.run] at h
    by_cases hp : s.isPrefixOf xs = true
    · rw [if_pos hp] at h
      have hpre : s <+: xs := List.isPrefixOf_iff_prefix.mp hp
      obtain ⟨t, rfl⟩ := hpre
      refine ⟨s, t, m, rfl, ⟨rfl, rfl⟩, ?_⟩
      simpa using h
    · rw [if_neg hp] at h; cases h
  | plus p =>
    intro k xs m res h
    simp only [Regex.run] at h
    obtain ⟨a, b, hab, hne, hall, hk⟩ := plusLoop_sound p _ xs res h
    exact ⟨a, b, m, hab, ⟨hne, hall, rfl⟩, hk⟩
  | seq r₁ r₂ ih₁ ih₂ =>
    intro k xs m res h
    simp only [Regex.run] at h
    obtain ⟨a₁, b₁, m₁, rfl, hs₁, hk₁⟩ := ih₁ _ xs m res h
    obtain ⟨a₂, b₂, m₂, rfl, hs₂, hk₂⟩ := ih₂ _ b₁ m₁ res hk₁
    exact ⟨a₁ ++ a₂, b₂, m₂, by simp, ⟨a₁, a₂, m₁, rfl, hs₁, hs₂⟩, hk₂⟩
  | alt r₁ r₂ ih₁ ih₂ =>
    intro k xs m res h
    simp only [Regex.run] at h
    cases h₁ : r₁.run k xs m with
    | some r =>
      rw [h₁] at h
      obtain ⟨a, b, m', hab, hs, hk⟩ := ih₁ k xs m r h₁
      refine ⟨a, b, m', hab, Or.inl hs, ?_⟩
      simpa using h ▸ hk
    | none =>
      rw [h₁] at h
      obtain ⟨a, b, m', hab, hs, hk⟩ := ih₂ k xs m res h
      exact ⟨a, b, m', hab, Or.inr hs, hk⟩
  | group i r ih =>
    intro k xs m res h
    simp only [Regex.run] at h
    obtain ⟨a, b, m₁, rfl, hs, hk⟩ := ih _ xs m res h
    rw [consumed_append] at hk
    exact ⟨a, b, _, rfl, ⟨m₁, hs, rfl⟩, hk⟩
  | eot =>
    intro k xs m res h
    cases xs with
    | nil => exact ⟨[], [], m, rfl, ⟨rfl, rfl, rfl⟩, by simpa [Regex.run] using h⟩
    | cons c cs => simp [Regex.run] at h

theorem run_complete : ∀ (r : Regex) (k : List Char → Caps → Option Caps)
    (a b : List Char) (m m' : Caps), r.Sem a b m m' → (k b m').isSome →
      (r.run k (a ++ b) m).isSome := by
  intro r
  induction r with
  | cls p =>
    intro k a b m m' hs hk
    obtain ⟨⟨c, rfl, hc⟩, rfl⟩ := hs
    simpa [Regex.run, hc] using hk
  | lit s =>
    intro k a b m m' hs hk
    obtain ⟨rfl, rfl⟩ := hs
    have : a.isPrefixOf (a ++ b) = true := List.isPrefixOf_iff_prefix.mpr (List.prefix_append a b)
    simpa [Regex.run, this] using hk
  | plus p =>
    intro k a b m m' hs hk
    obtain ⟨hne, hall, rfl⟩ := hs
    simp only [Regex.run]
    exact plusLoop_complete p _ a b hne hall hk
  | seq r₁ r₂ ih₁ ih₂ =>
    intro k a b m m' hs hk
    obtain ⟨a₁, a₂, m₁, rfl, hs₁, hs₂⟩ := hs
    simp only [Regex.run, List.append_assoc]
    exact ih₁ _ a₁ (a₂ ++ b) m m₁ hs₁ (ih₂ k a₂ b m₁ m' hs₂ hk)
  | alt r₁ r₂ ih₁ ih₂ =>
    intro k a b m m' hs hk
    simp only [Regex.run]
    cases h₁ : r₁.run k (a ++ b) m with
    | some r => simp
    | none =>
      rcases hs with hs | hs
      · have := ih₁ k a b m m' hs hk
        rw [h₁] at this; cases this
      · exact ih₂ k a b m m' hs hk
  | group i r ih =>
    intro k a b m m' hs hk
    obtain ⟨m₁, hs, rfl⟩ := hs
    simp only [Regex.run]
    refine ih _ a b m m₁ hs ?_
    simpa [consumed_append] using hk
  | eot =>
    intro k a b m m' hs hk
    obtain ⟨rfl, rfl, rfl⟩ := hs
    simpa [Regex.run] using hk

theorem matchAt_sound (r : Regex) (xs : List Char) (m : Caps)
    (h : r.matchAt xs = some m) :
    ∃ a b m', xs = a ++ b ∧ r.Sem a b (fun _ => []) m' ∧ m = setCap m' 0 a := by
  obtain ⟨a, b, m', rfl, hs, hk⟩ := run_sound r _ xs _ m h
  refine ⟨a, b, m', rfl, hs, ?_⟩
  rw [consumed_append] at hk
  exact (Option.some.inj hk).symm

theorem matchAt_complete (r : Regex) (a b : List Char) (m' : Caps)
    (h : r.Sem a b (fun _ => []) m') : (r.matchAt (a ++ b)).isSome :=
  run_complete r _ a b _ m' h rfl

theorem find_of_matchAt (r : Regex) (xs : List Char) (m : Caps)
    (h : r.matchAt xs = some m) : r.find xs = some m := by
  cases xs with
  | nil => simpa [Regex.find] using h
  | cons c cs => simp [Regex.find, h]

theorem find_sound (r : Regex) : ∀ (xs : List Char) (m : Caps),
    r.find xs = some m →
      ∃ pre a b m', xs = pre ++ (a ++ b) ∧ r.Sem a b (fun _ => []) m' ∧
        m = setCap m' 0 a := by
  intro xs
  induction xs with
  | nil =>
    intro m h
    obtain ⟨a, b, m', hab, hs, hm⟩ := matchAt_sound r [] m (by simpa [Regex.find] using h)
    exact ⟨[], a, b, m', by simpa using hab, hs, hm⟩
  | cons c cs ih =>
    intro m h
    simp only [Regex.find] at h
    cases hm : r.matchAt (c :: cs) with
    | some m₁ =>
      rw [hm] at h
      obtain ⟨a, b, m', hab, hs, hm'⟩ := matchAt_sound r _ m₁ hm
      refine ⟨[], a, b, m', by simpa using hab, hs, ?_⟩
      rw [← hm']; exact (Option.some.inj h).symm
    | none =>
      rw [hm] at h
      obtain ⟨pre, a, b, m', hab, hs, hm'⟩ := ih m h
      exact ⟨c :: pre, a, b, m', by simp [hab], hs, hm'⟩

theorem find_complete (r : Regex) : ∀ (pre a b : List Char) (m' : Caps),
    r.Sem a b (fun _ => []) m' → (r.find (pre ++ (a ++ b))).isSome := by
  intro pre
  induction pre with
  | nil =>
    intro a b m' hs
    have h := matchAt_complete r a b m' hs
    obtain ⟨m, hm⟩ := Option.isSome_iff_exists.mp h
    simp [find_of_matchAt r _ m hm]
  | cons c cs ih =>
    intro a b m' hs
    simp only [List.cons_append, Regex.find]
    cases hm : r.matchAt (c :: (cs ++ (a ++ b))) with
    | some m => simp
    | none => exact ih a b m' hs

/-- `FindStringSubmatch` returns `nil` exactly when no part of the text matches
the pattern. -/
theorem find_eq_none_iff (r : Regex) (xs : List Char) :
    r.find xs = none ↔
      ¬ ∃ pre a b m', xs = pre ++ (a ++ b) ∧ r.Sem a b (fun _ => []) m' := by
  constructor
  · rintro h ⟨pre, a, b, m', rfl, hs⟩
    have := find_complete r pre a b m' hs
    rw [h] at this; cases this
  · intro h
    cases hf : r.find xs with
    | none => rfl
    | some m =>
      obtain ⟨pre, a, b, m', hab, hs, _⟩ := find_sound r xs m hf
      exact absurd ⟨pre, a, b, m', hab, hs⟩ h

/-! ### Rewriting rules of the matcher and of the meaning -/

theorem sem_group (i : Nat) (r : Regex) (a b : List Char) (m m' : Caps) :
    (Regex.group i r).Sem a b m m' ↔ ∃ m₁, r.Sem a b m m₁ ∧ m' = setCap m₁ i a :=
  Iff.rfl

theorem sem_seq (r₁ r₂ : Regex) (a b : List Char) (m m' : Caps) :
    (Regex.seq r₁ r₂).Sem a b m m' ↔
      ∃ a₁ a₂ m₁, a = a₁ ++ a₂ ∧ r₁.Sem a₁ (a₂ ++ b) m m₁ ∧ r₂.Sem a₂ b m₁ m' :=
  Iff.rfl

theorem sem_plus (p : Char → Bool) (a b : List Char) (m m' : Caps) :
    (Regex.plus p).Sem a b m m' ↔ a ≠ [] ∧ (∀ c ∈ a, p c = true) ∧ m' = m :=
  Iff.rfl

theorem sem_cls (p : Char → Bool) (a b : List Char) (m m' : Caps) :
    (Regex.cls p).Sem a b m m' ↔ (∃ c, a = [c] ∧ p c = true) ∧ m' = m :=
  Iff.rfl

theorem sem_lit (s : List Char) (a b : List Char) (m m' : Caps) :
    (Regex.lit s).Sem a b m m' ↔ a = s ∧ m' = m :=
  Iff.rfl

theorem sem_eot (a b : List Char) (m m' : Caps) :
    Regex.eot.Sem a b m m' ↔ a = [] ∧ b = [] ∧ m' = m :=
  Iff.rfl

theorem consumed_nil (xs : List Char) : consumed xs [] = xs := by
  simp [consumed]

theorem run_seq (r₁ r₂ : Regex) (k : List Char → Caps → Option Caps) (xs : List Char)
    (m : Caps) :
    (Regex.seq r₁ r₂).run k xs m = r₁.run (fun rest m₁ => r₂.run k rest m₁) xs m := rfl

theorem run_group (i : Nat) (r : Regex) (k : List Char → Caps → Option Caps)
    (xs : List Char) (m : Caps) :
    (Regex.group i r).run k xs m =
      r.run (fun rest m₁ => k rest (setCap m₁ i (consumed xs rest))) xs m := rfl

theorem run_plus (p : Char → Bool) (k : List Char → Caps → Option Caps)
    (xs : List Char) (m : Caps) :
    (Regex.plus p).run k xs m = plusLoop p (fun rest => k rest m) xs := rfl

theorem run_lit_append (s rest : List Char) (k : List Char → Caps → Option Caps)
    (m : Caps) : (Regex.lit s).run k (s ++ rest) m = k rest m := by
  have : s.isPrefixOf (s ++ rest) = true :=
    List.isPrefixOf_iff_prefix.mpr (List.prefix_append s rest)
  simp [Regex.run, this]

theorem run_cls_cons (p : Char → Bool) (c : Char) (cs : List Char)
    (k : List Char → Caps → Option Caps) (m : Caps) (hc : p c = true) :
    (Regex.cls p).run k (c :: cs) m = k cs m := by
  simp [Regex.run, hc]

/-- The position of the first occurrence of a character is unique. -/
theorem first_occurrence_unique (c : Char) :
    ∀ (x x' y y' : List Char), c ∉ x → c ∉ x' → x ++ c :: y = x' ++ c :: y' →
      x = x' := by
  intro x
  induction x with
  | nil =>
    intro x' y y' _ hx' h
    cases x' with
    | nil => rfl
    | cons d ds =>
      simp only [List.nil_append, List.cons_append, List.cons.injEq] at h
      exact absurd (h.1 ▸ List.mem_cons_self _ _) hx'
  | cons e es ih =>
    intro x' y y' hx hx' h
    cases x' with
    | nil =>
      simp only [List.nil_append, List.cons_append, List.cons.injEq] at h
      exact absurd (h.1 ▸ List.mem_cons_self _ _) hx
    | cons d ds =>
      simp only [List.cons_append, List.cons.injEq] at h
      rw [h.1, ih ds y y' (fun hm => hx (List.mem_cons_of_mem _ hm))
        (fun hm => hx' (List.mem_cons_of_mem _ hm)) h.2]

theorem plain_any {t : List Char} (h : Plain t) : ∀ c ∈ t, isAny c = true :=
  fun c hc => (h c hc).1

theorem plain_count {t : List Char} (h : Plain t) : t.count '-' = 0 :=
  List.count_eq_zero.mpr (fun hm => (h _ hm).2 rfl)

theorem isKind_count {X : List Char} (h : IsKind X) : X.count '-' = 0 := by
  rcases h with rfl | rfl <;> decide

theorem isKind_length {X : List Char} (h : IsKind X) : X.length = 3 := by
  rcases h with rfl | rfl <;> rfl

/-- Shape of what `(JWT|KEY)\-` consumes. -/
theorem sem_kind_dash (i : Nat) (a b : List Char) (m m' : Caps)
    (h : (Regex.seq (.group i (.alt (.lit ['J', 'W', 'T']) (.lit ['K', 'E', 'Y'])))
      (.lit ['-'])).Sem a b m m') :
    ∃ X, IsKind X ∧ a = X ++ ['-'] := by
  simp only [Regex.Sem] at h
  obtain ⟨a₁, a₂, m₁, rfl, ⟨m₂, hX, _⟩, rfl, _⟩ := h
  rcases hX with ⟨rfl, _⟩ | ⟨rfl, _⟩
  · exact ⟨_, Or.inl rfl, rfl⟩
  · exact ⟨_, Or.inr rfl, rfl⟩

/-- Shape of what the closing marker pattern consumes. -/
theorem sem_closeMarker (i : Nat) (a b : List Char) (m m' : Caps)
    (h : (closeMarkerRe i).Sem a b m m') :
    ∃ u X, IsKind X ∧ u ≠ [] ∧ a = ['-', 'E', 'N', 'D'] ++ (u ++ (X ++ ['-'])) := by
  unfold closeMarkerRe at h
  rw [Regex.Sem] at h
  obtain ⟨a₁, a₂, m₁, rfl, h₁, h₂⟩ := h
  rw [Regex.Sem] at h₂
  obtain ⟨a₃, a₄, m₂, rfl, h₃, h₄⟩ := h₂
  obtain ⟨X, hX, rfl⟩ := sem_kind_dash i _ _ _ _ h₄
  simp only [Regex.Sem] at h₁ h₃
  obtain ⟨rfl, _⟩ := h₁
  exact ⟨a₃, X, hX, h₃.1, rfl⟩

/-- Evaluation of `(JWT|KEY)\-` on a text that starts with a marker kind and a
dash. -/
theorem run_kind_dash (i : Nat) (X rest : List Char) (hX : IsKind X)
    (k : List Char → Caps → Option Caps) (m : Caps) :
    (Regex.seq (.group i (.alt (.lit ['J', 'W', 'T']) (.lit ['K', 'E', 'Y'])))
      (.lit ['-'])).run k (X ++ ('-' :: rest)) m = k rest (setCap m i X) := by
  rcases hX with rfl | rfl
  · simp only [Regex.run, consumed, List.isPrefixOf]
    simp
    cases k rest (setCap m i ['J', 'W', 'T']) <;> rfl
  · simp [Regex.run, consumed, List.isPrefixOf]


theorem count_zero_of_not_mem (T : List Char) (h : '-' ∉ T) : T.count '-' = 0 :=
  List.count_eq_zero.mpr h

/-- Evaluation of the closing marker pattern on a closing marker followed by
dash-free text: the greedy `.+` takes the whole label. -/
theorem run_closeMarker_tail (i : Nat) (L X T : List Char) (hL : L ≠ []) (hLp : Plain L)
    (hX : IsKind X) (hT : '-' ∉ T) (k : List Char → Caps → Option Caps) (m res : Caps)
    (hk : k T (setCap m i X) = some res) :
    (closeMarkerRe i).run k (['-', 'E', 'N', 'D'] ++ (L ++ (X ++ '-' :: T))) m =
      some res := by
  unfold closeMarkerRe
  rw [run_seq, run_lit_append, run_seq, run_plus]
  apply plusLoop_greedy isAny _ L (X ++ '-' :: T) res hL (plain_any hLp)
  · cases h : plusLoop isAny _ (X ++ '-' :: T) with
    | none => rfl
    | some r =>
      exfalso
      obtain ⟨a', b', hab, hne, _, hkk⟩ := plusLoop_sound _ _ _ _ h
      obtain ⟨a₂, b₂, m₂, rfl, hs₂, _⟩ := run_sound _ _ _ _ _ hkk
      obtain ⟨X', hX', rfl⟩ := sem_kind_dash _ _ _ _ _ hs₂
      have hc := congrArg (List.count '-') hab
      simp [List.count_append, List.count_cons, isKind_count hX, isKind_count hX',
        count_zero_of_not_mem T hT] at hc
      have ha' : '-' ∉ a' := by
        intro hm
        have := List.count_pos_iff.mpr hm
        omega
      have hX0 : '-' ∉ X := fun hm => by
        have := List.count_pos_iff.mpr hm; have := isKind_count hX; omega
      have hX0' : '-' ∉ a' ++ X' := fun hm => by
        rcases List.mem_append.mp hm with hm | hm
        · exact ha' hm
        · have := List.count_pos_iff.mpr hm; have := isKind_count hX'; omega
      have heq := first_occurrence_unique '-' X (a' ++ X') _ _ hX0 hX0'
        (by simpa [List.append_assoc] using hab)
      have hlen := congrArg List.length heq
      simp [isKind_length hX, isKind_length hX'] at hlen
      exact hne hlen
  · show (Regex.seq _ _).run k (X ++ '-' :: T) m = some res
    rw [run_kind_dash i X T hX]
    exact hk

theorem consumed_close (L X T : List Char) :
    consumed (['-', 'E', 'N', 'D'] ++ (L ++ (X ++ '-' :: T))) T =
      ['-', 'E', 'N', 'D'] ++ (L ++ (X ++ ['-'])) := by
  have : ['-', 'E', 'N', 'D'] ++ (L ++ (X ++ '-' :: T)) =
      (['-', 'E', 'N', 'D'] ++ (L ++ (X ++ ['-']))) ++ T := by simp
  rw [this, consumed_append]

/-- Evaluation of `(?P<token>.+)(\-END.+(JWT|KEY)\-)` on a dash-free payload
followed by a closing marker and dash-free text: the token is the payload. -/
theorem run_token_close_tail (p L X T : List Char) (hp : p ≠ []) (hpp : Plain p)
    (hL : L ≠ []) (hLp : Plain L) (hX : IsKind X) (hT : '-' ∉ T)
    (k : List Char → Caps → Option Caps) (m res : Caps)
    (hk : k T (setCap (setCap (setCap m 3 p) 5 X) 4
      (['-', 'E', 'N', 'D'] ++ (L ++ (X ++ ['-'])))) = some res) :
    (Regex.seq (.group 3 (.plus isAny)) (.group 4 (closeMarkerRe 5))).run k
      (p ++ (['-', 'E', 'N', 'D'] ++ (L ++ (X ++ '-' :: T)))) m = some res := by
  rw [run_seq, run_group, run_plus]
  apply plusLoop_greedy isAny _ p _ res hp (plain_any hpp)
  · cases h : plusLoop isAny _ (['-', 'E', 'N', 'D'] ++ (L ++ (X ++ '-' :: T))) with
    | none => rfl
    | some r =>
      exfalso
      obtain ⟨a', b', hab, hne, _, hkk⟩ := plusLoop_sound _ _ _ _ h
      obtain ⟨a₄, b₄, m', rfl, hs, _⟩ := run_sound _ _ _ _ _ hkk
      rw [sem_group] at hs
      obtain ⟨m₁, hs, _⟩ := hs
      obtain ⟨u, Y, hY, hu, rfl⟩ := sem_closeMarker _ _ _ _ _ hs
      have hc := congrArg (List.count '-') hab
      cases a' with
      | nil => exact hne rfl
      | cons c a'' =>
        simp only [List.cons_append, List.cons.injEq] at hab
        rw [← hab.1] at hc
        simp [List.count_append, List.count_cons, plain_count hLp, isKind_count hX,
          isKind_count hY, count_zero_of_not_mem T hT] at hc
        omega
  · show (Regex.group 4 (closeMarkerRe 5)).run k _ _ = some res
    rw [run_group, consumed_append]
    apply run_closeMarker_tail 5 L X T hL hLp hX hT
    show k T (setCap _ 4 (consumed _ T)) = some res
    rw [consumed_close]
    exact hk

/-- The marker pattern on a text `-BEGIN L₁ X - p -END L₂ Y - T`, where only
the payload `p`, the closing label `L₂` and the text `T` after the block need
be dash-free: the greedy opening `.+` runs up to the last marker kind before
the payload, whatever the text `L₁` it crosses. -/
theorem tokenRe_run_block_tail (L₁ X p L₂ Y T : List Char)
    (hL₁ : L₁ ≠ []) (hL₁a : ∀ c ∈ L₁, isAny c = true) (hX : IsKind X) (hp : p ≠ [])
    (hpp : Plain p) (hL₂ : L₂ ≠ []) (hL₂p : Plain L₂) (hY : IsKind Y) (hT : '-' ∉ T)
    (k : List Char → Caps → Option Caps) (m res : Caps)
    (hk : k T (setCap (setCap (setCap (setCap (setCap m 2 X) 1
      (consumed (['-', 'B', 'E', 'G', 'I', 'N'] ++ (L₁ ++ (X ++ ('-' ::
        (p ++ (['-', 'E', 'N', 'D'] ++ (L₂ ++ (Y ++ '-' :: T))))))))
        (p ++ (['-', 'E', 'N', 'D'] ++ (L₂ ++ (Y ++ '-' :: T)))))) 3 p) 5 Y) 4
      (['-', 'E', 'N', 'D'] ++ (L₂ ++ (Y ++ ['-'])))) = some res) :
    tokenRe.run k (['-', 'B', 'E', 'G', 'I', 'N'] ++ (L₁ ++ (X ++ ('-' ::
        (p ++ (['-', 'E', 'N', 'D'] ++ (L₂ ++ (Y ++ '-' :: T)))))))) m = some res := by
  unfold tokenRe openMarkerRe
  rw [run_seq, run_group, run_seq, run_lit_append, run_seq, run_plus]
  apply plusLoop_greedy isAny _ L₁ _ _ hL₁ hL₁a
  · cases h : plusLoop isAny _ (X ++ ('-' ::
        (p ++ (['-', 'E', 'N', 'D'] ++ (L₂ ++ (Y ++ '-' :: T)))))) with
    | none => rfl
    | some r =>
      exfalso
      obtain ⟨a', b', hab, hne, _, hkk⟩ := plusLoop_sound _ _ _ _ h
      obtain ⟨a₂, b₂, m₂, rfl, hs₂, hk₂⟩ := run_sound _ _ _ _ _ hkk
      obtain ⟨X', hX', rfl⟩ := sem_kind_dash _ _ _ _ _ hs₂
      obtain ⟨a₃, b₃, m₃, rfl, hs₃, _⟩ := run_sound _ _ _ _ _ hk₂
      rw [sem_seq] at hs₃
      obtain ⟨t, a₄, m₄, rfl, _, hs₄⟩ := hs₃
      rw [sem_group] at hs₄
      obtain ⟨m₆, hs₄, _⟩ := hs₄
      obtain ⟨u, Y', hY', hu, rfl⟩ := sem_closeMarker _ _ _ _ _ hs₄
      have hc := congrArg (List.count '-') hab
      simp [List.count_append, List.count_cons, plain_count hL₂p, isKind_count hX,
        isKind_count hY, isKind_count hX', isKind_count hY', plain_count hpp,
        count_zero_of_not_mem T hT] at hc
      have ha' : '-' ∉ a' := by
        intro hm
        have := List.count_pos_iff.mpr hm
        omega
      have hX0 : '-' ∉ X := fun hm => by
        have := List.count_pos_iff.mpr hm; have := isKind_count hX; omega
      have hX0' : '-' ∉ a' ++ X' := fun hm => by
        rcases List.mem_append.mp hm with hm | hm
        · exact ha' hm
        · have := List.count_pos_iff.mpr hm; have := isKind_count hX'; omega
      have heq := first_occurrence_unique '-' X (a' ++ X') _ _ hX0 hX0'
        (by simpa [List.append_assoc] using hab)
      have hlen := congrArg List.length heq
      simp [isKind_length hX, isKind_length hX'] at hlen
      exact hne hlen
  · show (Regex.seq _ _).run _ (X ++ ('-' :: _)) _ = some _
    rw [run_kind_dash 2 X _ hX]
    exact run_token_close_tail p L₂ Y T hp hpp hL₂ hL₂p hY hT _ _ _ hk

/-- Evaluation of the closing marker pattern on a closing marker: the greedy
`.+` takes the whole label. -/
theorem run_closeMarker (i : Nat) (L X : List Char) (hL : L ≠ []) (hLp : Plain L)
    (hX : IsKind X) (k : List Char → Caps → Option Caps) (m res : Caps)
    (hk : k [] (setCap m i X) = some res) :
    (closeMarkerRe i).run k (['-', 'E', 'N', 'D'] ++ (L ++ (X ++ ['-']))) m = some res :=
  run_closeMarker_tail i L X [] hL hLp hX (by simp) k m res hk


/-- Evaluation of `(?P<token>.+)(\-END.+(JWT|KEY)\-)` on a dash-free payload
followed by a closing marker: the token is the payload. -/
theorem run_token_close (p L X : List Char) (hp : p ≠ []) (hpp : Plain p)
    (hL : L ≠ []) (hLp : Plain L) (hX : IsKind X)
    (k : List Char → Caps → Option Caps) (m res : Caps)
    (hk : k [] (setCap (setCap (setCap m 3 p) 5 X) 4
      (['-', 'E', 'N', 'D'] ++ (L ++ (X ++ ['-'])))) = some res) :
    (Regex.seq (.group 3 (.plus isAny)) (.group 4 (closeMarkerRe 5))).run k
      (p ++ (['-', 'E', 'N', 'D'] ++ (L ++ (X ++ ['-'])))) m = some res :=
  run_token_close_tail p L X [] hp hpp hL hLp hX (by simp) k m res hk


/-- The marker pattern on a normalized block `-BEGIN L₁ X - p -END L₂ Y -`
with dash-free labels and payload, run with any continuation that accepts the
end of the text: the greedy repetitions stop at the ends of the labels and of
the payload. -/
theorem tokenRe_run_block (L₁ X p L₂ Y : List Char)
    (hL₁ : L₁ ≠ []) (hL₁p : Plain L₁) (hX : IsKind X) (hp : p ≠ []) (hpp : Plain p)
    (hL₂ : L₂ ≠ []) (hL₂p : Plain L₂) (hY : IsKind Y)
    (k : List Char → Caps → Option Caps) (m res : Caps)
    (hk : k [] (setCap (setCap (setCap (setCap (setCap m 2 X) 1
      (consumed (['-', 'B', 'E', 'G', 'I', 'N'] ++ (L₁ ++ (X ++ ('-' ::
        (p ++ (['-', 'E', 'N', 'D'] ++ (L₂ ++ (Y ++ ['-']))))))))
        (p ++ (['-', 'E', 'N', 'D'] ++ (L₂ ++ (Y ++ ['-'])))))) 3 p) 5 Y) 4
      (['-', 'E', 'N', 'D'] ++ (L₂ ++ (Y ++ ['-'])))) = some res) :
    tokenRe.run k (['-', 'B', 'E', 'G', 'I', 'N'] ++ (L₁ ++ (X ++ ('-' ::
        (p ++ (['-', 'E', 'N', 'D'] ++ (L₂ ++ (Y ++ ['-']))))))))  m = some res :=
  tokenRe_run_block_tail L₁ X p L₂ Y [] hL₁ (plain_any hL₁p) hX hp hpp hL₂ hL₂p hY (by simp)
    k m res hk

/-- The marker pattern finds the payload of a normalized block. -/
theorem tokenRe_find_block (L₁ X p L₂ Y : List Char)
    (hL₁ : L₁ ≠ []) (hL₁p : Plain L₁) (hX : IsKind X) (hp : p ≠ []) (hpp : Plain p)
    (hL₂ : L₂ ≠ []) (hL₂p : Plain L₂) (hY : IsKind Y) :
    ∃ m, tokenRe.find (['-', 'B', 'E', 'G', 'I', 'N'] ++ (L₁ ++ (X ++ ('-' ::
        (p ++ (['-', 'E', 'N', 'D'] ++ (L₂ ++ (Y ++ ['-']))))))))  = some m ∧
      m 3 = p :=
  ⟨_, find_of_matchAt _ _ _
    (tokenRe_run_block L₁ X p L₂ Y hL₁ hL₁p hX hp hpp hL₂ hL₂p hY _ _ _ rfl),
    by simp [setCap]⟩

/-! ### Normalization -/

theorem ascii_cases (P : Char → Prop) (h : ∀ n : Fin 128, P (Char.ofNat n)) (c : Char)
    (hc : c.toNat < 128) : P c := by
  have := h ⟨c.toNat, hc⟩
  simpa using this

theorem toUpperRune_ascii (tbl : Char → Char) (c : Char) (hc : c.toNat < 128) :
    toUpperRune tbl c = toUpperRune id c := by
  simp [toUpperRune, hc]

theorem upper_alnum_plain (tbl : Char → Char) (c : Char) (h : isAlnum c = true) :
    isSpace (toUpperRune tbl c) = false ∧ toUpperRune tbl c ≠ '-' ∧
      isAny (toUpperRune tbl c) = true := by
  have hc : c.toNat < 128 := by
    simp [isAlnum] at h; omega
  rw [toUpperRune_ascii tbl c hc]
  revert h
  refine ascii_cases (fun c => isAlnum c = true → isSpace (toUpperRune id c) = false ∧
    toUpperRune id c ≠ '-' ∧ isAny (toUpperRune id c) = true) ?_ c hc
  decide



theorem replaceRunsAux_erase (p : Char → Bool) :
    ∀ (flag : Bool) (xs : List Char),
      replaceRunsAux p [] flag xs = xs.filter (fun c => !p c) := by
  intro flag xs
  induction xs generalizing flag with
  | nil => rfl
  | cons c cs ih =>
    by_cases hc : p c = true
    · cases flag <;> simp [replaceRunsAux, hc, ih]
    · simp [replaceRunsAux, hc, ih]

theorem filter_keep (p : Char → Bool) (t : List Char) (h : ∀ c ∈ t, p c = false) :
    t.filter (fun c => !p c) = t := by
  rw [List.filter_eq_self]
  intro c hc
  simp [h c hc]

theorem replaceRunsAux_append_keep (p : Char → Bool) (repl : List Char) :
    ∀ (a b : List Char) (flag : Bool), a ≠ [] → (∀ c ∈ a, p c = false) →
      replaceRunsAux p repl flag (a ++ b) = a ++ replaceRunsAux p repl false b := by
  intro a
  induction a with
  | nil => intro b flag h; exact absurd rfl h
  | cons c cs ih =>
    intro b flag _ hall
    have hc : p c = false := hall c (List.mem_cons_self _ _)
    cases cs with
    | nil => simp [replaceRunsAux, hc]
    | cons d ds =>
      have := ih b false (by simp) (fun x hx => hall x (List.mem_cons_of_mem _ hx))
      simp only [List.cons_append] at this ⊢
      rw [replaceRunsAux]
      simp [hc, this]

/-- The normalized form of a formatted token whose label and payload hold
neither whitespace nor a dash. -/
theorem normalize_block (U p : List Char) (hU : U ≠ [])
    (hUs : ∀ c ∈ U, isSpace c = false) (hUd : ∀ c ∈ U, isDash c = false)
    (hp : p ≠ []) (hps : ∀ c ∈ p, isSpace c = false) (hpd : ∀ c ∈ p, isDash c = false) :
    normalize ("-----BEGIN ".toList ++ U ++ " JWT-----\n".toList ++ (p ++ ['\n'])
      ++ ("------END ".toList ++ U ++ " JWT------\n".toList) ++ ['\n']) =
    ['-', 'B', 'E', 'G', 'I', 'N'] ++ (U ++ (['J', 'W', 'T'] ++ ('-' ::
        (p ++ (['-', 'E', 'N', 'D'] ++ (U ++ (['J', 'W', 'T'] ++ ['-']))))))) := by
  unfold normalize replaceRuns
  rw [replaceRunsAux_erase]
  simp only [List.filter_append, filter_keep isSpace U hUs, filter_keep isSpace p hps]
  simp [isSpace, replaceRunsAux, isDash, replaceRunsAux_append_keep isDash _ U _ _ hU hUd,
    replaceRunsAux_append_keep isDash _ p _ _ hp hpd]

theorem plain_of_clean (p : List Char) (h : ∀ c ∈ p, isSpace c = false ∧ c ≠ '-') :
    Plain p := by
  intro c hc
  obtain ⟨hs, hd⟩ := h c hc
  refine ⟨?_, hd⟩
  simp only [isSpace, Bool.or_eq_false_iff, beq_eq_false_iff_ne] at hs
  simp [isAny, hs.1.1.1.2]

/-- Extraction from any text that normalizes like a formatted token: the
result is the payload. -/
theorem extractToken_of_normalized (tbl : Char → Char) (label p s : List Char)
    (hlabel : label ≠ []) (hl : ∀ c ∈ label, isAlnum c = true)
    (hp : p ≠ []) (hpc : ∀ c ∈ p, isSpace c = false ∧ c ≠ '-')
    (hs : normalize s = normalize (FormatJwt tbl label p)) :
    ExtractToken s = p := by
  have hU : ToUpper tbl label ≠ [] := by
    simpa [ToUpper] using hlabel
  have hUc : ∀ c ∈ ToUpper tbl label, isSpace c = false ∧ c ≠ '-' := by
    intro c hc
    simp only [ToUpper, List.mem_map] at hc
    obtain ⟨d, hd, rfl⟩ := hc
    exact ⟨(upper_alnum_plain tbl d (hl d hd)).1, (upper_alnum_plain tbl d (hl d hd)).2.1⟩
  have hn := normalize_block (ToUpper tbl label) p hU (fun c hc => (hUc c hc).1)
    (fun c hc => by simpa [isDash] using (hUc c hc).2) hp (fun c hc => (hpc c hc).1)
    (fun c hc => by simpa [isDash] using (hpc c hc).2)
  obtain ⟨m, hm, h3⟩ := tokenRe_find_block (ToUpper tbl label) ['J', 'W', 'T'] p
    (ToUpper tbl label) ['J', 'W', 'T'] hU (plain_of_clean _ hUc) (Or.inl rfl) hp
    (plain_of_clean _ hpc) hU (plain_of_clean _ hUc) (Or.inl rfl)
  have hs' : normalize s = _ := hs.trans hn
  unfold ExtractToken
  rw [hs', hm]
  exact h3

theorem replaceRunsAux_cons_keep (p : Char → Bool) (repl : List Char) (flag : Bool)
    (c : Char) (cs : List Char) (hc : p c = false) :
    replaceRunsAux p repl flag (c :: cs) = c :: replaceRunsAux p repl false cs := by
  simp [replaceRunsAux, hc]

theorem replaceRunsAux_cons_first (p : Char → Bool) (repl : List Char)
    (c : Char) (cs : List Char) (hc : p c = true) :
    replaceRunsAux p repl false (c :: cs) = repl ++ replaceRunsAux p repl true cs := by
  simp [replaceRunsAux, hc]

theorem replaceRunsAux_cons_more (p : Char → Bool) (repl : List Char)
    (c : Char) (cs : List Char) (hc : p c = true) :
    replaceRunsAux p repl true (c :: cs) = replaceRunsAux p repl true cs := by
  simp [replaceRunsAux, hc]

/-- With the run flag off, a dash-free text at the head of the collapsed text
stands at the head of the original text. -/
theorem collapse_head :
    ∀ (t cs post : List Char), (∀ c ∈ t, isDash c = false) →
      replaceRunsAux isDash ['-'] false cs = t ++ post → ∃ post', cs = t ++ post' := by
  intro t
  induction t with
  | nil => intro cs post _ _; exact ⟨cs, rfl⟩
  | cons d t ih =>
    intro cs post ht h
    have hd : isDash d = false := ht d (List.mem_cons_self _ _)
    cases cs with
    | nil => simp [replaceRunsAux] at h
    | cons e es =>
      cases he : isDash e with
      | true =>
        rw [replaceRunsAux_cons_first _ _ _ _ he] at h
        simp only [List.cons_append, List.nil_append, List.cons.injEq] at h
        rw [← h.1] at hd
        simp [isDash] at hd
      | false =>
        rw [replaceRunsAux_cons_keep _ _ _ _ _ he] at h
        simp only [List.cons_append, List.cons.injEq] at h
        obtain ⟨post', rfl⟩ := ih es post (fun c hc => ht c (List.mem_cons_of_mem _ hc)) h.2
        exact ⟨post', by rw [h.1]; rfl⟩

/-- A dash-free text found in the collapsed text occurs in the original
text. -/
theorem collapse_infix (t : List Char) (ht : ∀ c ∈ t, isDash c = false) :
    ∀ (x : List Char) (flag : Bool) (pre post : List Char),
      replaceRunsAux isDash ['-'] flag x = pre ++ (t ++ post) → t <:+: x := by
  intro x
  induction x with
  | nil =>
    intro flag pre post h
    simp only [replaceRunsAux] at h
    have h' := (List.append_eq_nil.mp h.symm).2
    rw [(List.append_eq_nil.mp h').1]
  | cons c cs ih =>
    intro flag pre post h
    cases hc : isDash c with
    | true =>
      have key : ∀ pre', replaceRunsAux isDash ['-'] true cs = pre' ++ (t ++ post) →
          t <:+: c :: cs :=
        fun pre' h' => (ih true pre' post h').trans (List.infix_cons (List.infix_refl _))
      cases flag with
      | true =>
        rw [replaceRunsAux_cons_more _ _ _ _ hc] at h
        exact key pre h
      | false =>
        rw [replaceRunsAux_cons_first _ _ _ _ hc] at h
        simp only [List.cons_append, List.nil_append] at h
        cases pre with
        | nil =>
          cases t with
          | nil => exact List.nil_infix
          | cons d t' =>
            simp only [List.nil_append, List.cons_append, List.cons.injEq] at h
            have := ht d (List.mem_cons_self _ _)
            rw [← h.1] at this
            simp [isDash] at this
        | cons e pre' =>
          simp only [List.cons_append, List.cons.injEq] at h
          exact key pre' h.2
    | false =>
      rw [replaceRunsAux_cons_keep _ _ _ _ _ hc] at h
      cases pre with
      | nil =>
        cases t with
        | nil => exact List.nil_infix
        | cons d t' =>
          simp only [List.nil_append, List.cons_append, List.cons.injEq] at h
          obtain ⟨post', rfl⟩ := collapse_head t' cs post
            (fun c hc => ht c (List.mem_cons_of_mem _ hc)) h.2
          rw [h.1]
          exact ⟨[], post', by simp⟩
      | cons e pre' =>
        simp only [List.cons_append, List.cons.injEq] at h
        exact (ih false pre' post h.2).trans (List.infix_cons (List.infix_refl _))

/-- Shape of what the opening marker pattern consumes. -/
theorem sem_openMarker (i : Nat) (a b : List Char) (m m' : Caps)
    (h : (openMarkerRe i).Sem a b m m') :
    ∃ u, a = ['-', 'B', 'E', 'G', 'I', 'N'] ++ u := by
  unfold openMarkerRe at h
  rw [sem_seq] at h
  obtain ⟨a₁, a₂, m₁, rfl, h₁, _⟩ := h
  rw [sem_lit] at h₁
  exact ⟨a₂, by rw [h₁.1]⟩

/-- Every match of the marker pattern starts with `-BEGIN`. -/
theorem sem_tokenRe_begin (a b : List Char) (m m' : Caps) (h : tokenRe.Sem a b m m') :
    ∃ u, a = ['-', 'B', 'E', 'G', 'I', 'N'] ++ u := by
  unfold tokenRe at h
  rw [sem_seq] at h
  obtain ⟨a₁, a₂, m₁, rfl, h₁, _⟩ := h
  rw [sem_group] at h₁
  obtain ⟨m₂, h₁, _⟩ := h₁
  obtain ⟨u, rfl⟩ := sem_openMarker _ _ _ _ _ h₁
  exact ⟨u ++ a₂, by simp⟩

/-- A text without `BEGIN` after the removal of whitespace has no match of the
marker pattern in its normalized form. -/
theorem no_marker_of_no_begin (s : List Char)
    (h : ¬ "BEGIN".toList <:+: replaceRuns isSpace [] s) :
    ¬ ∃ pre a b m', normalize s = pre ++ (a ++ b) ∧ tokenRe.Sem a b (fun _ => []) m' := by
  rintro ⟨pre, a, b, m', hn, hs⟩
  obtain ⟨u, rfl⟩ := sem_tokenRe_begin _ _ _ _ hs
  apply h
  refine collapse_infix "BEGIN".toList (by decide) (replaceRuns isSpace [] s) false
    (pre ++ ['-']) (u ++ b) ?_
  have : normalize s = replaceRunsAux isDash ['-'] false (replaceRuns isSpace [] s) := rfl
  rw [← this, hn]
  simp

/-! ### Decimal digits -/

theorem isDigit_iff (c : Char) : isDigit c = true ↔ 48 ≤ c.toNat ∧ c.toNat ≤ 57 := by
  simp [isDigit]

theorem isDigit_ne_dash (c : Char) (h : isDigit c = true) : c ≠ '-' ∧ c ≠ '+' := by
  constructor <;> (rintro rfl; revert h; decide)

theorem toUpperRune_digit (tbl : Char → Char) (c : Char) (h : isDigit c = true) :
    toUpperRune tbl c = c := by
  rw [isDigit_iff] at h
  have h1 : c.toNat < 128 := by omega
  have h2 : ¬ (97 ≤ c.toNat ∧ c.toNat ≤ 122) := by omega
  simp [toUpperRune, h1, h2]

theorem ToUpper_digits (tbl : Char → Char) (d : List Char)
    (h : ∀ c ∈ d, isDigit c = true) : ToUpper tbl d = d := by
  unfold ToUpper
  conv_rhs => rw [← List.map_id d]
  exact List.map_congr_left (fun c hc => toUpperRune_digit tbl c (h c hc))

theorem digitsVal_append (d : List Char) (c : Char) :
    digitsVal (d ++ [c]) = 10 * digitsVal d + digitVal c := by
  simp [digitsVal, List.foldl_append]

/-- `ParseInt` on a run of decimal digits. -/
theorem ParseInt_digits (d : List Char) (hd : d ≠ []) (hdd : ∀ c ∈ d, isDigit c = true) :
    ParseInt d =
      if digitsVal d ≥ 2 ^ 63 then .error (.numError d .range)
      else .ok (digitsVal d : Int) := by
  cases d with
  | nil => exact absurd rfl hd
  | cons c cs =>
    have hc := isDigit_ne_dash c (hdd c (List.mem_cons_self _ _))
    have h1 : (c == '-') = false := by simpa using hc.1
    have h2 : (c == '+') = false := by simpa using hc.2
    have hall : (c :: cs).all isDigit = true := by
      rw [List.all_eq_true]; exact hdd
    unfold ParseInt
    simp only [h1, h2, Bool.or_self, Bool.false_eq_true, if_false, List.isEmpty_cons, hall,
      Bool.not_true, Bool.not_false, Bool.true_and, Bool.false_and, decide_eq_true_eq]

theorem wrap64_of_range (x : Int) (h0 : 0 ≤ x) (h1 : x ≤ 2 ^ 63 - 1) : wrap64 x = x := by
  unfold wrap64
  norm_num at h1 ⊢
  omega

/-! ### The digit patterns -/

theorem plusLoop_all (p : Char → Bool) (k : List Char → Option Caps) (d : List Char)
    (res : Caps) (hd : d ≠ []) (hall : ∀ c ∈ d, p c = true) (hk : k [] = some res) :
    plusLoop p k d = some res := by
  have := plusLoop_greedy p k d [] res hd hall rfl hk
  simpa using this

theorem last_of_append_eq (xs ys : List Char) (c x : Char) (h : xs ++ [c] = ys ++ [x]) :
    c = x := by
  have := congrArg List.reverse h
  simp only [List.reverse_append, List.reverse_cons, List.reverse_nil, List.nil_append,
    List.cons_append, List.cons.injEq] at this
  exact this.1

theorem exists_last (a : List Char) (h : a ≠ []) : ∃ a' x, a = a' ++ [x] := by
  rcases List.eq_nil_or_concat a with h' | ⟨a', x, h'⟩
  · exact absurd h' h
  · exact ⟨a', x, by simpa using h'⟩

/-- Shape of a match of `(\d+$)`. -/
theorem sem_trailingDigits (a b : List Char) (m m' : Caps)
    (h : trailingDigitsRe.Sem a b m m') :
    a ≠ [] ∧ (∀ c ∈ a, isDigit c = true) ∧ b = [] := by
  unfold trailingDigitsRe at h
  rw [sem_group] at h
  obtain ⟨m₁, h, _⟩ := h
  rw [sem_seq] at h
  obtain ⟨a₁, a₂, m₂, rfl, h₁, h₂⟩ := h
  rw [sem_plus] at h₁
  rw [sem_eot] at h₂
  obtain ⟨rfl, rfl, _⟩ := h₂
  simpa using ⟨h₁.1, h₁.2.1⟩

/-- On a run of digits `(\d+$)` matches the whole text. -/
theorem trailingDigits_find_digits (d : List Char) (hd : d ≠ [])
    (hdd : ∀ c ∈ d, isDigit c = true) :
    ∃ m, trailingDigitsRe.find d = some m ∧ m 0 = d := by
  have h : trailingDigitsRe.matchAt d =
      some (setCap (setCap (fun _ => []) 1 (consumed d [])) 0 (consumed d [])) := by
    unfold Regex.matchAt trailingDigitsRe
    rw [run_group, run_seq, run_plus]
    exact plusLoop_all isDigit _ d _ hd hdd rfl
  exact ⟨_, find_of_matchAt _ _ _ h, by simp [setCap, consumed]⟩

/-- A text that does not end in a digit has no match of `(\d+$)`. -/
theorem trailingDigits_find_none (xs : List Char) (c : Char) (hc : isDigit c = false) :
    trailingDigitsRe.find (xs ++ [c]) = none := by
  rw [find_eq_none_iff]
  rintro ⟨pre, a, b, m', h, hs⟩
  obtain ⟨ha, hall, rfl⟩ := sem_trailingDigits _ _ _ _ hs
  obtain ⟨a', x, rfl⟩ := exists_last a ha
  have hx : isDigit x = true := hall x (by simp)
  have : c = x := last_of_append_eq xs (pre ++ a') c x (by simpa using h)
  rw [this, hx] at hc
  cases hc

/-- Shape of a match of a digit run followed by a class character. -/
theorem sem_digitsThen (q : Char → Bool) (a b : List Char) (m m' : Caps)
    (h : (digitsThen q).Sem a b m m') :
    ∃ d c, a = d ++ [c] ∧ d ≠ [] ∧ (∀ x ∈ d, isDigit x = true) ∧ q c = true ∧
      m' 1 = d ∧ m' 2 = [c] := by
  unfold digitsThen at h
  rw [sem_seq] at h
  obtain ⟨a₁, a₂, m₁, rfl, h₁, h₂⟩ := h
  rw [sem_group, ] at h₁ h₂
  obtain ⟨m₂, h₁, rfl⟩ := h₁
  obtain ⟨m₃, h₂, rfl⟩ := h₂
  rw [sem_plus] at h₁
  rw [sem_cls] at h₂
  obtain ⟨⟨c, rfl, hc⟩, rfl⟩ := h₂
  exact ⟨a₁, c, rfl, h₁.1, h₁.2.1, hc, by simp [setCap], by simp [setCap]⟩

/-- What `FindStringSubmatch` returns for a digit run followed by a class
character. -/
theorem digitsThen_find_sound (q : Char → Bool) (xs : List Char) (m : Caps)
    (h : (digitsThen q).find xs = some m) :
    ∃ pre d c post, xs = pre ++ (d ++ c :: post) ∧ d ≠ [] ∧
      (∀ x ∈ d, isDigit x = true) ∧ q c = true ∧ m 0 = d ++ [c] ∧ m 1 = d ∧ m 2 = [c] := by
  obtain ⟨pre, a, b, m', rfl, hs, rfl⟩ := find_sound _ _ _ h
  obtain ⟨d, c, rfl, hd, hdd, hc, h1, h2⟩ := sem_digitsThen q _ _ _ _ hs
  exact ⟨pre, d, c, b, by simp, hd, hdd, hc, by simp [setCap], by simpa [setCap] using h1,
    by simpa [setCap] using h2⟩

/-- Evaluation on a text that starts with a digit run followed by a class
character that is not a digit. -/
theorem digitsThen_run (q : Char → Bool) (d : List Char) (c : Char) (rest : List Char)
    (hd : d ≠ []) (hdd : ∀ x ∈ d, isDigit x = true) (hc : q c = true)
    (hcd : isDigit c = false) (k : List Char → Caps → Option Caps) (m res : Caps)
    (hk : k rest (setCap (setCap m 1 d) 2 [c]) = some res) :
    (digitsThen q).run k (d ++ c :: rest) m = some res := by
  unfold digitsThen
  rw [run_seq, run_group, run_plus]
  apply plusLoop_greedy isDigit _ d (c :: rest) res hd hdd
  · simp [plusLoop, hcd]
  · show (Regex.group 2 (Regex.cls q)).run k (c :: rest)
      (setCap m 1 (consumed (d ++ c :: rest) (c :: rest))) = some res
    rw [consumed_append, run_group, run_cls_cons _ _ _ _ _ hc]
    show k rest (setCap (setCap m 1 d) 2 (consumed ([c] ++ rest) rest)) = some res
    rw [consumed_append]
    exact hk

theorem digitsThen_find (q : Char → Bool) (d : List Char) (c : Char) (rest : List Char)
    (hd : d ≠ []) (hdd : ∀ x ∈ d, isDigit x = true) (hc : q c = true)
    (hcd : isDigit c = false) :
    ∃ m, (digitsThen q).find (d ++ c :: rest) = some m ∧ m 0 = d ++ [c] ∧ m 1 = d ∧
      m 2 = [c] := by
  refine ⟨_, find_of_matchAt _ _ _ (digitsThen_run q d c rest hd hdd hc hcd _ _ _ rfl),
    ?_, ?_, ?_⟩
  · have : d ++ c :: rest = (d ++ [c]) ++ rest := by simp
    simp only [setCap, if_true]
    rw [this, consumed_append]
  · simp [setCap]
  · simp [setCap]

/-- A text without a class character has no match. -/
theorem digitsThen_find_none (q : Char → Bool) (xs : List Char)
    (h : ∀ c ∈ xs, q c = false) : (digitsThen q).find xs = none := by
  cases hf : (digitsThen q).find xs with
  | none => rfl
  | some m =>
    obtain ⟨pre, d, c, post, rfl, _, _, hc, _⟩ := digitsThen_find_sound q xs m hf
    rw [h c (by simp)] at hc
    cases hc

/-! ### The decimal string form of a number -/

theorem digitChar_spec (k : Nat) (h : k < 10) :
    isDigit (Nat.digitChar k) = true ∧ digitVal (Nat.digitChar k) = k := by
  interval_cases k <;> decide

theorem toDigitsCore_spec : ∀ (fuel n : Nat) (ds : List Char), n < fuel →
    ∃ pre, Nat.toDigitsCore 10 fuel n ds = pre ++ ds ∧ pre ≠ [] ∧
      (∀ c ∈ pre, isDigit c = true) ∧ digitsVal pre = n := by
  intro fuel
  induction fuel with
  | zero => intro n ds h; omega
  | succ fuel ih =>
    intro n ds h
    have hd := digitChar_spec (n % 10) (Nat.mod_lt _ (by decide))
    by_cases h0 : n / 10 = 0
    · refine ⟨[Nat.digitChar (n % 10)], by simp [Nat.toDigitsCore, h0], by simp, ?_, ?_⟩
      · simpa using hd.1
      · simp [digitsVal, hd.2]; omega
    · obtain ⟨pre, hpre, hne, hall, hval⟩ :=
        ih (n / 10) (Nat.digitChar (n % 10) :: ds) (by omega)
      refine ⟨pre ++ [Nat.digitChar (n % 10)], by simp [Nat.toDigitsCore, h0, hpre],
        by simp, ?_, ?_⟩
      · intro c hc
        rcases List.mem_append.mp hc with hc | hc
        · exact hall c hc
        · rw [List.mem_singleton.mp hc]; exact hd.1
      · rw [digitsVal_append, hval, hd.2]; omega

/-- The decimal string form of `n` is a non-empty digit run of value `n`. -/
theorem toDigits_spec (n : Nat) :
    Nat.toDigits 10 n ≠ [] ∧ (∀ c ∈ Nat.toDigits 10 n, isDigit c = true) ∧
      digitsVal (Nat.toDigits 10 n) = n := by
  obtain ⟨pre, hpre, hne, hall, hval⟩ := toDigitsCore_spec (n + 1) n [] (by omega)
  have : Nat.toDigits 10 n = pre := by simpa [Nat.toDigits] using hpre
  rw [this]
  exact ⟨hne, hall, hval⟩

/-- `ParseNumber` on a digit run. -/
theorem parseNumber_digits (tbl : Char → Char) (d : List Char) (hd : d ≠ [])
    (hdd : ∀ c ∈ d, isDigit c = true) : ParseNumber tbl d = ParseInt d := by
  obtain ⟨m, hm, h0⟩ := trailingDigits_find_digits d hd hdd
  simp only [ParseNumber, if_neg hd, ToUpper_digits tbl d hdd, hm, h0]
  cases ParseInt d <;> rfl

/-- `ParseDataSize` on a digit run. -/
theorem parseDataSize_digits (tbl : Char → Char) (d : List Char) (hd : d ≠ [])
    (hdd : ∀ c ∈ d, isDigit c = true) : ParseDataSize tbl d = ParseInt d := by
  obtain ⟨m, hm, h0⟩ := trailingDigits_find_digits d hd hdd
  simp only [ParseDataSize, if_neg hd, ToUpper_digits tbl d hdd, hm, h0]
  cases ParseInt d <;> rfl

theorem ParseInt_digits_ok (d : List Char) (hd : d ≠ []) (hdd : ∀ c ∈ d, isDigit c = true)
    (hb : digitsVal d ≤ 2 ^ 63 - 1) : ParseInt d = .ok (digitsVal d : Int) := by
  rw [ParseInt_digits d hd hdd, if_neg]
  have : (2 : Nat) ^ 63 - 1 < 2 ^ 63 := by norm_num
  omega

/-! ### `ParseNumber` and `ParseDataSize` on a digit run with a suffix -/

theorem ToUpper_append (tbl : Char → Char) (a b : List Char) :
    ToUpper tbl (a ++ b) = ToUpper tbl a ++ ToUpper tbl b := by
  simp [ToUpper]

theorem ToUpper_digits_suffix (tbl : Char → Char) (d : List Char) (c : Char)
    (hdd : ∀ x ∈ d, isDigit x = true) :
    ToUpper tbl (d ++ [c]) = d ++ [toUpperRune tbl c] := by
  rw [ToUpper_append, ToUpper_digits tbl d hdd]
  rfl

/-- `ParseNumber` on a text whose upper-case form is a digit run and one
character of the class `[K|M|G]`. -/
theorem parseNumber_upper_suffix (tbl : Char → Char) (s d : List Char) (C : Char)
    (hs : s ≠ []) (hup : ToUpper tbl s = d ++ [C]) (hd : d ≠ [])
    (hdd : ∀ x ∈ d, isDigit x = true) (hq : isKMG C = true) (hCd : isDigit C = false) :
    ParseNumber tbl s =
      match ParseInt d with
      | .error e => .error e
      | .ok v =>
        if C = 'K' then .ok (wrap64 (v * 1000))
        else if C = 'M' then .ok (wrap64 (v * 1000000))
        else if C = 'G' then .ok (wrap64 (v * 1000000000))
        else .error (.couldntParseNumber (d ++ [C])) := by
  obtain ⟨m, hm, _, h1, h2⟩ := digitsThen_find isKMG d C [] hd hdd hq hCd
  have hm' : numberSuffixRe.find (d ++ [C]) = some m := hm
  cases hP : ParseInt d <;>
    simp [ParseNumber, if_neg hs, hup, trailingDigits_find_none d C hCd, hm', h1, h2, hP]

/-- `ParseDataSize` on a text whose upper-case form is a digit run and one
character of the class `[B|K|M]`. -/
theorem parseDataSize_upper_suffix (tbl : Char → Char) (s d : List Char) (C : Char)
    (hs : s ≠ []) (hup : ToUpper tbl s = d ++ [C]) (hd : d ≠ [])
    (hdd : ∀ x ∈ d, isDigit x = true) (hq : isBKM C = true) (hCd : isDigit C = false) :
    ParseDataSize tbl s =
      match ParseInt d with
      | .error e => .error e
      | .ok v =>
        if C = 'B' then .ok v
        else if C = 'K' then .ok (wrap64 (v * 1000))
        else if C = 'M' then .ok (wrap64 (v * 1000000))
        else .error (.couldntParseDataSize (d ++ [C])) := by
  obtain ⟨m, hm, _, h1, h2⟩ := digitsThen_find isBKM d C [] hd hdd hq hCd
  have hm' : dataSizeSuffixRe.find (d ++ [C]) = some m := hm
  cases hP : ParseInt d <;>
    simp [ParseDataSize, if_neg hs, hup, trailingDigits_find_none d C hCd, hm', h1, h2, hP]

theorem wrap64_natCast_mul (v k : Nat) (h : v * k ≤ 2 ^ 63 - 1) :
    wrap64 ((v : Int) * (k : Int)) = ((v * k : Nat) : Int) := by
  rw [← Int.natCast_mul]
  apply wrap64_of_range
  · exact Int.natCast_nonneg _
  · have : ((v * k : Nat) : Int) ≤ ((2 ^ 63 - 1 : Nat) : Int) := Int.ofNat_le.mpr h
    simpa using this

/-- `ParseNumber` on a digit run and a suffix letter whose upper-case form is
`K`, `M` or `G`, when the scaled value fits. -/
theorem parseNumber_suffix_core (tbl : Char → Char) (d : List Char) (c C : Char) (k : Nat)
    (hd : d ≠ []) (hdd : ∀ x ∈ d, isDigit x = true) (hU : toUpperRune tbl c = C)
    (hC : (C = 'K' ∧ k = 1000) ∨ (C = 'M' ∧ k = 1000000) ∨ (C = 'G' ∧ k = 1000000000))
    (hb : digitsVal d * k ≤ 2 ^ 63 - 1) :
    ParseNumber tbl (d ++ [c]) = .ok ((digitsVal d * k : Nat) : Int) := by
  have hs : d ++ [c] ≠ [] := by simp
  have hup := ToUpper_digits_suffix tbl d c hdd
  rw [hU] at hup
  have hv : digitsVal d ≤ 2 ^ 63 - 1 := by
    have : 1 ≤ k := by rcases hC with ⟨_, rfl⟩ | ⟨_, rfl⟩ | ⟨_, rfl⟩ <;> decide
    calc digitsVal d = digitsVal d * 1 := (Nat.mul_one _).symm
      _ ≤ digitsVal d * k := Nat.mul_le_mul_left _ this
      _ ≤ 2 ^ 63 - 1 := hb
  have hp := ParseInt_digits_ok d hd hdd hv
  have hw := wrap64_natCast_mul (digitsVal d) k hb
  rcases hC with ⟨rfl, rfl⟩ | ⟨rfl, rfl⟩ | ⟨rfl, rfl⟩
  all_goals
    rw [parseNumber_upper_suffix tbl _ d _ hs hup hd hdd (by decide) (by decide), hp]
    simpa using hw

theorem isDigit_ascii (c : Char) (h : isDigit c = true) : c.toNat < 128 := by
  rw [isDigit_iff] at h; omega

/-- A decimal digit belongs to none of the letter classes. -/
theorem isDigit_not_letter (c : Char) (h : isDigit c = true) :
    isKMG c = false ∧ isBKM c = false ∧ isUnit c = false ∧ isDash c = false := by
  have ha := isDigit_ascii c h
  revert h
  refine ascii_cases (fun c => isDigit c = true →
    isKMG c = false ∧ isBKM c = false ∧ isUnit c = false ∧ isDash c = false) ?_ c ha
  decide

/-- A successful `ParseInt` on a digit run returns its value, which fits 63
bits. -/
theorem ParseInt_digits_inv (d : List Char) (v : Int) (hd : d ≠ [])
    (hdd : ∀ c ∈ d, isDigit c = true) (h : ParseInt d = .ok v) :
    v = (digitsVal d : Int) ∧ digitsVal d ≤ 2 ^ 63 - 1 := by
  rw [ParseInt_digits d hd hdd] at h
  split at h
  · cases h
  · rename_i hlt
    have : (2 : Nat) ^ 63 - 1 + 1 = 2 ^ 63 := by norm_num
    exact ⟨(Except.ok.inj h).symm, by omega⟩

/-! ### The patterns of `ParseExpiry` -/

theorem sem_digit_group (i : Nat) (a b : List Char) (m m' : Caps) :
    (Regex.group i (.cls isDigit)).Sem a b m m' ↔
      (∃ c, a = [c] ∧ isDigit c = true) ∧ m' = setCap m i a := by
  rw [sem_group]
  constructor
  · rintro ⟨m₁, h, rfl⟩
    rw [sem_cls] at h
    obtain ⟨hc, rfl⟩ := h
    exact ⟨hc, rfl⟩
  · rintro ⟨hc, rfl⟩
    exact ⟨m, (sem_cls _ _ _ _ _).mpr ⟨hc, rfl⟩, rfl⟩

/-- What the date pattern consumes is a date-shaped text. -/
theorem sem_dateRe (a b : List Char) (m m' : Caps) (h : dateRe.Sem a b m m') :
    DateShaped a := by
  unfold dateRe at h
  simp only [sem_seq, sem_digit_group, sem_lit] at h
  obtain ⟨_, _, _, rfl, ⟨⟨y₁, rfl, h₁⟩, _⟩, _, _, _, rfl, ⟨⟨y₂, rfl, h₂⟩, _⟩,
    _, _, _, rfl, ⟨⟨y₃, rfl, h₃⟩, _⟩, _, _, _, rfl, ⟨⟨y₄, rfl, h₄⟩, _⟩,
    _, _, _, rfl, ⟨rfl, _⟩, _, _, _, rfl, ⟨⟨m₁, rfl, h₅⟩, _⟩,
    _, _, _, rfl, ⟨⟨m₂, rfl, h₆⟩, _⟩, _, _, _, rfl, ⟨rfl, _⟩,
    _, _, _, rfl, ⟨⟨d₁, rfl, h₇⟩, _⟩, ⟨d₂, rfl, h₈⟩, _⟩ := h
  exact ⟨y₁, y₂, y₃, y₄, m₁, m₂, d₁, d₂, rfl, h₁, h₂, h₃, h₄, h₅, h₆, h₇, h₈⟩

/-- A date-shaped text is matched by the date pattern. -/
theorem dateRe_matchAt (a b : List Char) (h : DateShaped a) :
    (dateRe.matchAt (a ++ b)).isSome = true := by
  obtain ⟨y₁, y₂, y₃, y₄, m₁, m₂, d₁, d₂, rfl, h₁, h₂, h₃, h₄, h₅, h₆, h₇, h₈⟩ := h
  simp [Regex.matchAt, dateRe, Regex.run, h₁, h₂, h₃, h₄, h₅, h₆, h₇, h₈, List.isPrefixOf]

theorem find_isSome_of_matchAt (r : Regex) : ∀ (pre xs : List Char),
    (r.matchAt xs).isSome = true → (r.find (pre ++ xs)).isSome = true := by
  intro pre
  induction pre with
  | nil =>
    intro xs h
    obtain ⟨m, hm⟩ := Option.isSome_iff_exists.mp h
    simp [find_of_matchAt r xs m hm]
  | cons c cs ih =>
    intro xs h
    simp only [List.cons_append, Regex.find]
    cases r.matchAt (c :: (cs ++ xs)) with
    | some m => rfl
    | none => exact ih xs h

/-- `MatchString` of the date pattern: the text contains a date-shaped part. -/
theorem dateRe_matchString_iff (s : List Char) :
    dateRe.matchString s = true ↔ ∃ pre a post, s = pre ++ (a ++ post) ∧ DateShaped a := by
  constructor
  · intro h
    obtain ⟨m, hm⟩ := Option.isSome_iff_exists.mp h
    obtain ⟨pre, a, b, m', rfl, hs, _⟩ := find_sound _ _ _ hm
    exact ⟨pre, a, b, rfl, sem_dateRe _ _ _ _ hs⟩
  · rintro ⟨pre, a, post, rfl, ha⟩
    exact find_isSome_of_matchAt _ pre _ (dateRe_matchAt a post ha)

theorem dateShaped_dash (a : List Char) (h : DateShaped a) : '-' ∈ a := by
  obtain ⟨y₁, y₂, y₃, y₄, m₁, m₂, d₁, d₂, rfl, _⟩ := h
  simp

/-- A text without a dash has no date-shaped part. -/
theorem dateRe_matchString_no_dash (s : List Char) (h : '-' ∉ s) :
    dateRe.matchString s = false := by
  cases hm : dateRe.matchString s with
  | false => rfl
  | true =>
    obtain ⟨pre, a, post, rfl, ha⟩ := (dateRe_matchString_iff s).mp hm
    exact absurd (by simp [dateShaped_dash a ha]) h

/-! ### The calendar arithmetic of `time.Date` -/

theorem isLeap_eq_leapYear (y : Nat) : isLeap (y : Int) = leapYear y := by
  unfold isLeap leapYear
  rw [Bool.eq_iff_iff]
  simp only [Bool.and_eq_true, Bool.or_eq_true, beq_iff_eq, bne_iff_ne, ne_eq]
  omega

/-- In the range of years whose day count fits 64 bits, `daysSinceEpoch`
reduces nothing. -/
theorem daysSinceEpoch_exact (year : Int) (h0 : absoluteZeroYear ≤ year)
    (h1 : year ≤ absoluteZeroYear + 2 ^ 50) :
    daysSinceEpoch year = daysSinceEpochExact year := by
  have ha : absoluteZeroYear = -292277022399 := rfl
  have hy0 : 0 ≤ year - absoluteZeroYear := by omega
  have hy1 : year - absoluteZeroYear ≤ 1125899906842624 := by
    norm_num at h1; omega
  have hmod : (year - absoluteZeroYear) % 2 ^ 64 = year - absoluteZeroYear :=
    Int.emod_eq_of_lt hy0 (by norm_num; omega)
  unfold daysSinceEpoch daysSinceEpochExact
  simp only [hmod]
  generalize year - absoluteZeroYear = y at hy0 hy1
  apply Int.emod_eq_of_lt
  · omega
  · norm_num
    omega

/-- One more year adds the length of the year to the day count. -/
theorem daysSinceEpochExact_succ (y : Nat) :
    daysSinceEpochExact ((y + 1 : Nat) : Int) = daysSinceEpochExact (y : Int) + yearLength y := by
  have hl : leapYear y = true ↔ (y % 4 = 0 ∧ y % 100 ≠ 0) ∨ y % 400 = 0 := by
    simp [leapYear]
  unfold daysSinceEpochExact absoluteZeroYear yearLength
  by_cases h : leapYear y = true
  · rw [if_pos h]
    rw [hl] at h
    simp only [Nat.cast_add, Nat.cast_one, Nat.cast_ofNat]
    omega
  · rw [if_neg h]
    rw [hl] at h
    simp only [Nat.cast_add, Nat.cast_one, Nat.cast_ofNat]
    omega

/-- The closed formula of `daysSinceEpoch` counts the days year by year. -/
theorem daysSinceEpochExact_eq (y : Nat) :
    daysSinceEpochExact (y : Int) = daysSinceEpochExact 0 + daysBeforeYear y := by
  induction y with
  | zero => simp [daysBeforeYear]
  | succ y ih =>
    rw [daysSinceEpochExact_succ, ih, daysBeforeYear]
    push_cast
    ring

theorem norm_id (hi lo base : Int) (h0 : 0 ≤ lo) (h1 : lo < base) :
    norm hi lo base = (hi, lo) := by
  unfold norm
  simp [not_lt.mpr h0, not_le.mpr h1]

theorem wrap64_id (x : Int) (h0 : -2 ^ 63 ≤ x) (h1 : x < 2 ^ 63) : wrap64 x = x := by
  unfold wrap64
  norm_num at h0 h1 ⊢
  omega

/-- `time.Date` on fields that are in range, the day apart, in a year and at a
wall-clock reading `wall` far from the ends of the 64-bit range: no field is
carried over, nothing wraps, and the instant is `wall` less the zone offset
that holds for it. -/
theorem date_fields (y mo dd h mi s ns : Int) (loc : Location)
    (hy0 : absoluteZeroYear ≤ y) (hy1 : y ≤ absoluteZeroYear + 2 ^ 50)
    (hmo1 : 1 ≤ mo) (hmo2 : mo ≤ 12)
    (hh0 : 0 ≤ h) (hh1 : h < 24) (hmi0 : 0 ≤ mi) (hmi1 : mi < 60) (hs0 : 0 ≤ s)
    (hs1 : s < 60) (hn0 : 0 ≤ ns) (hn1 : ns < 1000000000) (wall : Int)
    (hw : wall = (daysSinceEpochExact y + daysBefore (mo - 1).toNat
          + (if isLeap y = true ∧ mo ≥ 3 then 1 else 0) + (dd - 1)) * 86400
          + (h * 3600 + mi * 60 + s) - unixToAbsolute)
    (hw0 : -2 ^ 62 ≤ wall) (hw1 : wall ≤ 2 ^ 62)
    (hoff : ∀ u, -2 ^ 31 ≤ (loc.lookup u).1 ∧ (loc.lookup u).1 ≤ 2 ^ 31) :
    Date y mo dd h mi s ns loc =
      { sec := wall - loc.offsetFor wall, nsec := ns, loc := loc } := by
  have e0 : wrap64 (mo - 1) = mo - 1 := wrap64_id _ (by norm_num; omega) (by norm_num; omega)
  have e1 : norm y (mo - 1) 12 = (y, mo - 1) := norm_id _ _ _ (by omega) (by omega)
  have e2 : norm s ns 1000000000 = (s, ns) := norm_id _ _ _ hn0 hn1
  have e3 : norm mi s 60 = (mi, s) := norm_id _ _ _ hs0 hs1
  have e4 : norm h mi 60 = (h, mi) := norm_id _ _ _ hmi0 hmi1
  have e5 : norm dd h 24 = (dd, h) := norm_id _ _ _ hh0 hh1
  have e6 : wrap64 (mo - 1 + 1) = mo := by
    rw [wrap64_id _ (by norm_num; omega) (by norm_num; omega)]; omega
  have e7 := daysSinceEpoch_exact y hy0 hy1
  have e8 : wrap64 ((((if isLeap y = true ∧ mo ≥ 3 then
      daysSinceEpochExact y + daysBefore (mo - 1).toNat + 1
      else daysSinceEpochExact y + daysBefore (mo - 1).toNat) + (dd - 1)) * 86400
      + (h * 3600 + mi * 60 + s)) - unixToAbsolute) = wall := by
    have : (((if isLeap y = true ∧ mo ≥ 3 then
      daysSinceEpochExact y + daysBefore (mo - 1).toNat + 1
      else daysSinceEpochExact y + daysBefore (mo - 1).toNat) + (dd - 1)) * 86400
      + (h * 3600 + mi * 60 + s)) - unixToAbsolute = wall := by
      rw [hw]
      by_cases hc : isLeap y = true ∧ mo ≥ 3
      · rw [if_pos hc, if_pos hc]
      · rw [if_neg hc, if_neg hc, add_zero]
    rw [this]
    exact wrap64_id _ (by norm_num at hw0 ⊢; omega) (by norm_num at hw1 ⊢; omega)
  unfold Date
  simp only [e0, e1, e2, e3, e4, e5, e6, e7, e8]
  have ho := hoff wall
  have ho2 := hoff (wall - (loc.lookup wall).1)
  have hu : wrap64 (wall - (loc.lookup wall).1) = wall - (loc.lookup wall).1 :=
    wrap64_id _ (by norm_num at hw0 ho ⊢; omega) (by norm_num at hw1 ho ⊢; omega)
  have hu2 : wrap64 (wall - (loc.lookup (wall - (loc.lookup wall).1)).1) =
      wall - (loc.lookup (wall - (loc.lookup wall).1)).1 :=
    wrap64_id _ (by norm_num at hw0 ho2 ⊢; omega) (by norm_num at hw1 ho2 ⊢; omega)
  rw [Time.mk.injEq]
  refine ⟨?_, rfl, rfl⟩
  show (if (loc.lookup wall).1 ≠ 0 then
      wrap64 (wall - if wrap64 (wall - (loc.lookup wall).1) < (loc.lookup wall).2.1 ∨
          wrap64 (wall - (loc.lookup wall).1) ≥ (loc.lookup wall).2.2
        then (loc.lookup (wrap64 (wall - (loc.lookup wall).1))).1
        else (loc.lookup wall).1)
    else wall) = wall - loc.offsetFor wall
  unfold Location.offsetFor
  rw [hu]
  by_cases h0 : (loc.lookup wall).1 = 0
  · simp [h0]
  · by_cases hc : wall - (loc.lookup wall).1 < (loc.lookup wall).2.1 ∨
        wall - (loc.lookup wall).1 ≥ (loc.lookup wall).2.2
    · simp only [ne_eq, h0, not_false_eq_true, if_true, if_pos hc, true_and, hu2]
    · simp only [ne_eq, h0, not_false_eq_true, if_true, if_neg hc, true_and, hu, and_false,
        if_false]

/-- `daysBefore` and the leap-day correction of `Date` count the days month by
month. -/
theorem daysBefore_eq (y m : Nat) (h1 : 1 ≤ m) (h2 : m ≤ 12) :
    (daysBefore (m - 1) + if isLeap (y : Int) = true ∧ ((m : Nat) : Int) ≥ 3 then 1 else 0 : Int)
      = (daysBeforeMonth y (m - 1) : Nat) := by
  rw [isLeap_eq_leapYear]
  interval_cases m <;> cases hl : leapYear y <;>
    simp [daysBefore, daysBeforeMonth, monthLength, hl]

/-- `daysIn` is the length of the month. -/
theorem daysIn_eq (y m : Nat) (h1 : 1 ≤ m) (h2 : m ≤ 12) :
    daysIn m (y : Int) = (monthLength y m : Nat) := by
  unfold daysIn
  rw [isLeap_eq_leapYear]
  interval_cases m <;> cases hl : leapYear y <;>
    simp [daysBefore, monthLength, hl]

theorem unixToAbsolute_eq : unixToAbsolute = daysSinceEpochExact 1970 * 86400 := by
  decide

theorem daysBeforeYear_le (y : Nat) : daysBeforeYear y ≤ 366 * y := by
  induction y with
  | zero => simp [daysBeforeYear]
  | succ y ih =>
    have : yearLength y ≤ 366 := by unfold yearLength; split <;> omega
    rw [daysBeforeYear]
    omega

theorem monthLength_le (y m : Nat) : monthLength y m ≤ 31 := by
  unfold monthLength
  split_ifs <;> omega

theorem daysBeforeMonth_le (y k : Nat) : daysBeforeMonth y k ≤ 31 * k := by
  induction k with
  | zero => simp [daysBeforeMonth]
  | succ k ih =>
    have := monthLength_le y (k + 1)
    rw [daysBeforeMonth]
    omega

/-- `time.Date` at midnight UTC of a valid date is the Unix timestamp of that
midnight, counted day by day from 1 January 1970. -/
theorem Date_midnight (y m d : Nat) (h : ValidDate y m d) :
    Date y m d 0 0 0 0 UTC = { sec := unixMidnight y m d, nsec := 0, loc := UTC } := by
  obtain ⟨hy9, hm1, hm2, hd1, hd2⟩ := h
  have hmonth := daysBefore_eq y m hm1 hm2
  have hy := daysSinceEpochExact_eq y
  have h70 := daysSinceEpochExact_eq 1970
  have hcast : ((m : Int) - 1).toNat = m - 1 := by omega
  have h1970 : dayNumber 1970 1 1 = daysBeforeYear 1970 := by
    simp [dayNumber, daysBeforeMonth]
  have h70' : daysSinceEpochExact 1970 = daysSinceEpochExact 0 + (daysBeforeYear 1970 : Nat) := by
    simpa using h70
  have hd : ((d - 1 : Nat) : Int) = (d : Int) - 1 := by omega
  have hw : (unixMidnight y m d : Int) =
      (daysSinceEpochExact y + daysBefore ((m : Int) - 1).toNat
        + (if isLeap (y : Int) = true ∧ (m : Int) ≥ 3 then 1 else 0) + ((d : Int) - 1)) * 86400
        + (0 * 3600 + 0 * 60 + 0) - unixToAbsolute := by
    unfold unixMidnight
    rw [unixToAbsolute_eq, h1970, hcast]
    unfold dayNumber
    push_cast
    rw [hd, hy, h70']
    have hmonth' : (daysBeforeMonth y (m - 1) : Int) = daysBefore (m - 1) +
        if isLeap (y : Int) = true ∧ (m : Int) ≥ 3 then 1 else 0 := by
      rw [← hmonth]
    rw [hmonth']
    ring
  have hb1 := daysBeforeYear_le y
  have hb2 := daysBeforeMonth_le y (m - 1)
  have hb3 := monthLength_le y m
  have hb4 := daysBeforeYear_le 1970
  have hbound : -2 ^ 62 ≤ (unixMidnight y m d : Int) ∧ (unixMidnight y m d : Int) ≤ 2 ^ 62 := by
    unfold unixMidnight
    rw [h1970]
    unfold dayNumber
    norm_num
    omega
  have hz : UTC.offsetFor (unixMidnight y m d) = 0 := by
    simp [Location.offsetFor, UTC]
  have hazy : absoluteZeroYear = -292277022399 := rfl
  rw [date_fields (y : Int) m d 0 0 0 0 UTC (by omega) (by norm_num; omega) (by omega)
    (by omega) (by decide) (by decide) (by decide) (by decide) (by decide) (by decide)
    (by decide) (by decide) (unixMidnight y m d) hw hbound.1 hbound.2
    (fun u => by simp [UTC]), hz, sub_zero]

/-! ### `time.Parse` on date texts -/

theorem isDigit_digitChar (k : Nat) : isDigit (Nat.digitChar (k % 10)) = true :=
  (digitChar_spec (k % 10) (Nat.mod_lt _ (by decide))).1

theorem digitVal_digitChar (k : Nat) : digitVal (Nat.digitChar (k % 10)) = k % 10 :=
  (digitChar_spec (k % 10) (Nat.mod_lt _ (by decide))).2

theorem digitChar_digitVal (c : Char) (h : isDigit c = true) :
    Nat.digitChar (digitVal c) = c ∧ digitVal c < 10 := by
  have ha := isDigit_ascii c h
  revert h
  refine ascii_cases (fun c => isDigit c = true →
    Nat.digitChar (digitVal c) = c ∧ digitVal c < 10) ?_ c ha
  decide

theorem dateShaped_dateText (y m d : Nat) : DateShaped (dateText y m d) :=
  ⟨_, _, _, _, _, _, _, _, rfl, isDigit_digitChar _, isDigit_digitChar _, isDigit_digitChar _,
    isDigit_digitChar _, isDigit_digitChar _, isDigit_digitChar _, isDigit_digitChar _,
    isDigit_digitChar _⟩

/-- `time.Parse` reads back the fields of the text of a valid date. -/
theorem parseDateFields_dateText (y m d : Nat) (h : ValidDate y m d) :
    parseDateFields (dateText y m d) = some (y, m, d) := by
  obtain ⟨hy, hm1, hm2, hd1, hd2⟩ := h
  have hml : monthLength y m ≤ 31 := by
    unfold monthLength; split_ifs <;> omega
  have hyv : digitsVal [Nat.digitChar (y / 1000 % 10), Nat.digitChar (y / 100 % 10),
      Nat.digitChar (y / 10 % 10), Nat.digitChar (y % 10)] = y := by
    simp only [digitsVal, List.foldl, digitVal_digitChar]
    omega
  have hmv : digitVal (Nat.digitChar (m / 10 % 10)) * 10 + digitVal (Nat.digitChar (m % 10))
      = m := by
    simp only [digitVal_digitChar]; omega
  have hdv : digitVal (Nat.digitChar (d / 10 % 10)) * 10 + digitVal (Nat.digitChar (d % 10))
      = d := by
    simp only [digitVal_digitChar]; omega
  have hdi := daysIn_eq y m hm1 hm2
  have hm0 : ¬ (m ≤ 0 ∨ 12 < m) := by omega
  have hdr : ¬ ((d : Int) < 1 ∨ (d : Int) > daysIn m (y : Int)) := by
    rw [hdi]; omega
  simp only [parseDateFields, dateText, getYear, isDigit_digitChar, Bool.and_self, if_true,
    hyv, skipDash, beq_self_eq_true, getnum, hmv, hdv, hm0, if_false, ne_eq, not_true_eq_false,
    hdr]

theorem getYear_some (s v : List Char) (yr : Nat) (h : getYear s = some (yr, v)) :
    ∃ a b c e, s = a :: b :: c :: e :: v ∧ isDigit a = true ∧ isDigit b = true ∧
      isDigit c = true ∧ isDigit e = true ∧ yr = digitsVal [a, b, c, e] := by
  rcases s with _ | ⟨a, _ | ⟨b, _ | ⟨c, _ | ⟨e, rest⟩⟩⟩⟩ <;> simp only [getYear] at h <;>
    try cases h
  split at h
  · rename_i hd
    simp only [Bool.and_eq_true] at hd
    simp only [Option.some.injEq, Prod.mk.injEq] at h
    exact ⟨a, b, c, e, by rw [h.2], hd.1.1.1, hd.1.1.2, hd.1.2, hd.2, h.1.symm⟩
  · cases h

theorem getnum_some (s v : List Char) (n : Nat) (h : getnum s = some (n, v)) :
    ∃ a b, s = a :: b :: v ∧ isDigit a = true ∧ isDigit b = true ∧
      n = digitVal a * 10 + digitVal b := by
  rcases s with _ | ⟨a, _ | ⟨b, rest⟩⟩ <;> simp only [getnum] at h <;> try cases h
  split at h
  · rename_i hd
    simp only [Bool.and_eq_true] at hd
    simp only [Option.some.injEq, Prod.mk.injEq] at h
    exact ⟨a, b, by rw [h.2], hd.1, hd.2, h.1.symm⟩
  · cases h

theorem skipDash_some (s v : List Char) (h : skipDash s = some v) : s = '-' :: v := by
  rcases s with _ | ⟨c, rest⟩ <;> simp only [skipDash] at h <;> try cases h
  split at h
  · rename_i hc
    simp only [beq_iff_eq] at hc
    simp only [Option.some.injEq] at h
    rw [hc, h]
  · cases h

/-- A text accepted by `time.Parse` is exactly the text of a valid date. -/
theorem parseDateFields_some (s : List Char) (y m d : Nat)
    (h : parseDateFields s = some (y, m, d)) : s = dateText y m d ∧ ValidDate y m d := by
  unfold parseDateFields at h
  cases h₁ : getYear s with
  | none => simp [h₁] at h
  | some r₁ =>
    obtain ⟨yr, v₁⟩ := r₁
    obtain ⟨a, b, c, e, rfl, ha, hb, hc, he, rfl⟩ := getYear_some _ _ _ h₁
    simp only [h₁] at h
    cases h₂ : skipDash v₁ with
    | none => simp [h₂] at h
    | some v₂ =>
      have := skipDash_some _ _ h₂
      subst this
      simp only [h₂] at h
      cases h₃ : getnum v₂ with
      | none => simp [h₃] at h
      | some r₃ =>
        obtain ⟨mo, v₃⟩ := r₃
        obtain ⟨m₁, m₂, rfl, hm₁, hm₂, rfl⟩ := getnum_some _ _ _ h₃
        simp only [h₃] at h
        split at h
        · cases h
        · rename_i hmr
          cases h₄ : skipDash v₃ with
          | none => simp [h₄] at h
          | some v₄ =>
            have := skipDash_some _ _ h₄
            subst this
            simp only [h₄] at h
            cases h₅ : getnum v₄ with
            | none => simp [h₅] at h
            | some r₅ =>
              obtain ⟨dy, v₅⟩ := r₅
              obtain ⟨d₁, d₂, rfl, hd₁, hd₂, rfl⟩ := getnum_some _ _ _ h₅
              simp only [h₅] at h
              split at h
              · cases h
              · rename_i hnil
                split at h
                · cases h
                · rename_i hdr
                  simp only [Option.some.injEq, Prod.mk.injEq] at h
                  obtain ⟨rfl, rfl, rfl⟩ := h
                  have hv₅ : v₅ = [] := by simpa using hnil
                  subst hv₅
                  obtain ⟨ca, la⟩ := digitChar_digitVal a ha
                  obtain ⟨cb, lb⟩ := digitChar_digitVal b hb
                  obtain ⟨cc, lc⟩ := digitChar_digitVal c hc
                  obtain ⟨ce, le⟩ := digitChar_digitVal e he
                  obtain ⟨cm₁, lm₁⟩ := digitChar_digitVal m₁ hm₁
                  obtain ⟨cm₂, lm₂⟩ := digitChar_digitVal m₂ hm₂
                  obtain ⟨cd₁, ld₁⟩ := digitChar_digitVal d₁ hd₁
                  obtain ⟨cd₂, ld₂⟩ := digitChar_digitVal d₂ hd₂
                  have hyv : digitsVal [a, b, c, e] =
                      ((digitVal a * 10 + digitVal b) * 10 + digitVal c) * 10 + digitVal e := by
                    simp only [digitsVal, List.foldl]; omega
                  have e₁ : digitsVal [a, b, c, e] / 1000 % 10 = digitVal a := by omega
                  have e₂ : digitsVal [a, b, c, e] / 100 % 10 = digitVal b := by omega
                  have e₃ : digitsVal [a, b, c, e] / 10 % 10 = digitVal c := by omega
                  have e₄ : digitsVal [a, b, c, e] % 10 = digitVal e := by omega
                  have e₅ : (digitVal m₁ * 10 + digitVal m₂) / 10 % 10 = digitVal m₁ := by omega
                  have e₆ : (digitVal m₁ * 10 + digitVal m₂) % 10 = digitVal m₂ := by omega
                  have e₇ : (digitVal d₁ * 10 + digitVal d₂) / 10 % 10 = digitVal d₁ := by omega
                  have e₈ : (digitVal d₁ * 10 + digitVal d₂) % 10 = digitVal d₂ := by omega
                  have hmr' : 1 ≤ digitVal m₁ * 10 + digitVal m₂ ∧
                      digitVal m₁ * 10 + digitVal m₂ ≤ 12 := by omega
                  refine ⟨?_, ?_⟩
                  · simp only [dateText, e₁, e₂, e₃, e₄, e₅, e₆, e₇, e₈, ca, cb, cc, ce, cm₁,
                      cm₂, cd₁, cd₂]
                  · rw [daysIn_eq _ _ hmr'.1 hmr'.2] at hdr
                    exact ⟨by omega, hmr'.1, hmr'.2, by omega, by omega⟩

/-- `ParseExpiry` on a text with a date-shaped part is decided by
`time.Parse`. -/
theorem parseExpiry_dateShaped (now : Time) (s : List Char)
    (h : ∃ pre a post, s = pre ++ (a ++ post) ∧ DateShaped a) :
    ParseExpiry now s =
      match parseDateFields s with
      | none => .error (.timeParse s)
      | some (y, m, d) => .ok (Date y m d 0 0 0 0 UTC).Unix := by
  have hm := (dateRe_matchString_iff s).mpr h
  have hne : ¬ (s = [] ∨ s = ['0']) := by
    obtain ⟨pre, a, post, rfl, y₁, y₂, y₃, y₄, m₁, m₂, d₁, d₂, rfl, _⟩ := h
    rintro (h | h)
    · simp at h
    · have hl := congrArg List.length h
      simp only [List.length_append, List.length_cons, List.length_nil] at hl
      omega
  simp only [ParseExpiry, if_neg hne, hm, if_true, timeParse]
  cases parseDateFields s with
  | none => rfl
  | some r => rfl

/-- No valid date has the given text when `time.Parse` rejects it. -/
theorem not_valid_of_parse_none (s : List Char) (h : parseDateFields s = none) :
    ¬ ∃ y m d, ValidDate y m d ∧ s = dateText y m d := by
  rintro ⟨y, m, d, hv, rfl⟩
  rw [parseDateFields_dateText y m d hv] at h
  cases h

/-! ### `ParseExpiry` on relative expressions -/

theorem isUnit_cases (c : Char) (h : isUnit c = true) :
    c = 'm' ∨ c = 'h' ∨ c = 'd' ∨ c = 'M' ∨ c = 'y' ∨ c = 'w' := by
  simpa [isUnit, or_assoc] using h

/-- `ParseExpiry` on a text that is neither empty nor `0` and has no
date-shaped part: the result is decided by the interval pattern. -/
theorem parseExpiry_relative (now : Time) (s : List Char) (hne : ¬ (s = [] ∨ s = ['0']))
    (hdate : dateRe.matchString s = false) :
    ParseExpiry now s =
      match intervalRe.find s with
      | some m =>
        match ParseInt (m 1) with
        | .error e => .error e
        | .ok count =>
          if count = 0 then .ok 0
          else if m 2 = ['m'] then .ok (now.Add (wrap64 (count * Minute))).Unix
          else if m 2 = ['h'] then .ok (now.Add (wrap64 (count * Hour))).Unix
          else if m 2 = ['d'] then .ok (now.AddDate 0 0 count).Unix
          else if m 2 = ['w'] then .ok (now.AddDate 0 0 (wrap64 (7 * count))).Unix
          else if m 2 = ['M'] then .ok (now.AddDate 0 count 0).Unix
          else if m 2 = ['y'] then .ok (now.AddDate count 0 0).Unix
          else .error (.unknownInterval (m 2) (m 0))
      | none => .error (.couldntParseExpiry s) := by
  simp only [ParseExpiry, if_neg hne, hdate, Bool.false_eq_true, if_false]

/-- No input of `ParseExpiry` reaches the `unknown interval` branch: the
interval pattern admits the six unit letters only. -/
theorem parseExpiry_never_unknownInterval (now : Time) (s u w : List Char) :
    ParseExpiry now s ≠ .error (.unknownInterval u w) := by
  by_cases hne : s = [] ∨ s = ['0']
  · simp [ParseExpiry, hne]
  · cases hdate : dateRe.matchString s with
    | true =>
      simp only [ParseExpiry, if_neg hne, hdate, if_true, timeParse]
      cases parseDateFields s <;> simp
    | false =>
      rw [parseExpiry_relative now s hne hdate]
      cases hf : intervalRe.find s with
      | none => simp
      | some m =>
        obtain ⟨pre, d, c, post, hxs, hd, hdd, hc, _, h1, h2⟩ :=
          digitsThen_find_sound isUnit s m hf
        simp only [h1, h2]
        cases hP : ParseInt d with
        | error e =>
          rw [ParseInt_digits d hd hdd] at hP
          split at hP
          · rw [← Except.error.inj hP]; simp
          · cases hP
        | ok v =>
          by_cases h0 : v = 0
          · simp [h0]
          · rcases isUnit_cases c hc with rfl | rfl | rfl | rfl | rfl | rfl <;> simp [h0]

/-! ### The key listing -/

set_option maxRecDepth 4000 in
/-- The warning text is what the eleven `Fprintln` statements of `FormatKeys`
write. -/
theorem keyWarning_lines :
    keyWarning =
      "************************* IMPORTANT *************************\n".toList
        ++ "Your options generated NKEYs which can be used to create\n".toList
        ++ "entities or prove identity.\n".toList
        ++ "\n".toList
        ++ "Generated keys printed below are sensitive and should be\n".toList
        ++ "treated as secrets to prevent unauthorized access.\n".toList
        ++ "\n".toList
        ++ "The private key is not saved by the tool. Please save\n".toList
        ++ "it now as it will be required by the user to connect to NATS.\n".toList
        ++ "The public key is saved and uniquely identifies the user.\n".toList
        ++ "\n".toList := by
  decide

/-! ### The marker pattern inside a longer text -/

/-- The marker pattern has no match that starts at a character other than a
dash. -/
theorem tokenRe_matchAt_head (c : Char) (cs : List Char) (hc : c ≠ '-') :
    tokenRe.matchAt (c :: cs) = none := by
  cases h : tokenRe.matchAt (c :: cs) with
  | none => rfl
  | some m =>
    obtain ⟨a, b, m', hab, hs, _⟩ := matchAt_sound _ _ _ h
    obtain ⟨u, rfl⟩ := sem_tokenRe_begin _ _ _ _ hs
    simp only [List.cons_append, List.cons.injEq] at hab
    exact absurd hab.1 hc

/-- The search for the marker pattern passes over dash-free text. -/
theorem tokenRe_find_skip : ∀ (pre xs : List Char), '-' ∉ pre → xs ≠ [] →
    tokenRe.find (pre ++ xs) = tokenRe.find xs := by
  intro pre
  induction pre with
  | nil => intro xs _ _; rfl
  | cons c cs ih =>
    intro xs hpre hxs
    have hc : c ≠ '-' := fun h => hpre (h ▸ List.mem_cons_self _ _)
    have := ih xs (fun hm => hpre (List.mem_cons_of_mem _ hm)) hxs
    have h : tokenRe.find (c :: (cs ++ xs)) = tokenRe.find (cs ++ xs) := by
      rw [Regex.find, tokenRe_matchAt_head c _ hc]
    rw [List.cons_append, h, this]

/-- The marker pattern finds the payload of the last block of a text: dash-free
text, then `-BEGIN L₁ X - p -END L₂ Y -`, then dash-free text. -/
theorem tokenRe_find_block_tail (pre L₁ X p L₂ Y T : List Char) (hpre : '-' ∉ pre)
    (hL₁ : L₁ ≠ []) (hL₁a : ∀ c ∈ L₁, isAny c = true) (hX : IsKind X) (hp : p ≠ [])
    (hpp : Plain p) (hL₂ : L₂ ≠ []) (hL₂p : Plain L₂) (hY : IsKind Y) (hT : '-' ∉ T) :
    ∃ m, tokenRe.find (pre ++ (['-', 'B', 'E', 'G', 'I', 'N'] ++ (L₁ ++ (X ++ ('-' ::
        (p ++ (['-', 'E', 'N', 'D'] ++ (L₂ ++ (Y ++ '-' :: T))))))))) = some m ∧
      m 3 = p := by
  rw [tokenRe_find_skip pre _ hpre (by simp)]
  exact ⟨_, find_of_matchAt _ _ _
    (tokenRe_run_block_tail L₁ X p L₂ Y T hL₁ hL₁a hX hp hpp hL₂ hL₂p hY hT _ _ _ rfl),
    by simp [setCap]⟩

/-! ### The key listing, normalized -/

/-- `FormatKeys` writes the private section when there is a private key, the
public block when there is a public key, and a line feed. -/
theorem formatKeys_sections (tbl : Char → Char) (t pub priv : List Char) :
    FormatKeys tbl t pub priv =
      (if priv ≠ [] then privateSection (ToUpper tbl t) priv else [])
        ++ (if pub ≠ [] then publicBlock (ToUpper tbl t) pub else [])
        ++ ['\n'] := by
  have hstars : List.replicate 61 '*' ++ ['\n'] =
      "*************************************************************\n".toList := by decide
  have e₁ : "\n------END ".toList = ['\n'] ++ "------END ".toList := by decide
  have e₂ : " PRIVATE KEY------\n\n".toList = " PRIVATE KEY------\n".toList ++ ['\n'] := by
    decide
  have e₃ : " PUB KEY------\n\n".toList = " PUB KEY------\n".toList ++ ['\n'] := by decide
  have e₄ : "\n".toList = ['\n'] := by decide
  unfold FormatKeys privateSection publicBlock
  rw [keyWarning_lines, hstars, e₁, e₂, e₃, e₄]
  by_cases h1 : priv = [] <;> by_cases h2 : pub = [] <;>
    simp only [h1, h2, ne_eq, not_true_eq_false, not_false_eq_true, if_true, if_false,
      List.append_assoc, List.nil_append, List.append_nil]

set_option maxRecDepth 8000 in
/-- The warning text holds no dash, and something is left of it when the
whitespace is removed. -/
theorem keyWarning_stripped :
    '-' ∉ keyWarning.filter (fun c => !isSpace c) ∧
      keyWarning.filter (fun c => !isSpace c) ≠ [] := by
  decide

theorem replaceRuns_space (xs : List Char) :
    replaceRuns isSpace [] xs = xs.filter (fun c => !isSpace c) :=
  replaceRunsAux_erase isSpace false xs

set_option maxRecDepth 4000 in
/-- The normalized form of a key listing with both keys. -/
theorem normalize_keys_both (L pub priv : List Char) (hL : L ≠ [])
    (hLs : ∀ c ∈ L, isSpace c = false) (hLd : ∀ c ∈ L, isDash c = false)
    (hpub : pub ≠ []) (hpubs : ∀ c ∈ pub, isSpace c = false)
    (hpubd : ∀ c ∈ pub, isDash c = false)
    (hpriv : priv ≠ []) (hprivs : ∀ c ∈ priv, isSpace c = false)
    (hprivd : ∀ c ∈ priv, isDash c = false) :
    normalize (privateSection L priv ++ publicBlock L pub ++ ['\n']) =
      keyWarning.filter (fun c => !isSpace c)
        ++ ("-BEGIN".toList ++ (L ++ ("PRIVATEKEY-".toList ++ (priv ++ ("-END".toList
          ++ (L ++ ("PRIVATEKEY-".toList ++ (List.replicate 61 '*' ++ ("-BEGIN".toList
          ++ (L ++ ("PUBKEY-".toList ++ (pub ++ ("-END".toList
          ++ (L ++ "PUBKEY-".toList)))))))))))))) := by
  obtain ⟨hwd, hwn⟩ := keyWarning_stripped
  have hwd' : ∀ c ∈ keyWarning.filter (fun c => !isSpace c), isDash c = false := by
    intro c hc
    simp only [isDash, beq_eq_false_iff_ne, ne_eq]
    rintro rfl
    exact hwd hc
  unfold normalize
  rw [replaceRuns_space]
  unfold privateSection publicBlock replaceRuns
  simp only [List.filter_append, filter_keep isSpace L hLs, filter_keep isSpace pub hpubs,
    filter_keep isSpace priv hprivs, List.append_assoc]
  rw [replaceRunsAux_append_keep isDash _ _ _ _ hwn hwd']
  congr 1
  simp [isSpace, replaceRunsAux, isDash, replaceRunsAux_append_keep isDash _ L _ _ hL hLd,
    replaceRunsAux_append_keep isDash _ pub _ _ hpub hpubd,
    replaceRunsAux_append_keep isDash _ priv _ _ hpriv hprivd, List.replicate]

/-- The normalized form of a key listing with the private key alone. -/
theorem normalize_keys_private (L priv : List Char) (hL : L ≠ [])
    (hLs : ∀ c ∈ L, isSpace c = false) (hLd : ∀ c ∈ L, isDash c = false)
    (hpriv : priv ≠ []) (hprivs : ∀ c ∈ priv, isSpace c = false)
    (hprivd : ∀ c ∈ priv, isDash c = false) :
    normalize (privateSection L priv ++ ['\n']) =
      keyWarning.filter (fun c => !isSpace c)
        ++ ("-BEGIN".toList ++ (L ++ ("PRIVATEKEY-".toList ++ (priv ++ ("-END".toList
          ++ (L ++ ("PRIVATEKEY-".toList ++ List.replicate 61 '*'))))))) := by
  obtain ⟨hwd, hwn⟩ := keyWarning_stripped
  have hwd' : ∀ c ∈ keyWarning.filter (fun c => !isSpace c), isDash c = false := by
    intro c hc
    simp only [isDash, beq_eq_false_iff_ne, ne_eq]
    rintro rfl
    exact hwd hc
  unfold normalize
  rw [replaceRuns_space]
  unfold privateSection replaceRuns
  simp only [List.filter_append, filter_keep isSpace L hLs,
    filter_keep isSpace priv hprivs, List.append_assoc]
  rw [replaceRunsAux_append_keep isDash _ _ _ _ hwn hwd']
  congr 1
  simp [isSpace, replaceRunsAux, isDash, replaceRunsAux_append_keep isDash _ L _ _ hL hLd,
    replaceRunsAux_append_keep isDash _ priv _ _ hpriv hprivd, List.replicate]

theorem plain_append {a b : List Char} (ha : Plain a) (hb : Plain b) : Plain (a ++ b) := by
  intro c hc
  rcases List.mem_append.mp hc with h | h
  · exact ha c h
  · exact hb c h

theorem upper_label_clean (tbl : Char → Char) (label : List Char)
    (hl : ∀ c ∈ label, isAlnum c = true) :
    ∀ c ∈ ToUpper tbl label, isSpace c = false ∧ c ≠ '-' := by
  intro c hc
  simp only [ToUpper, List.mem_map] at hc
  obtain ⟨d, hd, rfl⟩ := hc
  exact ⟨(upper_alnum_plain tbl d (hl d hd)).1, (upper_alnum_plain tbl d (hl d hd)).2.1⟩

/-- Extraction from a key listing with both keys yields the public key. -/
theorem extractToken_keys_both (tbl : Char → Char) (label pub priv : List Char)
    (hlabel : label ≠ []) (hl : ∀ c ∈ label, isAlnum c = true)
    (hpub : pub ≠ []) (hpubc : ∀ c ∈ pub, isSpace c = false ∧ c ≠ '-')
    (hpriv : priv ≠ []) (hprivc : ∀ c ∈ priv, isSpace c = false ∧ c ≠ '-') :
    ExtractToken (FormatKeys tbl label pub priv) = pub := by
  have hU : ToUpper tbl label ≠ [] := by simpa [ToUpper] using hlabel
  have hUc := upper_label_clean tbl label hl
  have hUp := plain_of_clean _ hUc
  have hprivp := plain_of_clean _ hprivc
  have hn := normalize_keys_both (ToUpper tbl label) pub priv hU (fun c hc => (hUc c hc).1)
    (fun c hc => by simpa [isDash] using (hUc c hc).2) hpub (fun c hc => (hpubc c hc).1)
    (fun c hc => by simpa [isDash] using (hpubc c hc).2) hpriv (fun c hc => (hprivc c hc).1)
    (fun c hc => by simpa [isDash] using (hprivc c hc).2)
  have l₁ : ∀ c ∈ "PRIVATEKEY-".toList, isAny c = true := by decide
  have l₂ : ∀ c ∈ "-END".toList, isAny c = true := by decide
  have l₃ : ∀ c ∈ List.replicate 61 '*', isAny c = true := by decide
  have l₄ : ∀ c ∈ "-BEGIN".toList, isAny c = true := by decide
  have l₅ : ∀ c ∈ "PUB".toList, isAny c = true := by decide
  obtain ⟨m, hm, h3⟩ := tokenRe_find_block_tail (keyWarning.filter (fun c => !isSpace c))
    (ToUpper tbl label ++ ("PRIVATEKEY-".toList ++ (priv ++ ("-END".toList
      ++ (ToUpper tbl label ++ ("PRIVATEKEY-".toList ++ (List.replicate 61 '*'
      ++ ("-BEGIN".toList ++ (ToUpper tbl label ++ "PUB".toList)))))))))
    ['K', 'E', 'Y'] pub (ToUpper tbl label ++ "PUB".toList) ['K', 'E', 'Y'] []
    keyWarning_stripped.1 (by simp [hU])
    (by
      intro c hc
      simp only [List.mem_append] at hc
      rcases hc with h | h | h | h | h | h | h | h | h | h
      · exact (hUp c h).1
      · exact l₁ c h
      · exact (hprivp c h).1
      · exact l₂ c h
      · exact (hUp c h).1
      · exact l₁ c h
      · exact l₃ c h
      · exact l₄ c h
      · exact (hUp c h).1
      · exact l₅ c h)
    (Or.inr rfl) hpub (plain_of_clean _ hpubc) (by simp [hU])
    (plain_append hUp (by unfold Plain; decide)) (Or.inr rfl) (by simp)
  unfold ExtractToken
  rw [formatKeys_sections, if_pos hpriv, if_pos hpub, hn]
  have hshape : keyWarning.filter (fun c => !isSpace c)
        ++ ("-BEGIN".toList ++ (ToUpper tbl label ++ ("PRIVATEKEY-".toList ++ (priv
          ++ ("-END".toList ++ (ToUpper tbl label ++ ("PRIVATEKEY-".toList
          ++ (List.replicate 61 '*' ++ ("-BEGIN".toList ++ (ToUpper tbl label
          ++ ("PUBKEY-".toList ++ (pub ++ ("-END".toList
          ++ (ToUpper tbl label ++ "PUBKEY-".toList)))))))))))))) =
      keyWarning.filter (fun c => !isSpace c) ++ (['-', 'B', 'E', 'G', 'I', 'N']
        ++ ((ToUpper tbl label ++ ("PRIVATEKEY-".toList ++ (priv ++ ("-END".toList
          ++ (ToUpper tbl label ++ ("PRIVATEKEY-".toList ++ (List.replicate 61 '*'
          ++ ("-BEGIN".toList ++ (ToUpper tbl label ++ "PUB".toList)))))))))
        ++ (['K', 'E', 'Y'] ++ '-' :: (pub ++ (['-', 'E', 'N', 'D']
          ++ ((ToUpper tbl label ++ "PUB".toList) ++ (['K', 'E', 'Y'] ++ '-' :: []))))))) := by
    simp [List.append_assoc]
  rw [hshape, hm]
  exact h3

/-- Extraction from a key listing with the private key alone yields the
private key. -/
theorem extractToken_keys_private (tbl : Char → Char) (label priv : List Char)
    (hlabel : label ≠ []) (hl : ∀ c ∈ label, isAlnum c = true)
    (hpriv : priv ≠ []) (hprivc : ∀ c ∈ priv, isSpace c = false ∧ c ≠ '-') :
    ExtractToken (FormatKeys tbl label [] priv) = priv := by
  have hU : ToUpper tbl label ≠ [] := by simpa [ToUpper] using hlabel
  have hUc := upper_label_clean tbl label hl
  have hUp := plain_of_clean _ hUc
  have hn := normalize_keys_private (ToUpper tbl label) priv hU (fun c hc => (hUc c hc).1)
    (fun c hc => by simpa [isDash] using (hUc c hc).2) hpriv (fun c hc => (hprivc c hc).1)
    (fun c hc => by simpa [isDash] using (hprivc c hc).2)
  have hLp : Plain (ToUpper tbl label ++ "PRIVATE".toList) :=
    plain_append hUp (by unfold Plain; decide)
  obtain ⟨m, hm, h3⟩ := tokenRe_find_block_tail (keyWarning.filter (fun c => !isSpace c))
    (ToUpper tbl label ++ "PRIVATE".toList) ['K', 'E', 'Y'] priv
    (ToUpper tbl label ++ "PRIVATE".toList) ['K', 'E', 'Y'] (List.replicate 61 '*')
    keyWarning_stripped.1 (by simp [hU]) (plain_any hLp) (Or.inr rfl) hpriv
    (plain_of_clean _ hprivc) (by simp [hU]) hLp (Or.inr rfl) (by decide)
  unfold ExtractToken
  rw [formatKeys_sections, if_pos hpriv, if_neg (by simp), List.append_nil, hn]
  have hshape : keyWarning.filter (fun c => !isSpace c)
        ++ ("-BEGIN".toList ++ (ToUpper tbl label ++ ("PRIVATEKEY-".toList ++ (priv
          ++ ("-END".toList ++ (ToUpper tbl label ++ ("PRIVATEKEY-".toList
          ++ List.replicate 61 '*'))))))) =
      keyWarning.filter (fun c => !isSpace c) ++ (['-', 'B', 'E', 'G', 'I', 'N']
        ++ ((ToUpper tbl label ++ "PRIVATE".toList)
        ++ (['K', 'E', 'Y'] ++ '-' :: (priv ++ (['-', 'E', 'N', 'D']
          ++ ((ToUpper tbl label ++ "PRIVATE".toList)
            ++ (['K', 'E', 'Y'] ++ '-' :: List.replicate 61 '*'))))))) := by
    simp [List.append_assoc]
  rw [hshape, hm]
  exact h3

/-! ### The calendar arithmetic of `Time.Date` and `Time.AddDate` -/

theorem isLeap_false_iff (y : Int) :
    isLeap y = false ↔ ¬ (y % 4 = 0 ∧ (y % 100 ≠ 0 ∨ y % 400 = 0)) := by
  simp [isLeap]

theorem daysSinceEpochExact_cycles (n400 r n4 n1 : Int) (_h0 : 0 ≤ n400) (hr : 0 ≤ r ∧ r ≤ 3)
    (hn4 : 0 ≤ n4 ∧ n4 ≤ 24) (hn1 : 0 ≤ n1 ∧ n1 ≤ 3) :
    daysSinceEpochExact (400 * n400 + 100 * r + 4 * n4 + n1 + absoluteZeroYear) =
      146097 * n400 + 36524 * r + 1461 * n4 + 365 * n1 := by
  unfold daysSinceEpochExact absoluteZeroYear
  simp only []
  have e : 400 * n400 + 100 * r + 4 * n4 + n1 + -292277022399 - -292277022399 =
      400 * n400 + 100 * r + 4 * n4 + n1 := by ring
  rw [e]
  have h1 : (400 * n400 + 100 * r + 4 * n4 + n1) / 400 = n400 := by omega
  rw [h1]
  have h2 : (400 * n400 + 100 * r + 4 * n4 + n1 - 400 * n400) / 100 = r := by omega
  rw [h2]
  have h3 : (400 * n400 + 100 * r + 4 * n4 + n1 - 400 * n400 - 100 * r) / 4 = n4 := by omega
  rw [h3]
  ring

/-- The year and the day of the year that `absDate` computes from a day
count `D`, given by the equations of its steps. -/
theorem absDate_year_core (D n400 d1 c r d2 n4 d3 q n1 d4 : Int) (hD : 0 ≤ D)
    (e1 : n400 = D / 146097) (e2 : d1 = D - 146097 * n400)
    (e3 : c = d1 / 36524) (e4 : r = c - c / 4) (e5 : d2 = d1 - 36524 * r)
    (e6 : n4 = d2 / 1461) (e7 : d3 = d2 - 1461 * n4)
    (e8 : q = d3 / 365) (e9 : n1 = q - q / 4) (e10 : d4 = d3 - 365 * n1) :
    daysSinceEpochExact (400 * n400 + 100 * r + 4 * n4 + n1 + absoluteZeroYear) + d4 = D ∧
      0 ≤ d4 ∧ d4 ≤ 365 ∧
      (isLeap (400 * n400 + 100 * r + 4 * n4 + n1 + absoluteZeroYear) = false → d4 ≤ 364) ∧
      0 ≤ 400 * n400 + 100 * r + 4 * n4 + n1 ∧
      400 * n400 + 100 * r + 4 * n4 + n1 ≤ D := by
  have a1 : 0 ≤ n400 ∧ 0 ≤ d1 ∧ d1 ≤ 146096 := by omega
  have a2 : 0 ≤ c ∧ c ≤ 4 := by omega
  have a3 : 0 ≤ r ∧ r ≤ 3 ∧ 0 ≤ d2 ∧ d2 ≤ 36524 ∧ (r < 3 → d2 ≤ 36523) := by omega
  have a4 : 0 ≤ n4 ∧ n4 ≤ 24 ∧ 0 ≤ d3 ∧ d3 ≤ 1460 ∧ (n4 = 24 → r < 3 → d3 ≤ 1459) := by
    omega
  have a5 : 0 ≤ q ∧ q ≤ 4 := by omega
  have a6 : 0 ≤ n1 ∧ n1 ≤ 3 ∧ 0 ≤ d4 ∧ d4 ≤ 365 ∧ (n1 < 3 → d4 ≤ 364) ∧
      (n4 = 24 → r < 3 → d4 ≤ 364) := by omega
  rw [daysSinceEpochExact_cycles n400 r n4 n1 a1.1 ⟨a3.1, a3.2.1⟩ ⟨a4.1, a4.2.1⟩ ⟨a6.1, a6.2.1⟩,
    isLeap_false_iff]
  unfold absoluteZeroYear
  refine ⟨by omega, a6.2.2.1, a6.2.2.2.1, ?_, by omega, by omega⟩
  intro hl
  by_cases h3 : n1 < 3
  · exact a6.2.2.2.2.1 h3
  · have hn1 : n1 = 3 := by omega
    by_cases h24 : n4 = 24
    · by_cases hr : r < 3
      · exact a6.2.2.2.2.2 h24 hr
      · exfalso; apply hl; omega
    · exfalso; apply hl; omega

/-- The month and the day of the month that `absDate` computes from the day
`day` of a year without its leap day: the days before the month and the day of
the month add up to `day`. -/
theorem absDate_month_core (day : Int) (h0 : 0 ≤ day) (h1 : day ≤ 364) :
    ∃ mo dy : Int,
      ((if day ≥ daysBefore (day / 31 + 1).toNat
          then (day / 31 + 1, daysBefore (day / 31 + 1).toNat)
          else (day / 31, daysBefore (day / 31).toNat)).1 + 1,
        day - (if day ≥ daysBefore (day / 31 + 1).toNat
          then (day / 31 + 1, daysBefore (day / 31 + 1).toNat)
          else (day / 31, daysBefore (day / 31).toNat)).2 + 1) = (mo, dy) ∧
      1 ≤ mo ∧ mo ≤ 12 ∧ 1 ≤ dy ∧ dy ≤ 31 ∧
      daysBefore (mo - 1).toNat + (dy - 1) = day ∧ (mo ≥ 3 ↔ day ≥ 59) := by
  have hm : day / 31 = 0 ∨ day / 31 = 1 ∨ day / 31 = 2 ∨ day / 31 = 3 ∨ day / 31 = 4 ∨
      day / 31 = 5 ∨ day / 31 = 6 ∨ day / 31 = 7 ∨ day / 31 = 8 ∨ day / 31 = 9 ∨
      day / 31 = 10 ∨ day / 31 = 11 := by omega
  rcases hm with h | h | h | h | h | h | h | h | h | h | h | h <;>
    (rw [h]
     split_ifs with hs <;>
      (refine ⟨_, _, rfl, ?_⟩
       simp [daysBefore] at hs ⊢
       omega))

/-- The date of an absolute time: `absDate` returns a month from 1 to 12 and a
day from 1 to 31 whose day count, taken by the formula of `Date`, is the day
of the absolute time. -/
theorem absDate_spec (abs : Int) (h : 0 ≤ abs) :
    ∃ y mo dy : Int, absDate abs = (y, mo, dy) ∧ 1 ≤ mo ∧ mo ≤ 12 ∧ 1 ≤ dy ∧ dy ≤ 31 ∧
      daysSinceEpochExact y + daysBefore (mo - 1).toNat
        + (if isLeap y = true ∧ mo ≥ 3 then 1 else 0) + (dy - 1) = abs / 86400 ∧
      absoluteZeroYear ≤ y ∧ y ≤ abs / 86400 + absoluteZeroYear := by
  simp only [absDate]
  have hD0 : 0 ≤ abs / 86400 := by omega
  generalize hD : abs / 86400 = D at hD0 ⊢
  generalize hn400 : D / 146097 = n400
  generalize hd1 : D - 146097 * n400 = d1
  generalize hc : d1 / 36524 = c
  generalize hr : c - c / 4 = r
  generalize hd2 : d1 - 36524 * r = d2
  generalize hn4 : d2 / 1461 = n4
  generalize hd3 : d2 - 1461 * n4 = d3
  generalize hq : d3 / 365 = q
  generalize hn1 : q - q / 4 = n1
  generalize hd4 : d3 - 365 * n1 = d4
  obtain ⟨hsum, h0, h365, hleap, hy0, hyD⟩ := absDate_year_core D n400 d1 c r d2 n4 d3 q n1 d4
    hD0 hn400.symm hd1.symm hc.symm hr.symm hd2.symm hn4.symm hd3.symm hq.symm hn1.symm
    hd4.symm
  generalize hY : 400 * n400 + 100 * r + 4 * n4 + n1 + absoluteZeroYear = Y at hsum hleap ⊢
  have hYr : absoluteZeroYear ≤ Y ∧ Y ≤ D + absoluteZeroYear := by omega
  cases hl : isLeap Y with
  | false =>
    have h364 := hleap hl
    simp only [Bool.false_eq_true, false_and, if_false]
    obtain ⟨mo, dy, he, hmo1, hmo2, hdy1, hdy2, hs, _⟩ := absDate_month_core d4 h0 h364
    simp only [Prod.mk.injEq] at he
    refine ⟨Y, mo, dy, by rw [he.1, he.2], hmo1, hmo2, hdy1, hdy2, ?_, hYr.1, hYr.2⟩
    simp only [hl, Bool.false_eq_true, false_and, if_false]
    omega
  | true =>
    simp only [true_and]
    by_cases h59 : d4 = 31 + 29 - 1
    · rw [if_pos h59]
      refine ⟨Y, 2, 29, rfl, by decide, by decide, by decide, by decide, ?_, hYr.1, hYr.2⟩
      simp [daysBefore, hl]
      omega
    · rw [if_neg h59]
      by_cases hgt : d4 > 31 + 29 - 1
      · simp only [if_pos hgt]
        obtain ⟨mo, dy, he, hmo1, hmo2, hdy1, hdy2, hs, hge⟩ :=
          absDate_month_core (d4 - 1) (by omega) (by omega)
        simp only [Prod.mk.injEq] at he
        have h3 : mo ≥ 3 := hge.mpr (by omega)
        refine ⟨Y, mo, dy, by rw [he.1, he.2], hmo1, hmo2, hdy1, hdy2, ?_, hYr.1, hYr.2⟩
        simp only [hl, h3, and_self, if_true]
        omega
      · simp only [if_neg hgt]
        obtain ⟨mo, dy, he, hmo1, hmo2, hdy1, hdy2, hs, hge⟩ :=
          absDate_month_core d4 h0 (by omega)
        simp only [Prod.mk.injEq] at he
        have h3 : ¬ mo ≥ 3 := fun hh => by have := hge.mp hh; omega
        refine ⟨Y, mo, dy, by rw [he.1, he.2], hmo1, hmo2, hdy1, hdy2, ?_, hYr.1, hYr.2⟩
        simp only [hl, h3, and_false, if_false]
        omega

/-- The absolute seconds of a well-formed instant: the Unix seconds, the zone
offset in force and the seconds from the absolute epoch to 1970, with nothing
wrapped. -/
theorem abs_eq (t : Time) (hwf : t.WellFormed) :
    t.abs = t.sec + (t.loc.lookup t.sec).1 + unixToAbsolute := by
  obtain ⟨h0, h1, _, _, ho⟩ := hwf
  have ho := ho t.sec
  have hu : unixToAbsolute = 9223372028715321600 := rfl
  unfold Time.abs
  simp only []
  rw [wrap64_id _ (by norm_num at h0 ho ⊢; omega) (by norm_num at h1 ho ⊢; omega)]
  apply Int.emod_eq_of_lt
  · norm_num at h0 ho ⊢; omega
  · norm_num at h1 ho ⊢; omega

/-- The clock of an instant: hour, minute and second are in range and make up
the second of the day. -/
theorem clock_spec (t : Time) :
    ∃ h mi s : Int, t.Clock = (h, mi, s) ∧ 0 ≤ h ∧ h < 24 ∧ 0 ≤ mi ∧ mi < 60 ∧
      0 ≤ s ∧ s < 60 ∧ h * 3600 + mi * 60 + s = t.abs % 86400 := by
  simp only [Time.Clock]
  generalize hx : t.abs % 86400 = x
  have hx0 : 0 ≤ x := by omega
  have hx1 : x < 86400 := by omega
  refine ⟨_, _, _, rfl, ?_, ?_, ?_, ?_, ?_, ?_, ?_⟩ <;> omega

/-- The calendar fields of a well-formed instant in its location: they are in
range, and they count the local seconds, which are the Unix seconds and the
zone offset in force. -/
theorem time_fields (t : Time) (hwf : t.WellFormed) :
    ∃ y mo dy h mi s : Int, t.Date = (y, mo, dy) ∧ t.Clock = (h, mi, s) ∧
      (1 ≤ mo ∧ mo ≤ 12) ∧ (1 ≤ dy ∧ dy ≤ 31) ∧ (0 ≤ h ∧ h < 24) ∧ (0 ≤ mi ∧ mi < 60) ∧
      (0 ≤ s ∧ s < 60) ∧ (absoluteZeroYear ≤ y ∧ y ≤ absoluteZeroYear + 2 ^ 49) ∧
      t.sec + (t.loc.lookup t.sec).1 =
        (daysSinceEpochExact y + daysBefore (mo - 1).toNat
          + (if isLeap y = true ∧ mo ≥ 3 then 1 else 0) + (dy - 1)) * 86400
          + (h * 3600 + mi * 60 + s) - unixToAbsolute := by
  have habs := abs_eq t hwf
  obtain ⟨h0, h1, _, _, ho⟩ := hwf
  have ho := ho t.sec
  have hu : unixToAbsolute = 9223372028715321600 := rfl
  have ha0 : 0 ≤ t.abs := by rw [habs]; norm_num at h0 ho ⊢; omega
  have ha1 : t.abs < 2 ^ 64 := by rw [habs]; norm_num at h1 ho ⊢; omega
  obtain ⟨y, mo, dy, he, hmo1, hmo2, hdy1, hdy2, hsum, hy0, hy1⟩ := absDate_spec t.abs ha0
  obtain ⟨h, mi, s, hc, hh0, hh1, hmi0, hmi1, hs0, hs1, hcs⟩ := clock_spec t
  refine ⟨y, mo, dy, h, mi, s, he, hc, ⟨hmo1, hmo2⟩, ⟨hdy1, hdy2⟩, ⟨hh0, hh1⟩, ⟨hmi0, hmi1⟩,
    ⟨hs0, hs1⟩, ⟨hy0, ?_⟩, ?_⟩
  · norm_num at ha1 ⊢
    omega
  · rw [hsum, hcs]
    omega

/-- `Time.AddDate` by days alone keeps the wall-clock reading of a well-formed
instant and moves it by whole days of 86400 seconds; the instant is that
reading less the zone offset that holds for it. -/
theorem addDate_days (t : Time) (hwf : t.WellFormed) (n : Int) (hn0 : -2 ^ 40 ≤ n)
    (hn1 : n ≤ 2 ^ 40) :
    t.AddDate 0 0 n =
      { sec := t.sec + (t.loc.lookup t.sec).1 + 86400 * n
          - t.loc.offsetFor (t.sec + (t.loc.lookup t.sec).1 + 86400 * n),
        nsec := t.nsec, loc := t.loc } := by
  obtain ⟨y, mo, dy, h, mi, s, he, hc, hmo, hdy, hh, hmi, hs, hy, hsec⟩ := time_fields t hwf
  have ha : absoluteZeroYear = -292277022399 := rfl
  have ho := hwf.2.2.2.2 t.sec
  have w1 : wrap64 (y + 0) = y := by
    rw [add_zero]; exact wrap64_id _ (by norm_num; omega) (by norm_num at hy ⊢; omega)
  have w2 : wrap64 (mo + 0) = mo := by
    rw [add_zero]; exact wrap64_id _ (by norm_num; omega) (by norm_num; omega)
  have w3 : wrap64 (dy + n) = dy + n :=
    wrap64_id _ (by norm_num at hn0 ⊢; omega) (by norm_num at hn1 ⊢; omega)
  unfold Time.AddDate
  rw [he, hc]
  simp only []
  rw [w1, w2, w3]
  exact date_fields y mo (dy + n) h mi s t.nsec t.loc hy.1 (by norm_num at hy ⊢; omega)
    hmo.1 hmo.2 hh.1 hh.2 hmi.1 hmi.2 hs.1 hs.2 hwf.2.2.1 hwf.2.2.2.1 _
    (by rw [hsec]; ring)
    (by have := hwf.1; norm_num at this hn0 ho ⊢; omega)
    (by have := hwf.2.1; norm_num at this hn1 ho ⊢; omega) hwf.2.2.2.2

/-- `Time.AddDate` by one month from a 31 January: the day 31 of February is
carried over into March, which moves the wall-clock reading by 31 days. -/
theorem addDate_month_jan31 (t : Time) (hwf : t.WellFormed) (Y : Int)
    (hd : t.Date = (Y, 1, 31)) :
    t.AddDate 0 1 0 =
      { sec := t.sec + (t.loc.lookup t.sec).1 + 31 * 86400
          - t.loc.offsetFor (t.sec + (t.loc.lookup t.sec).1 + 31 * 86400),
        nsec := t.nsec, loc := t.loc } := by
  obtain ⟨y, mo, dy, h, mi, s, he, hc, hmo, hdy, hh, hmi, hs, hy, hsec⟩ := time_fields t hwf
  rw [hd, Prod.mk.injEq, Prod.mk.injEq] at he
  obtain ⟨rfl, rfl, rfl⟩ := he
  have ha : absoluteZeroYear = -292277022399 := rfl
  have ho := hwf.2.2.2.2 t.sec
  have w1 : wrap64 (Y + 0) = Y := by
    rw [add_zero]; exact wrap64_id _ (by norm_num; omega) (by norm_num at hy ⊢; omega)
  have w2 : wrap64 (1 + 1) = 2 := by decide
  have w3 : wrap64 (31 + 0) = 31 := by decide
  have e1 : (if isLeap Y = true ∧ (1 : Int) ≥ 3 then (1 : Int) else 0) = 0 := by
    rw [if_neg]; rintro ⟨_, h3⟩; exact absurd h3 (by decide)
  have e2 : (if isLeap Y = true ∧ (2 : Int) ≥ 3 then (1 : Int) else 0) = 0 := by
    rw [if_neg]; rintro ⟨_, h3⟩; exact absurd h3 (by decide)
  have e3 : daysBefore ((1 : Int) - 1).toNat = 0 := by decide
  have e4 : daysBefore ((2 : Int) - 1).toNat = 31 := by decide
  rw [e1, e3] at hsec
  unfold Time.AddDate
  rw [hd, hc]
  simp only []
  rw [w1, w2, w3]
  exact date_fields Y 2 31 h mi s t.nsec t.loc hy.1 (by norm_num at hy ⊢; omega)
    (by decide) (by decide) hh.1 hh.2 hmi.1 hmi.2 hs.1 hs.2 hwf.2.2.1 hwf.2.2.2.1 _
    (by rw [hsec, e2, e4]; ring)
    (by have := hwf.1; norm_num at this ho ⊢; omega)
    (by have := hwf.2.1; norm_num at this ho ⊢; omega) hwf.2.2.2.2

/-- `Time.Add` by whole seconds leaves the nanoseconds and the location of a
well-formed instant alone. -/
theorem add_seconds (t : Time) (hwf : t.WellFormed) (k : Int) :
    t.Add (k * 1000000000) = { sec := t.sec + k, nsec := t.nsec, loc := t.loc } := by
  obtain ⟨_, _, h0, h1, _⟩ := hwf
  have e1 : Int.tdiv (k * 1000000000) 1000000000 = k :=
    Int.mul_tdiv_cancel _ (by decide)
  have e2 : Int.tmod (k * 1000000000) 1000000000 = 0 := Int.mul_tmod_left _ _
  simp only [Time.Add, e1, e2, add_zero]
  rw [if_neg (by omega), if_neg (by omega)]

/-- In a location with one offset at all times, that offset holds for every
wall-clock reading. -/
theorem offsetFor_fixed (l : Location) (o : Int) (h : l.Fixed o) (wall : Int) :
    l.offsetFor wall = o := by
  unfold Location.offsetFor
  simp only [h wall, h (wall - o)]
  split_ifs <;> rfl

/-- `ParseExpiry` on a digit run of non-zero value followed by a unit letter:
the branch of the unit is taken with the value as the count. -/
theorem parseExpiry_digits_unit (now : Time) (d : List Char) (u : Char) (hd : d ≠ [])
    (hdd : ∀ c ∈ d, isDigit c = true) (hu : isUnit u = true) (hv0 : digitsVal d ≠ 0)
    (hv : digitsVal d ≤ 2 ^ 63 - 1) :
    ParseExpiry now (d ++ [u]) =
      if u = 'm' then .ok (now.Add (wrap64 ((digitsVal d : Int) * Minute))).Unix
      else if u = 'h' then .ok (now.Add (wrap64 ((digitsVal d : Int) * Hour))).Unix
      else if u = 'd' then .ok (now.AddDate 0 0 (digitsVal d : Int)).Unix
      else if u = 'w' then .ok (now.AddDate 0 0 (wrap64 (7 * (digitsVal d : Int)))).Unix
      else if u = 'M' then .ok (now.AddDate 0 (digitsVal d : Int) 0).Unix
      else .ok (now.AddDate (digitsVal d : Int) 0 0).Unix := by
  have hu' : isDigit u = false ∧ u ≠ '-' := by
    rcases isUnit_cases u hu with rfl | rfl | rfl | rfl | rfl | rfl <;> decide
  have hne : ¬ (d ++ [u] = [] ∨ d ++ [u] = ['0']) := by
    rintro (h | h)
    · simp at h
    · have hl := congrArg List.length h
      simp only [List.length_append, List.length_cons, List.length_nil] at hl
      have := List.length_pos.mpr hd
      omega
  have hdate : dateRe.matchString (d ++ [u]) = false := by
    apply dateRe_matchString_no_dash
    intro hm
    rcases List.mem_append.mp hm with hm | hm
    · exact (isDigit_ne_dash _ (hdd _ hm)).1 rfl
    · exact hu'.2 (List.mem_singleton.mp hm).symm
  obtain ⟨m, hm, _, h1, h2⟩ := digitsThen_find isUnit d u [] hd hdd hu hu'.1
  have hm' : intervalRe.find (d ++ [u]) = some m := hm
  have hp := ParseInt_digits_ok d hd hdd hv
  have hc : ¬ ((digitsVal d : Int) = 0) := by omega
  rw [parseExpiry_relative now _ hne hdate, hm']
  simp only [h1, h2, hp, if_neg hc, List.cons.injEq, and_true]
  rcases isUnit_cases u hu with rfl | rfl | rfl | rfl | rfl | rfl <;> simp

/-- A marker kind and a dash found past the start of `X-p`, `X` a marker kind,
lie inside `p`. -/
theorem kind_dash_inside (X X' : List Char) (hX : IsKind X) (hX' : IsKind X')
    (a p c : List Char) (ha : a ≠ []) (h : X ++ '-' :: p = a ++ (X' ++ '-' :: c)) :
    ∃ d, p = d ++ (X' ++ '-' :: c) := by
  rcases a with _ | ⟨a1, _ | ⟨a2, _ | ⟨a3, _ | ⟨a4, d⟩⟩⟩⟩
  · exact absurd rfl ha
  · rcases hX with rfl | rfl <;> rcases hX' with rfl | rfl <;> simp at h
  · rcases hX with rfl | rfl <;> rcases hX' with rfl | rfl <;> simp at h
  · rcases hX with rfl | rfl <;> rcases hX' with rfl | rfl <;> simp at h
  · refine ⟨d, ?_⟩
    rcases hX with rfl | rfl <;>
      (simp only [List.cons_append, List.nil_append, List.cons.injEq] at h; exact h.2.2.2.2)

/-- Evaluation of `(?P<token>.+)(\-END.+(JWT|KEY)\-)` on a payload of any
characters of the class `.`, dashes included, followed by a closing marker and
dash-free text: the greedy token takes the whole payload, since no later
closing marker exists. -/
theorem run_token_close_any (p L X T : List Char) (hp : p ≠ [])
    (hpa : ∀ c ∈ p, isAny c = true) (hL : L ≠ []) (hLp : Plain L) (hX : IsKind X)
    (hT : '-' ∉ T) (k : List Char → Caps → Option Caps) (m res : Caps)
    (hk : k T (setCap (setCap (setCap m 3 p) 5 X) 4
      (['-', 'E', 'N', 'D'] ++ (L ++ (X ++ ['-'])))) = some res) :
    (Regex.seq (.group 3 (.plus isAny)) (.group 4 (closeMarkerRe 5))).run k
      (p ++ (['-', 'E', 'N', 'D'] ++ (L ++ (X ++ '-' :: T)))) m = some res := by
  rw [run_seq, run_group, run_plus]
  apply plusLoop_greedy isAny _ p _ res hp hpa
  · cases h : plusLoop isAny _ (['-', 'E', 'N', 'D'] ++ (L ++ (X ++ '-' :: T))) with
    | none => rfl
    | some r =>
      exfalso
      obtain ⟨a', b', hab, hne, _, hkk⟩ := plusLoop_sound _ _ _ _ h
      obtain ⟨a₄, b₄, m', rfl, hs, _⟩ := run_sound _ _ _ _ _ hkk
      rw [sem_group] at hs
      obtain ⟨m₁, hs, _⟩ := hs
      obtain ⟨u, Y, hY, hu, rfl⟩ := sem_closeMarker _ _ _ _ _ hs
      have hc := congrArg (List.count '-') hab
      cases a' with
      | nil => exact hne rfl
      | cons c a'' =>
        simp only [List.cons_append, List.cons.injEq] at hab
        rw [← hab.1] at hc
        simp [List.count_append, List.count_cons, plain_count hLp, isKind_count hX,
          isKind_count hY, count_zero_of_not_mem T hT] at hc
        omega
  · show (Regex.group 4 (closeMarkerRe 5)).run k _ _ = some res
    rw [run_group, consumed_append]
    apply run_closeMarker_tail 5 L X T hL hLp hX hT
    show k T (setCap _ 4 (consumed _ T)) = some res
    rw [consumed_close]
    exact hk

/-- The marker pattern on a text `-BEGIN L₁ X - p -END L₂ Y - T` whose payload
`p` may hold dashes, as long as it does not end in one and holds no marker
kind followed by a dash: the greedy opening `.+` stops before the marker kind
`X`, and the token is the payload. -/
theorem tokenRe_run_block_dashed (L₁ X p L₂ Y T : List Char)
    (hL₁ : L₁ ≠ []) (hL₁a : ∀ c ∈ L₁, isAny c = true) (hX : IsKind X) (hp : p ≠ [])
    (hpa : ∀ c ∈ p, isAny c = true)
    (hpk : ∀ X', IsKind X' → ¬ (X' ++ ['-']) <:+: p) (hpl : ¬ ['-'] <:+ p)
    (hL₂ : L₂ ≠ []) (hL₂p : Plain L₂) (hY : IsKind Y) (hT : '-' ∉ T)
    (k : List Char → Caps → Option Caps) (m res : Caps)
    (hk : k T (setCap (setCap (setCap (setCap (setCap m 2 X) 1
      (consumed (['-', 'B', 'E', 'G', 'I', 'N'] ++ (L₁ ++ (X ++ ('-' ::
        (p ++ (['-', 'E', 'N', 'D'] ++ (L₂ ++ (Y ++ '-' :: T))))))))
        (p ++ (['-', 'E', 'N', 'D'] ++ (L₂ ++ (Y ++ '-' :: T)))))) 3 p) 5 Y) 4
      (['-', 'E', 'N', 'D'] ++ (L₂ ++ (Y ++ ['-'])))) = some res) :
    tokenRe.run k (['-', 'B', 'E', 'G', 'I', 'N'] ++ (L₁ ++ (X ++ ('-' ::
        (p ++ (['-', 'E', 'N', 'D'] ++ (L₂ ++ (Y ++ '-' :: T)))))))) m = some res := by
  unfold tokenRe openMarkerRe
  rw [run_seq, run_group, run_seq, run_lit_append, run_seq, run_plus]
  apply plusLoop_greedy isAny _ L₁ _ _ hL₁ hL₁a
  · cases h : plusLoop isAny _ (X ++ ('-' ::
        (p ++ (['-', 'E', 'N', 'D'] ++ (L₂ ++ (Y ++ '-' :: T)))))) with
    | none => rfl
    | some r =>
      exfalso
      obtain ⟨a', b', hab, hne, _, hkk⟩ := plusLoop_sound _ _ _ _ h
      obtain ⟨a₂, b₂, m₂, rfl, hs₂, hk₂⟩ := run_sound _ _ _ _ _ hkk
      obtain ⟨X', hX', rfl⟩ := sem_kind_dash _ _ _ _ _ hs₂
      obtain ⟨a₃, b₃, m₃, rfl, hs₃, _⟩ := run_sound _ _ _ _ _ hk₂
      rw [sem_seq] at hs₃
      obtain ⟨t, a₄, m₄, rfl, _, hs₄⟩ := hs₃
      rw [sem_group] at hs₄
      obtain ⟨m₆, hs₄, _⟩ := hs₄
      obtain ⟨u, Y', hY', hu, rfl⟩ := sem_closeMarker _ _ _ _ _ hs₄
      have hsplit : (X ++ '-' :: p) ++ (['-', 'E', 'N', 'D'] ++ (L₂ ++ (Y ++ '-' :: T))) =
          (a' ++ (X' ++ ['-'])) ++
            ((t ++ (['-', 'E', 'N', 'D'] ++ (u ++ (Y' ++ ['-'])))) ++ b₃) := by
        simpa [List.append_assoc] using hab
      rcases List.append_eq_append_iff.mp hsplit with ⟨c, h₁, h₂⟩ | ⟨c, h₁, h₂⟩
      · -- the later marker kind ends where the payload ends, or after it
        have hc := congrArg (List.count '-') h₂
        simp [List.count_append, List.count_cons, plain_count hL₂p, isKind_count hY,
          isKind_count hY', count_zero_of_not_mem T hT] at hc
        have hc0 : c = [] := by
          cases c with
          | nil => rfl
          | cons e c' =>
            simp only [List.cons_append, List.cons.injEq] at h₂
            rw [← h₂.1] at hc
            simp [List.count_cons] at hc
            omega
        subst hc0
        obtain ⟨p', l, rfl⟩ := exists_last p hp
        have h₁' : (a' ++ X') ++ ['-'] = (X ++ '-' :: p') ++ [l] := by
          simpa [List.append_assoc] using h₁
        have hl := (List.append_inj' h₁' rfl).2
        simp only [List.cons.injEq, and_true] at hl
        exact hpl ⟨p', by rw [hl]⟩
      · -- the later marker kind lies inside the payload
        have h₁' : X ++ '-' :: p = a' ++ (X' ++ '-' :: c) := by
          simpa [List.append_assoc] using h₁
        obtain ⟨d, hd⟩ := kind_dash_inside X X' hX hX' a' p c hne h₁'
        exact hpk X' hX' ⟨d, c, by rw [hd]; simp⟩
  · show (Regex.seq _ _).run _ (X ++ ('-' :: _)) _ = some _
    rw [run_kind_dash 2 X _ hX]
    exact run_token_close_any p L₂ Y T hp hpa hL₂ hL₂p hY hT _ _ _ hk

/-- Collapsing dash runs leaves alone a text without two adjacent dashes that
does not end in a dash and, when it follows a dash, does not start with
one. -/
theorem collapse_keep : ∀ (p rest : List Char) (flag : Bool), p ≠ [] →
    ¬ ['-', '-'] <:+: p → ¬ ['-'] <:+ p → (flag = true → ¬ ['-'] <+: p) →
    replaceRunsAux isDash ['-'] flag (p ++ rest) =
      p ++ replaceRunsAux isDash ['-'] false rest := by
  intro p
  induction p with
  | nil => intro rest flag h; exact absurd rfl h
  | cons c cs ih =>
    intro rest flag _ hrun hlast hhead
    have hcs_run : ¬ ['-', '-'] <:+: cs := fun h =>
      hrun (h.trans (List.infix_cons (List.infix_refl _)))
    have hcs_last : cs ≠ [] → ¬ ['-'] <:+ cs := fun _ h =>
      hlast (h.trans (List.suffix_cons _ _))
    by_cases hc : c = '-'
    · subst hc
      have hflag : flag = false := by
        cases flag with
        | false => rfl
        | true => exact absurd (List.prefix_iff_eq_append.mpr rfl) (hhead rfl)
      subst hflag
      have hne : cs ≠ [] := by
        rintro rfl
        exact hlast (List.suffix_refl _)
      have hcs_head : ¬ ['-'] <+: cs := by
        rintro ⟨t, rfl⟩
        exact hrun ⟨[], t, rfl⟩
      rw [List.cons_append, replaceRunsAux_cons_first _ _ _ _ (by decide),
        ih rest true hne hcs_run (hcs_last hne) (fun _ => hcs_head)]
      rfl
    · have hd : isDash c = false := by simpa [isDash] using hc
      rw [List.cons_append, replaceRunsAux_cons_keep _ _ _ _ _ hd]
      cases cs with
      | nil => rfl
      | cons d ds =>
        rw [ih rest false (by simp) hcs_run (hcs_last (by simp)) (fun h => by cases h)]
        rfl

/-- The normalized form of a formatted token whose label holds neither
whitespace nor a dash and whose payload holds no whitespace, no two adjacent
dashes and no dash at either end. -/
theorem normalize_block_dashed (U p : List Char) (hU : U ≠ [])
    (hUs : ∀ c ∈ U, isSpace c = false) (hUd : ∀ c ∈ U, isDash c = false)
    (hp : p ≠ []) (hps : ∀ c ∈ p, isSpace c = false) (hrun : ¬ ['-', '-'] <:+: p)
    (hhead : ¬ ['-'] <+: p) (hlast : ¬ ['-'] <:+ p) :
    normalize ("-----BEGIN ".toList ++ U ++ " JWT-----\n".toList ++ (p ++ ['\n'])
      ++ ("------END ".toList ++ U ++ " JWT------\n".toList) ++ ['\n']) =
    ['-', 'B', 'E', 'G', 'I', 'N'] ++ (U ++ (['J', 'W', 'T'] ++ ('-' ::
        (p ++ (['-', 'E', 'N', 'D'] ++ (U ++ (['J', 'W', 'T'] ++ ['-']))))))) := by
  have hk := fun rest flag => collapse_keep p rest flag hp hrun hlast (fun _ => hhead)
  unfold normalize replaceRuns
  rw [replaceRunsAux_erase]
  simp only [List.filter_append, filter_keep isSpace U hUs, filter_keep isSpace p hps]
  simp [isSpace, replaceRunsAux, isDash, replaceRunsAux_append_keep isDash _ U _ _ hU hUd,
    hk]

theorem isAny_of_not_space (c : Char) (h : isSpace c = false) : isAny c = true := by
  simp only [isSpace, Bool.or_eq_false_iff, beq_eq_false_iff_ne] at h
  simp [isAny, h.1.1.1.2]

/-- Extraction from a formatted token gives back a payload that is not empty
and holds no whitespace, no two adjacent dashes, no dash at either end and no
marker kind followed by a dash. -/
theorem extractToken_formatJwt_dashed (tbl : Char → Char) (label p : List Char)
    (hlabel : label ≠ []) (hl : ∀ c ∈ label, isAlnum c = true)
    (hp : p ≠ []) (hps : ∀ c ∈ p, isSpace c = false) (hrun : ¬ ['-', '-'] <:+: p)
    (hhead : ¬ ['-'] <+: p) (hlast : ¬ ['-'] <:+ p)
    (hpk : ∀ X, IsKind X → ¬ (X ++ ['-']) <:+: p) :
    ExtractToken (FormatJwt tbl label p) = p := by
  have hU : ToUpper tbl label ≠ [] := by
    simpa [ToUpper] using hlabel
  have hUc : ∀ c ∈ ToUpper tbl label, isSpace c = false ∧ c ≠ '-' := by
    intro c hc
    simp only [ToUpper, List.mem_map] at hc
    obtain ⟨d, hd, rfl⟩ := hc
    exact ⟨(upper_alnum_plain tbl d (hl d hd)).1, (upper_alnum_plain tbl d (hl d hd)).2.1⟩
  have hn := normalize_block_dashed (ToUpper tbl label) p hU (fun c hc => (hUc c hc).1)
    (fun c hc => by simpa [isDash] using (hUc c hc).2) hp hps hrun hhead hlast
  have hUp : Plain (ToUpper tbl label) := plain_of_clean _ hUc
  have hm := find_of_matchAt _ _ _ (tokenRe_run_block_dashed (ToUpper tbl label)
    ['J', 'W', 'T'] p (ToUpper tbl label) ['J', 'W', 'T'] [] hU (plain_any hUp) (Or.inl rfl)
    hp (fun c hc => isAny_of_not_space c (hps c hc)) hpk hlast hU hUp (Or.inl rfl)
    (by simp) _ _ _ rfl)
  have hs' : normalize (FormatJwt tbl label p) = _ := hn
  unfold ExtractToken
  rw [hs', hm]
  simp [setCap]

/-- Greedy choice, read from the result: the run that `plusLoop` settles on is
the longest one after which the continuation succeeds. -/
theorem plusLoop_max (q : Char → Bool) (k : List Char → Option Caps) :
    ∀ (xs : List Char) (res : Caps), plusLoop q k xs = some res →
      ∃ a b, xs = a ++ b ∧ a ≠ [] ∧ (∀ c ∈ a, q c = true) ∧ k b = some res ∧
        ∀ a' b', xs = a' ++ b' → (∀ c ∈ a', q c = true) → a.length < a'.length →
          k b' = none := by
  intro xs
  induction xs with
  | nil => intro res h; simp [plusLoop] at h
  | cons c cs ih =>
    intro res h
    unfold plusLoop at h
    by_cases hc : q c = true
    · rw [if_pos hc] at h
      cases hrec : plusLoop q k cs with
      | some r =>
        rw [hrec] at h
        obtain ⟨a, b, hab, hne, hall, hk, hmax⟩ := ih r hrec
        refine ⟨c :: a, b, by simp [hab], by simp, ?_, ?_, ?_⟩
        · intro x hx
          rcases List.mem_cons.mp hx with rfl | hx
          · exact hc
          · exact hall x hx
        · simpa using h ▸ hk
        · intro a' b' hab' hall' hlen
          cases a' with
          | nil => simp at hlen
          | cons e a'' =>
            simp only [List.cons_append, List.cons.injEq] at hab'
            exact hmax a'' b' hab'.2 (fun x hx => hall' x (List.mem_cons_of_mem _ hx))
              (by simpa using hlen)
      | none =>
        rw [hrec] at h
        refine ⟨[c], cs, rfl, by simp, by simpa using hc, h, ?_⟩
        intro a' b' hab' hall' hlen
        cases a' with
        | nil => simp at hlen
        | cons e a'' =>
          simp only [List.cons_append, List.cons.injEq] at hab'
          have hne : a'' ≠ [] := by
            rintro rfl
            simp at hlen
          cases hk : k b' with
          | none => rfl
          | some r =>
            have := plusLoop_complete q k a'' b' hne
              (fun x hx => hall' x (List.mem_cons_of_mem _ hx)) (by simp [hk])
            rw [← hab'.2, hrec] at this
            cases this
    · rw [if_neg hc] at h
      cases h

/-- Shape of what the pattern `(?P<token>.+)(\-END.+(JWT|KEY)\-)` consumes,
with the token as submatch 3. -/
theorem sem_token_close (a b : List Char) (m m' : Caps)
    (h : (Regex.seq (.group 3 (.plus isAny)) (.group 4 (closeMarkerRe 5))).Sem a b m m') :
    ∃ t u Y, a = t ++ (['-', 'E', 'N', 'D'] ++ (u ++ (Y ++ ['-']))) ∧ t ≠ [] ∧ u ≠ [] ∧
      IsKind Y ∧ m' 3 = t := by
  rw [sem_seq] at h
  obtain ⟨t, a₄, m₁, rfl, h₃, h₄⟩ := h
  rw [sem_group, ] at h₃ h₄
  obtain ⟨m₂, h₃, rfl⟩ := h₃
  obtain ⟨m₃, h₄, rfl⟩ := h₄
  rw [sem_plus] at h₃
  obtain ⟨u, Y, hY, hu, rfl⟩ := sem_closeMarker _ _ _ _ _ h₄
  refine ⟨t, u, Y, rfl, h₃.1, hu, hY, ?_⟩
  unfold closeMarkerRe at h₄
  simp only [Regex.Sem] at h₄
  obtain ⟨_, _, n₁, _, ⟨_, hn₁⟩, _, _, n₂, _, ⟨_, _, hn₂⟩, _, _, n₃, _, ⟨n₄, hn₄, hn₃⟩, _,
    hm₃⟩ := h₄
  have hn₄' : n₄ = n₂ := by
    rcases hn₄ with ⟨_, h⟩ | ⟨_, h⟩ <;> exact h
  rw [hm₃, hn₃, hn₄', hn₂, hn₁]
  simp [setCap]

/-- Shape of what the opening marker pattern consumes, in full. -/
theorem sem_openMarker_shape (i : Nat) (a b : List Char) (m m' : Caps)
    (h : (openMarkerRe i).Sem a b m m') :
    ∃ x X, IsKind X ∧ x ≠ [] ∧ a = ['-', 'B', 'E', 'G', 'I', 'N'] ++ (x ++ (X ++ ['-'])) := by
  unfold openMarkerRe at h
  rw [Regex.Sem] at h
  obtain ⟨a₁, a₂, m₁, rfl, h₁, h₂⟩ := h
  rw [Regex.Sem] at h₂
  obtain ⟨a₃, a₄, m₂, rfl, h₃, h₄⟩ := h₂
  obtain ⟨X, hX, rfl⟩ := sem_kind_dash i _ _ _ _ h₄
  simp only [Regex.Sem] at h₁ h₃
  obtain ⟨rfl, _⟩ := h₁
  exact ⟨a₃, X, hX, h₃.1, rfl⟩

/-- Shape of a match of the marker pattern, with the token as submatch 3. -/
theorem sem_tokenRe_shape (a b : List Char) (m m' : Caps) (h : tokenRe.Sem a b m m') :
    ∃ x X t u Y, a = ['-', 'B', 'E', 'G', 'I', 'N'] ++ (x ++ (X ++ ('-' ::
        (t ++ (['-', 'E', 'N', 'D'] ++ (u ++ (Y ++ ['-']))))))) ∧
      x ≠ [] ∧ IsKind X ∧ t ≠ [] ∧ u ≠ [] ∧ IsKind Y ∧ m' 3 = t := by
  unfold tokenRe at h
  rw [sem_seq] at h
  obtain ⟨a₁, a₂, m₁, rfl, h₁, h₂⟩ := h
  rw [sem_group] at h₁
  obtain ⟨m₂, h₁, _⟩ := h₁
  obtain ⟨x, X, hX, hx, rfl⟩ := sem_openMarker_shape _ _ _ _ _ h₁
  obtain ⟨t, u, Y, rfl, ht, hu, hY, h3⟩ := sem_token_close _ _ _ _ h₂
  exact ⟨x, X, t, u, Y, by simp, hx, hX, ht, hu, hY, h3⟩

/-- Collapsing dash runs adds no character. -/
theorem collapse_mem : ∀ (xs : List Char) (flag : Bool) (c : Char),
    c ∈ replaceRunsAux isDash ['-'] flag xs → c ∈ xs := by
  intro xs
  induction xs with
  | nil => intro flag c h; simp [replaceRunsAux] at h
  | cons x cs ih =>
    intro flag c h
    cases hx : isDash x with
    | true =>
      have hx' : x = '-' := by simpa [isDash] using hx
      cases flag with
      | true =>
        rw [replaceRunsAux_cons_more _ _ _ _ hx] at h
        exact List.mem_cons_of_mem _ (ih true c h)
      | false =>
        rw [replaceRunsAux_cons_first _ _ _ _ hx] at h
        rcases List.mem_append.mp h with h | h
        · rw [List.mem_singleton.mp h, hx']
          exact List.mem_cons_self _ _
        · exact List.mem_cons_of_mem _ (ih true c h)
    | false =>
      rw [replaceRunsAux_cons_keep _ _ _ _ _ hx] at h
      rcases List.mem_cons.mp h with rfl | h
      · exact List.mem_cons_self _ _
      · exact List.mem_cons_of_mem _ (ih false c h)

/-- The collapsed text has no two adjacent dashes, and does not start with a
dash when it continues a run. -/
theorem collapse_no_run : ∀ (xs : List Char) (flag : Bool),
    (flag = true → ¬ ['-'] <+: replaceRunsAux isDash ['-'] flag xs) ∧
      ¬ ['-', '-'] <:+: replaceRunsAux isDash ['-'] flag xs := by
  intro xs
  induction xs with
  | nil =>
    intro flag
    simp [replaceRunsAux]
  | cons x cs ih =>
    intro flag
    cases hx : isDash x with
    | true =>
      cases flag with
      | true =>
        rw [replaceRunsAux_cons_more _ _ _ _ hx]
        exact ih true
      | false =>
        rw [replaceRunsAux_cons_first _ _ _ _ hx]
        refine ⟨fun h => absurd h (by decide), ?_⟩
        intro h
        rcases List.infix_cons_iff.mp h with h | h
        · obtain ⟨t, ht⟩ := h
          simp only [List.cons_append, List.nil_append, List.cons.injEq, true_and] at ht
          exact (ih true).1 rfl ⟨t, by simpa using ht⟩
        · exact (ih true).2 h
    | false =>
      have hx' : x ≠ '-' := by simpa [isDash] using hx
      rw [replaceRunsAux_cons_keep _ _ _ _ _ hx]
      refine ⟨fun _ h => ?_, fun h => ?_⟩
      · obtain ⟨t, ht⟩ := h
        simp only [List.cons_append, List.nil_append, List.cons.injEq] at ht
        exact hx' ht.1.symm
      · rcases List.infix_cons_iff.mp h with h | h
        · obtain ⟨t, ht⟩ := h
          simp only [List.cons_append, List.nil_append, List.cons.injEq] at ht
          exact hx' ht.1.symm
        · exact (ih false).2 h

/-- The normalized text holds no whitespace. -/
theorem normalize_no_space (s : List Char) : ∀ c ∈ normalize s, isSpace c = false := by
  intro c hc
  unfold normalize replaceRuns at hc
  have := collapse_mem _ _ _ hc
  rw [replaceRunsAux_erase, List.mem_filter] at this
  simpa using this.2

/-- The normalized text holds no two adjacent dashes. -/
theorem normalize_no_run (s : List Char) : ¬ ['-', '-'] <:+: normalize s :=
  (collapse_no_run _ false).2

/-- A payload that comes back from extraction is not empty and has no
whitespace, no two adjacent dashes and no dash at either end: it is the token
of a match in the normalized text, which stands between two dashes. -/
theorem extractToken_formatJwt_clean (tbl : Char → Char) (label p : List Char)
    (h : ExtractToken (FormatJwt tbl label p) = p) :
    p ≠ [] ∧ (∀ c ∈ p, isSpace c = false) ∧ ¬ ['-', '-'] <:+: p ∧ ¬ ['-'] <+: p ∧
      ¬ ['-'] <:+ p := by
  unfold ExtractToken at h
  cases hf : tokenRe.find (normalize (FormatJwt tbl label p)) with
  | none =>
    rw [hf] at h
    have hl := congrArg List.length h
    simp [FormatJwt] at hl
    omega
  | some m =>
    rw [hf] at h
    obtain ⟨pre, a, b, m', hN, hs, hm⟩ := find_sound _ _ _ hf
    obtain ⟨x, X, t, u, Y, rfl, hx, hX, ht, hu, hY, h3⟩ := sem_tokenRe_shape _ _ _ _ hs
    have hpt : t = p := by
      rw [← h3, ← h, hm]
      simp [setCap]
    subst hpt
    have hinf : t <:+: normalize (FormatJwt tbl label t) :=
      ⟨pre ++ (['-', 'B', 'E', 'G', 'I', 'N'] ++ (x ++ (X ++ ['-']))),
        (['-', 'E', 'N', 'D'] ++ (u ++ (Y ++ ['-']))) ++ b, by rw [hN]; simp⟩
    refine ⟨ht, ?_, ?_, ?_, ?_⟩
    · intro c hc
      exact normalize_no_space _ c (hinf.subset hc)
    · intro hr
      exact normalize_no_run _ (hr.trans hinf)
    · rintro ⟨q, rfl⟩
      exact normalize_no_run _
        ⟨pre ++ (['-', 'B', 'E', 'G', 'I', 'N'] ++ (x ++ X)),
          q ++ ((['-', 'E', 'N', 'D'] ++ (u ++ (Y ++ ['-']))) ++ b), by rw [hN]; simp⟩
    · rintro ⟨q, rfl⟩
      exact normalize_no_run _
        ⟨pre ++ (['-', 'B', 'E', 'G', 'I', 'N'] ++ (x ++ (X ++ ('-' :: q)))),
          (['E', 'N', 'D'] ++ (u ++ (Y ++ ['-']))) ++ b, by rw [hN]; simp⟩

/-- A payload that holds a marker kind followed by a dash does not come back
from extraction: the greedy opening `.+` runs on to the last marker kind and
dash that leave a token and a closing marker, so that the token starts inside
the payload. -/
theorem extractToken_formatJwt_kind (tbl : Char → Char) (label p : List Char)
    (hlabel : label ≠ []) (hl : ∀ c ∈ label, isAlnum c = true)
    (hp : p ≠ []) (hps : ∀ c ∈ p, isSpace c = false) (hrun : ¬ ['-', '-'] <:+: p)
    (hhead : ¬ ['-'] <+: p) (hlast : ¬ ['-'] <:+ p)
    (X' : List Char) (hX' : IsKind X') (hin : (X' ++ ['-']) <:+: p) :
    ExtractToken (FormatJwt tbl label p) ≠ p := by
  have hU : ToUpper tbl label ≠ [] := by
    simpa [ToUpper] using hlabel
  have hUc : ∀ c ∈ ToUpper tbl label, isSpace c = false ∧ c ≠ '-' := by
    intro c hc
    simp only [ToUpper, List.mem_map] at hc
    obtain ⟨d, hd, rfl⟩ := hc
    exact ⟨(upper_alnum_plain tbl d (hl d hd)).1, (upper_alnum_plain tbl d (hl d hd)).2.1⟩
  have hn := normalize_block_dashed (ToUpper tbl label) p hU (fun c hc => (hUc c hc).1)
    (fun c hc => by simpa [isDash] using (hUc c hc).2) hp hps hrun hhead hlast
  have hUp : Plain (ToUpper tbl label) := plain_of_clean _ hUc
  have hn' : normalize (FormatJwt tbl label p) = _ := hn
  generalize ToUpper tbl label = U at hU hUp hn'
  obtain ⟨d, c, hpd⟩ := hin
  have hc : c ≠ [] := by
    rintro rfl
    exact hlast ⟨d ++ X', by rw [← hpd]; simp⟩
  have hpa : ∀ x ∈ p, isAny x = true := fun x hx => isAny_of_not_space x (hps x hx)
  have hca : ∀ x ∈ c, isAny x = true := fun x hx => hpa x (by rw [← hpd]; simp [hx])
  have hda : ∀ x ∈ d, isAny x = true := fun x hx => hpa x (by rw [← hpd]; simp [hx])
  intro hEq
  unfold ExtractToken at hEq
  rw [hn'] at hEq
  cases hm : tokenRe.matchAt (['-', 'B', 'E', 'G', 'I', 'N'] ++ (U ++ (['J', 'W', 'T'] ++ ('-' ::
      (p ++ (['-', 'E', 'N', 'D'] ++ (U ++ (['J', 'W', 'T'] ++ ['-'])))))))) with
  | none =>
    have : (tokenRe.matchAt (['-', 'B', 'E', 'G', 'I', 'N'] ++ (U ++ (['J', 'W', 'T'] ++ ('-' ::
      (p ++ (['-', 'E', 'N', 'D'] ++ (U ++ (['J', 'W', 'T'] ++ ['-'])))))))) ).isSome := by
      unfold Regex.matchAt tokenRe openMarkerRe
      rw [run_seq, run_group, run_seq, run_lit_append, run_seq, run_plus]
      apply plusLoop_complete isAny _ U _ hU (plain_any hUp)
      show ((Regex.seq _ _).run _ (['J', 'W', 'T'] ++ ('-' :: _)) _).isSome
      rw [run_kind_dash 2 ['J', 'W', 'T'] _ (Or.inl rfl)]
      rw [run_token_close_any p U ['J', 'W', 'T'] [] hp hpa hU hUp (Or.inl rfl) (by simp)
        _ _ _ rfl]
      rfl
    rw [hm] at this
    cases this
  | some res =>
    rw [find_of_matchAt _ _ _ hm] at hEq
    unfold Regex.matchAt tokenRe openMarkerRe at hm
    rw [run_seq, run_group, run_seq, run_lit_append, run_seq, run_plus] at hm
    obtain ⟨a, b, hab, hne, hall, hk, hmax⟩ := plusLoop_max _ _ _ _ hm
    -- the opening run reaches at least the marker kind inside the payload
    have hge : ¬ a.length < (U ++ (['J', 'W', 'T'] ++ '-' :: d)).length := by
      intro hlen
      have hnone := hmax (U ++ (['J', 'W', 'T'] ++ '-' :: d))
        (X' ++ ('-' :: (c ++ (['-', 'E', 'N', 'D'] ++ (U ++ (['J', 'W', 'T'] ++ ['-']))))))
        (by rw [← hpd]; simp)
        (by
          intro x hx
          rcases List.mem_append.mp hx with hx | hx
          · exact plain_any hUp x hx
          · have hx' : x ∈ ['J', 'W', 'T', '-'] ∨ x ∈ d := by
              simpa [or_assoc] using hx
            rcases hx' with hx' | hx'
            · have h4 : ∀ y ∈ ['J', 'W', 'T', '-'], isAny y = true := by decide
              exact h4 x hx'
            · exact hda x hx')
        hlen
      simp only [] at hnone
      rw [run_kind_dash 2 X' _ hX',
        run_token_close_any c U ['J', 'W', 'T'] [] hc hca hU hUp (Or.inl rfl) (by simp)
          _ _ _ rfl] at hnone
      cases hnone
    -- the match that was found
    obtain ⟨a₂, b₂, m₂, rfl, hs₂, hk₂⟩ := run_sound _ _ _ _ _ hk
    obtain ⟨X₁, hX₁, rfl⟩ := sem_kind_dash _ _ _ _ _ hs₂
    obtain ⟨a₃, b₃, m₃, rfl, hs₃, hk₃⟩ := run_sound _ _ _ _ _ hk₂
    obtain ⟨t, u, Y, rfl, ht, hu, hY, h3⟩ := sem_token_close _ _ _ _ hs₃
    have hres : res 3 = t := by
      have := Option.some.inj hk₃
      rw [← this]
      simp [setCap, h3]
    have htp : t = p := by
      rw [← hres]
      exact hEq
    subst htp
    have hl := congrArg List.length hab
    simp only [List.length_append, List.length_cons, List.length_nil, isKind_length hX₁,
      isKind_length hY] at hl hge
    have hsuf : ((['-', 'E', 'N', 'D'] ++ (u ++ (Y ++ ['-']))) ++ b₃) <:+
        (['-', 'E', 'N', 'D'] ++ (U ++ (['J', 'W', 'T'] ++ ['-']))) := by
      have hs₁ : ((['-', 'E', 'N', 'D'] ++ (u ++ (Y ++ ['-']))) ++ b₃) <:+
          (U ++ (['J', 'W', 'T'] ++ '-' ::
            (t ++ (['-', 'E', 'N', 'D'] ++ (U ++ (['J', 'W', 'T'] ++ ['-'])))))) := by
        rw [hab]
        exact ⟨a ++ (X₁ ++ ['-'] ++ t), by simp⟩
      have hs₂ : (['-', 'E', 'N', 'D'] ++ (U ++ (['J', 'W', 'T'] ++ ['-']))) <:+
          (U ++ (['J', 'W', 'T'] ++ '-' ::
            (t ++ (['-', 'E', 'N', 'D'] ++ (U ++ (['J', 'W', 'T'] ++ ['-'])))))) :=
        ⟨U ++ (['J', 'W', 'T'] ++ '-' :: t), by simp⟩
      apply List.suffix_of_suffix_length_le hs₁ hs₂
      simp only [List.length_append, List.length_cons, List.length_nil, isKind_length hY]
      omega
    obtain ⟨e₁, he₁⟩ := hsuf
    have hcount := congrArg (List.count '-') he₁
    simp [List.count_append, List.count_cons, plain_count hUp, isKind_count hY] at hcount
    have hlen₁ := congrArg List.length he₁
    simp only [List.length_append, List.length_cons, List.length_nil, isKind_length hY]
      at hlen₁
    cases e₁ with
    | nil =>
      simp only [List.length_nil] at hlen₁
      omega
    | cons e e' =>
      simp only [List.cons_append, List.cons.injEq] at he₁
      rw [he₁.1] at hcount
      simp [List.count_cons] at hcount
      omega

/-! ## The properties -/

/-- C1 (counterexample): the payload `a b` contains neither `BEGIN` nor `END`,
yet extraction from its formatted token yields `ab`, not the payload: the
whitespace inside the payload is removed with the rest. -/
theorem extractToken_formatJwt_drops_space :
    ¬ "BEGIN".toList <:+: "a b".toList ∧ ¬ "END".toList <:+: "a b".toList ∧
      ExtractToken (FormatJwt id "operator".toList "a b".toList) = "ab".toList ∧
      ExtractToken (FormatJwt id "operator".toList "a b".toList) ≠ "a b".toList := by
  decide

/-- C1 (amended): for every payload `p`,
`ExtractToken(FormatJwt("operator", p)) == p` if and only if `p` is not empty
and contains no whitespace character, no two adjacent dashes, no dash at its
start or at its end, and neither `JWT-` nor `KEY-`; whether it contains
`BEGIN` or `END` plays no part. -/
theorem extractToken_formatJwt_operator (tbl : Char → Char) (p : List Char) :
    ExtractToken (FormatJwt tbl "operator".toList p) = p ↔
      (p ≠ [] ∧ (∀ c ∈ p, isSpace c = false) ∧ ¬ ['-', '-'] <:+: p ∧ ¬ ['-'] <+: p ∧
        ¬ ['-'] <:+ p ∧ ¬ "JWT-".toList <:+: p ∧ ¬ "KEY-".toList <:+: p) := by
  have ej : "JWT-".toList = ['J', 'W', 'T'] ++ ['-'] := by decide
  have ek : "KEY-".toList = ['K', 'E', 'Y'] ++ ['-'] := by decide
  constructor
  · intro h
    obtain ⟨h1, h2, h3, h4, h5⟩ := extractToken_formatJwt_clean tbl _ p h
    refine ⟨h1, h2, h3, h4, h5, ?_, ?_⟩
    · intro hin
      rw [ej] at hin
      exact extractToken_formatJwt_kind tbl _ p (by decide) (by decide) h1 h2 h3 h4 h5 _
        (Or.inl rfl) hin h
    · intro hin
      rw [ek] at hin
      exact extractToken_formatJwt_kind tbl _ p (by decide) (by decide) h1 h2 h3 h4 h5 _
        (Or.inr rfl) hin h
  · rintro ⟨h1, h2, h3, h4, h5, h6, h7⟩
    refine extractToken_formatJwt_dashed tbl _ p (by decide) (by decide) h1 h2 h3 h4 h5 ?_
    intro X hX
    rcases hX with rfl | rfl
    · rw [← ej]; exact h6
    · rw [← ek]; exact h7

/-- C1 (witness): a payload with dots, an underscore and single dashes inside,
as in a base64url text, which contains `END`. -/
theorem extractToken_formatJwt_operator_witness :
    ExtractToken (FormatJwt id "operator".toList "eyJ0eXAi.ab-c_DEND-9".toList) =
      "eyJ0eXAi.ab-c_DEND-9".toList :=
  (extractToken_formatJwt_operator id "eyJ0eXAi.ab-c_DEND-9".toList).mpr
    ⟨by decide, by decide, by decide, by decide, by decide, by decide, by decide⟩

/-- C2: for every non-empty label of ASCII letters and digits, every non-empty
payload `p` without whitespace and dashes, and every text `s` whose normalized
form (whitespace removed, dash runs collapsed) equals that of
`FormatJwt(label, p)`, `ExtractToken(s) == p`. -/
theorem extractToken_tolerant (tbl : Char → Char) (label p s : List Char)
    (hlabel : label ≠ []) (hl : ∀ c ∈ label, isAlnum c = true)
    (hp : p ≠ []) (hpc : ∀ c ∈ p, isSpace c = false ∧ c ≠ '-')
    (hs : normalize s = normalize (FormatJwt tbl label p)) :
    ExtractToken s = p :=
  extractToken_of_normalized tbl label p s hlabel hl hp hpc hs

/-- C2 (witness): a handwritten block with shorter and longer dash runs, extra
spaces and a payload broken over two lines. -/
theorem extractToken_tolerant_witness :
    ExtractToken "--BEGIN  ACCOUNT JWT --\n  ab\ncd.ef \n\n---- END ACCOUNT JWT-\n".toList =
      "abcd.ef".toList :=
  extractToken_tolerant id "account".toList "abcd.ef".toList _ (by decide) (by decide)
    (by decide) (by decide) (by decide)

/-- C3: for every text `s` whose normalized form (all whitespace removed, every
dash run collapsed to one dash) contains no match of the marker pattern,
`ExtractToken(s)` is `s` itself, unchanged; in particular for every `s` that
does not contain `BEGIN` once its whitespace is removed. -/
theorem extractToken_pass_through (s : List Char)
    (h : (¬ ∃ pre a b m', normalize s = pre ++ (a ++ b) ∧
        tokenRe.Sem a b (fun _ => []) m') ∨
      ¬ "BEGIN".toList <:+: replaceRuns isSpace [] s) :
    ExtractToken s = s := by
  have hno : ¬ ∃ pre a b m', normalize s = pre ++ (a ++ b) ∧
      tokenRe.Sem a b (fun _ => []) m' := by
    rcases h with h | h
    · exact h
    · exact no_marker_of_no_begin s h
  have hfind : tokenRe.find (normalize s) = none := (find_eq_none_iff _ _).mpr hno
  unfold ExtractToken
  rw [hfind]

/-- C3 (witness): a text without `BEGIN` keeps its spaces, its line feed and its
double dash. -/
theorem extractToken_pass_through_witness :
    ExtractToken "  plain -- text,\n kept  as it is ".toList =
      "  plain -- text,\n kept  as it is ".toList :=
  extractToken_pass_through _ (Or.inr (by decide))

/-- C4: for every integer `n` with `0 <= n <= 2^63-1`, both `ParseNumber` and
`ParseDataSize` return `n` without error on the decimal string form of `n`. -/
theorem parse_decimal_string (tbl : Char → Char) (n : Nat) (hn : n ≤ 2 ^ 63 - 1) :
    ParseNumber tbl (Nat.toDigits 10 n) = .ok (n : Int) ∧
      ParseDataSize tbl (Nat.toDigits 10 n) = .ok (n : Int) := by
  obtain ⟨hne, hall, hval⟩ := toDigits_spec n
  have hp := ParseInt_digits_ok _ hne hall (by rw [hval]; exact hn)
  rw [hval] at hp
  exact ⟨(parseNumber_digits tbl _ hne hall).trans hp,
    (parseDataSize_digits tbl _ hne hall).trans hp⟩

/-- C4 (witness): the number 1048576. -/
theorem parse_decimal_string_witness :
    ParseNumber id (Nat.toDigits 10 1048576) = .ok 1048576 ∧
      ParseDataSize id (Nat.toDigits 10 1048576) = .ok 1048576 :=
  parse_decimal_string id 1048576 (by decide)

/-- C5: for every non-empty run `d` of decimal digits with value `v` and every
suffix letter `c` among `K`, `M`, `G` in either case, with multiplier 1,000,
1,000,000, 1,000,000,000 and `v * multiplier <= 2^63-1`, `ParseNumber(d ++ c)`
succeeds and returns `v * multiplier`. -/
theorem parseNumber_suffix (tbl : Char → Char) (d : List Char) (c : Char) (hd : d ≠ [])
    (hdd : ∀ x ∈ d, isDigit x = true) (hc : c ∈ ['K', 'M', 'G', 'k', 'm', 'g'])
    (hb : digitsVal d * suffixMultiplier c ≤ 2 ^ 63 - 1) :
    ParseNumber tbl (d ++ [c]) = .ok ((digitsVal d * suffixMultiplier c : Nat) : Int) := by
  simp only [List.mem_cons, List.mem_singleton, List.not_mem_nil, or_false] at hc
  rcases hc with rfl | rfl | rfl | rfl | rfl | rfl
  · exact parseNumber_suffix_core tbl d 'K' 'K' 1000 hd hdd
      ((toUpperRune_ascii tbl _ (by decide)).trans (by decide)) (Or.inl ⟨rfl, rfl⟩) hb
  · exact parseNumber_suffix_core tbl d 'M' 'M' 1000000 hd hdd
      ((toUpperRune_ascii tbl _ (by decide)).trans (by decide)) (Or.inr (Or.inl ⟨rfl, rfl⟩)) hb
  · exact parseNumber_suffix_core tbl d 'G' 'G' 1000000000 hd hdd
      ((toUpperRune_ascii tbl _ (by decide)).trans (by decide)) (Or.inr (Or.inr ⟨rfl, rfl⟩)) hb
  · exact parseNumber_suffix_core tbl d 'k' 'K' 1000 hd hdd
      ((toUpperRune_ascii tbl _ (by decide)).trans (by decide)) (Or.inl ⟨rfl, rfl⟩) hb
  · exact parseNumber_suffix_core tbl d 'm' 'M' 1000000 hd hdd
      ((toUpperRune_ascii tbl _ (by decide)).trans (by decide)) (Or.inr (Or.inl ⟨rfl, rfl⟩)) hb
  · exact parseNumber_suffix_core tbl d 'g' 'G' 1000000000 hd hdd
      ((toUpperRune_ascii tbl _ (by decide)).trans (by decide)) (Or.inr (Or.inr ⟨rfl, rfl⟩)) hb

/-- C5 (witness): the examples `5K`, `2M`, `1G` and `5k`. -/
theorem parseNumber_suffix_witness :
    ParseNumber id "5K".toList = .ok 5000 ∧ ParseNumber id "2M".toList = .ok 2000000 ∧
      ParseNumber id "1G".toList = .ok 1000000000 ∧ ParseNumber id "5k".toList = .ok 5000 :=
  ⟨parseNumber_suffix id ['5'] 'K' (by decide) (by decide) (by decide) (by decide),
    parseNumber_suffix id ['2'] 'M' (by decide) (by decide) (by decide) (by decide),
    parseNumber_suffix id ['1'] 'G' (by decide) (by decide) (by decide) (by decide),
    parseNumber_suffix id ['5'] 'k' (by decide) (by decide) (by decide) (by decide)⟩

/-- C6: for every non-empty run `d` of decimal digits with value `v`
(`v * 1,000,000 <= 2^63-1`), `ParseDataSize` returns `v` for `d ++ "B"`,
`1000*v` for `d ++ "K"` and `1000000*v` for `d ++ "M"`, while
`ParseDataSize(d ++ "G")` fails with an error; `ParseNumber` does accept the
suffix `G`. -/
theorem parseDataSize_suffix (tbl : Char → Char) (d : List Char) (hd : d ≠ [])
    (hdd : ∀ x ∈ d, isDigit x = true) (hb : digitsVal d * 1000000 ≤ 2 ^ 63 - 1) :
    ParseDataSize tbl (d ++ ['B']) = .ok (digitsVal d : Int) ∧
      ParseDataSize tbl (d ++ ['K']) = .ok ((1000 * digitsVal d : Nat) : Int) ∧
      ParseDataSize tbl (d ++ ['M']) = .ok ((1000000 * digitsVal d : Nat) : Int) ∧
      ParseDataSize tbl (d ++ ['G']) = .error (.couldntParseDataSize (d ++ ['G'])) ∧
      (digitsVal d * 1000000000 ≤ 2 ^ 63 - 1 →
        ParseNumber tbl (d ++ ['G']) = .ok ((1000000000 * digitsVal d : Nat) : Int)) := by
  have hup : ∀ C : Char, C.toNat < 128 → toUpperRune id C = C →
      ToUpper tbl (d ++ [C]) = d ++ [C] := by
    intro C h1 h2
    rw [ToUpper_digits_suffix tbl d C hdd, toUpperRune_ascii tbl C h1, h2]
  have hv : digitsVal d ≤ 2 ^ 63 - 1 := by omega
  have hp := ParseInt_digits_ok d hd hdd hv
  refine ⟨?_, ?_, ?_, ?_, ?_⟩
  · rw [parseDataSize_upper_suffix tbl _ d 'B' (by simp) (hup 'B' (by decide) (by decide))
      hd hdd (by decide) (by decide), hp]
    simp
  · rw [parseDataSize_upper_suffix tbl _ d 'K' (by simp) (hup 'K' (by decide) (by decide))
      hd hdd (by decide) (by decide), hp]
    have hw := wrap64_natCast_mul (digitsVal d) 1000 (by omega)
    simpa [Nat.mul_comm] using hw
  · rw [parseDataSize_upper_suffix tbl _ d 'M' (by simp) (hup 'M' (by decide) (by decide))
      hd hdd (by decide) (by decide), hp]
    have hw := wrap64_natCast_mul (digitsVal d) 1000000 hb
    simpa [Nat.mul_comm] using hw
  · have hnone : dataSizeSuffixRe.find (d ++ ['G']) = none := by
      apply digitsThen_find_none isBKM
      intro c hc
      rcases List.mem_append.mp hc with hc | hc
      · exact (isDigit_not_letter c (hdd c hc)).2.1
      · rw [List.mem_singleton.mp hc]; decide
    simp [ParseDataSize, hup 'G' (by decide) (by decide),
      trailingDigits_find_none d 'G' (by decide), hnone]
  · intro hb'
    have := parseNumber_suffix_core tbl d 'G' 'G' 1000000000 hd hdd
      ((toUpperRune_ascii tbl _ (by decide)).trans (by decide)) (Or.inr (Or.inr ⟨rfl, rfl⟩)) hb'
    rw [this, Nat.mul_comm]

/-- C6 (witness): the digit run `10`. -/
theorem parseDataSize_suffix_witness :
    ParseDataSize id "10B".toList = .ok 10 ∧
      ParseDataSize id "10K".toList = .ok 10000 ∧
      ParseDataSize id "10M".toList = .ok 10000000 ∧
      ParseDataSize id "10G".toList = .error (.couldntParseDataSize "10G".toList) ∧
      (digitsVal "10".toList * 1000000000 ≤ 2 ^ 63 - 1 →
        ParseNumber id "10G".toList = .ok 10000000000) :=
  parseDataSize_suffix id "10".toList (by decide) (by decide) (by decide)

/-- C7 (counterexample): `abc123` is not empty, not made entirely of digits and
not a digit run followed by one suffix letter, yet `ParseNumber` accepts it
and returns 123; the patterns are searched for anywhere in the text. -/
theorem parseNumber_accepts_leading_text :
    "abc123".toList ≠ [] ∧ ¬ (∀ c ∈ "abc123".toList, isDigit c = true) ∧
      ¬ (∃ d c, "abc123".toList = d ++ [c] ∧ (∀ x ∈ d, isDigit x = true) ∧
        c ∈ ['K', 'M', 'G', 'k', 'm', 'g']) ∧
      ParseNumber id "abc123".toList = .ok 123 := by
  refine ⟨by decide, by decide, ?_, by decide⟩
  rintro ⟨d, c, h, _, hc⟩
  have h' : ['a', 'b', 'c', '1', '2'] ++ ['3'] = d ++ [c] := h
  have := last_of_append_eq _ _ _ _ h'
  rw [← this] at hc
  revert hc
  decide

/-- C7 (amended): for every non-empty string whose upper-case form does not
end in a decimal digit and in which no decimal digit is immediately followed
by `K`, `M` or `G`, `ParseNumber` fails with an error. -/
theorem parseNumber_rejects (tbl : Char → Char) (s : List Char) (hs : s ≠ [])
    (hlast : ∀ pre c, ToUpper tbl s = pre ++ [c] → isDigit c = false)
    (hsuf : ∀ pre x c post, ToUpper tbl s = pre ++ x :: c :: post → isDigit x = true →
      c ≠ 'K' ∧ c ≠ 'M' ∧ c ≠ 'G') :
    ∃ e, ParseNumber tbl s = .error e := by
  have hUne : ToUpper tbl s ≠ [] := by simpa [ToUpper] using hs
  obtain ⟨pre, c, hpc⟩ := exists_last _ hUne
  have htrail : trailingDigitsRe.find (ToUpper tbl s) = none := by
    rw [hpc]; exact trailingDigits_find_none pre c (hlast pre c hpc)
  cases hf : numberSuffixRe.find (ToUpper tbl s) with
  | none => exact ⟨.couldntParseNumber (ToUpper tbl s), by simp [ParseNumber, hs, htrail, hf]⟩
  | some m =>
    obtain ⟨pre', d, c', post, hxs, hd, hdd, _, _, h1, h2⟩ :=
      digitsThen_find_sound isKMG _ m hf
    obtain ⟨d', x, rfl⟩ := exists_last d hd
    have hx : isDigit x = true := hdd x (by simp)
    have hc' := hsuf (pre' ++ d') x c' post (by simp [hxs]) hx
    cases hP : ParseInt (d' ++ [x]) with
    | error e => exact ⟨e, by simp [ParseNumber, hs, htrail, hf, h1, hP]⟩
    | ok v =>
      exact ⟨.couldntParseNumber (ToUpper tbl s),
        by simp [ParseNumber, hs, htrail, hf, h1, h2, hP, hc'.1, hc'.2.1, hc'.2.2]⟩

/-- C7 (witness): the text `12x`. -/
theorem parseNumber_rejects_witness :
    ∃ e, ParseNumber id "12x".toList = .error e :=
  parseNumber_rejects id "12x".toList (by decide)
    (by
      intro pre c h
      have h' : ['1', '2'] ++ ['X'] = pre ++ [c] := h
      rw [← last_of_append_eq _ _ _ _ h']
      decide)
    (by
      intro pre x c post h _
      have h' : ['1', '2', 'X'] = pre ++ x :: c :: post := h
      have hlen := congrArg List.length h'
      simp at hlen
      match pre, h' with
      | [], h' =>
        simp only [List.nil_append, List.cons.injEq] at h'
        rw [← h'.2.1]; decide
      | [p], h' =>
        simp only [List.cons_append, List.nil_append, List.cons.injEq] at h'
        rw [← h'.2.2.1]; decide
      | _ :: _ :: _, h' =>
        simp at hlen
        omega)

/-- C8 (counterexample): `ParseNumber("9223372036854775807K")` succeeds with
the negative count -1000: the multiplication by 1000 wraps around. -/
theorem parseNumber_negative_result :
    ParseNumber id "9223372036854775807K".toList = .ok (-1000) ∧ ((-1000 : Int) < 0) := by
  decide

/-- C8 (amended): for every string on which `ParseNumber` succeeds, the result
is the 64-bit wrap-around of `v * k`, where `v <= 2^63-1` is the value of a
digit run of the upper-case input and `k` is 1, 1,000, 1,000,000 or
1,000,000,000; it is non-negative whenever `v * k <= 2^63-1`. -/
theorem parseNumber_result (tbl : Char → Char) (s : List Char) (r : Int)
    (h : ParseNumber tbl s = .ok r) :
    ∃ d k, d <:+: ToUpper tbl s ∧ (∀ c ∈ d, isDigit c = true) ∧
      digitsVal d ≤ 2 ^ 63 - 1 ∧ (k = 1 ∨ k = 1000 ∨ k = 1000000 ∨ k = 1000000000) ∧
      r = wrap64 ((digitsVal d : Int) * (k : Nat)) ∧
      (digitsVal d * k ≤ 2 ^ 63 - 1 → 0 ≤ r) := by
  have key : ∀ (d : List Char) (k : Nat), d <:+: ToUpper tbl s →
      (∀ c ∈ d, isDigit c = true) → digitsVal d ≤ 2 ^ 63 - 1 →
      (k = 1 ∨ k = 1000 ∨ k = 1000000 ∨ k = 1000000000) →
      r = wrap64 ((digitsVal d : Int) * (k : Nat)) →
      ∃ d k, d <:+: ToUpper tbl s ∧ (∀ c ∈ d, isDigit c = true) ∧
        digitsVal d ≤ 2 ^ 63 - 1 ∧ (k = 1 ∨ k = 1000 ∨ k = 1000000 ∨ k = 1000000000) ∧
        r = wrap64 ((digitsVal d : Int) * (k : Nat)) ∧
        (digitsVal d * k ≤ 2 ^ 63 - 1 → 0 ≤ r) := by
    intro d k h1 h2 h3 h4 h5
    refine ⟨d, k, h1, h2, h3, h4, h5, fun hb => ?_⟩
    rw [h5, wrap64_natCast_mul _ _ hb]
    exact Int.natCast_nonneg _
  by_cases hs : s = []
  · subst hs
    have hr : r = 0 := by simpa [ParseNumber] using h.symm
    exact key [] 1 List.nil_infix (by simp) (by simp [digitsVal]) (Or.inl rfl)
      (by rw [hr]; decide)
  · cases ht : trailingDigitsRe.find (ToUpper tbl s) with
    | some m =>
      obtain ⟨pre, a, b, m', hxs, hsem, rfl⟩ := find_sound _ _ _ ht
      obtain ⟨ha, hall, rfl⟩ := sem_trailingDigits _ _ _ _ hsem
      simp only [ParseNumber, if_neg hs, ht, setCap, if_true] at h
      cases hP : ParseInt a with
      | error e => rw [hP] at h; cases h
      | ok v =>
        rw [hP] at h
        obtain ⟨hv, hb⟩ := ParseInt_digits_inv a v ha hall hP
        have hr : r = v := (Except.ok.inj h).symm
        refine key a 1 ⟨pre, [], by simp [hxs]⟩ hall hb (Or.inl rfl) ?_
        rw [hr, hv]
        simpa using (wrap64_natCast_mul (digitsVal a) 1 (by simpa using hb)).symm
    | none =>
      cases hf : numberSuffixRe.find (ToUpper tbl s) with
      | none => simp [ParseNumber, hs, ht, hf] at h
      | some m =>
        obtain ⟨pre, d, c, post, hxs, hd, hdd, _, _, h1, h2⟩ :=
          digitsThen_find_sound isKMG _ m hf
        simp only [ParseNumber, if_neg hs, ht, hf, h1, h2] at h
        cases hP : ParseInt d with
        | error e => rw [hP] at h; cases h
        | ok v =>
          rw [hP] at h
          obtain ⟨hv, hb⟩ := ParseInt_digits_inv d v hd hdd hP
          have hin : d <:+: ToUpper tbl s := ⟨pre, c :: post, by simp [hxs]⟩
          simp only [List.cons.injEq, and_true] at h
          split_ifs at h
          · exact key d 1000 hin hdd hb (Or.inr (Or.inl rfl))
              (by rw [← Except.ok.inj h, hv]; rfl)
          · exact key d 1000000 hin hdd hb (Or.inr (Or.inr (Or.inl rfl)))
              (by rw [← Except.ok.inj h, hv]; rfl)
          · exact key d 1000000000 hin hdd hb (Or.inr (Or.inr (Or.inr rfl)))
              (by rw [← Except.ok.inj h, hv]; rfl)

/-- C8 (witness): the text `x5Kyz`, parsed as 5000. -/
theorem parseNumber_result_witness :
    ∃ d k, d <:+: ToUpper id "x5Kyz".toList ∧ (∀ c ∈ d, isDigit c = true) ∧
      digitsVal d ≤ 2 ^ 63 - 1 ∧ (k = 1 ∨ k = 1000 ∨ k = 1000000 ∨ k = 1000000000) ∧
      (5000 : Int) = wrap64 ((digitsVal d : Int) * (k : Nat)) ∧
      (digitsVal d * k ≤ 2 ^ 63 - 1 → 0 ≤ (5000 : Int)) :=
  parseNumber_result id "x5Kyz".toList 5000 (by decide)

/-- C9: for every text that is exactly a valid calendar date `YYYY-MM-DD`,
`ParseExpiry` succeeds, whatever the current time, with the Unix timestamp of
midnight UTC of that day (`2025-01-15` gives 1736899200); every text that
contains a date-shaped part (4 digits, dash, 2 digits, dash, 2 digits) but is
not exactly a valid calendar date fails with an error. -/
theorem parseExpiry_absolute_date (now : Time) :
    (∀ y m d, ValidDate y m d →
      ParseExpiry now (dateText y m d) = .ok (unixMidnight y m d)) ∧
    ParseExpiry now "2025-01-15".toList = .ok 1736899200 ∧
    (∀ s, (∃ pre a post, s = pre ++ (a ++ post) ∧ DateShaped a) →
      (¬ ∃ y m d, ValidDate y m d ∧ s = dateText y m d) →
      ∃ e, ParseExpiry now s = .error e) := by
  have h1 : ∀ y m d, ValidDate y m d →
      ParseExpiry now (dateText y m d) = .ok (unixMidnight y m d) := by
    intro y m d hv
    rw [parseExpiry_dateShaped now _ ⟨[], dateText y m d, [], by simp, dateShaped_dateText y m d⟩,
      parseDateFields_dateText y m d hv]
    simp only [Date_midnight y m d hv, Time.Unix]
  refine ⟨h1, ?_, ?_⟩
  · have h := h1 2025 1 15 (by decide)
    have hd := Date_midnight 2025 1 15 (by decide)
    have hv : (Date ((2025 : Nat) : Int) ((1 : Nat) : Int) ((15 : Nat) : Int) 0 0 0 0 UTC).sec
        = 1736899200 := by decide
    have hu : unixMidnight 2025 1 15 = 1736899200 := by
      rw [hd] at hv
      exact hv
    rw [hu] at h
    exact h
  · intro s hs hnot
    rw [parseExpiry_dateShaped now s hs]
    cases hp : parseDateFields s with
    | none => exact ⟨_, rfl⟩
    | some r =>
      obtain ⟨y, m, d⟩ := r
      obtain ⟨rfl, hv⟩ := parseDateFields_some s y m d hp
      exact absurd ⟨y, m, d, hv, rfl⟩ hnot

/-- C9 (witness): the leap day 2024-02-29 is accepted; 30 February and a date
with text before it are rejected. -/
theorem parseExpiry_absolute_date_witness :
    ParseExpiry ⟨0, 0, UTC⟩ (dateText 2024 2 29) = .ok (unixMidnight 2024 2 29) ∧
      (∃ e, ParseExpiry ⟨0, 0, UTC⟩ "2025-02-30".toList = .error e) ∧
      (∃ e, ParseExpiry ⟨0, 0, UTC⟩ "due 2025-01-15".toList = .error e) :=
  ⟨(parseExpiry_absolute_date ⟨0, 0, UTC⟩).1 2024 2 29 (by decide),
    (parseExpiry_absolute_date ⟨0, 0, UTC⟩).2.2 "2025-02-30".toList
      ⟨[], "2025-02-30".toList, [], rfl, _, _, _, _, _, _, _, _, rfl, by decide⟩
      (not_valid_of_parse_none _ (by decide)),
    (parseExpiry_absolute_date ⟨0, 0, UTC⟩).2.2 "due 2025-01-15".toList
      ⟨"due ".toList, "2025-01-15".toList, [], rfl, _, _, _, _, _, _, _, _, rfl, by decide⟩
      (not_valid_of_parse_none _ (by decide))⟩

/-- C10: for every current time, `ParseExpiry("")` and `ParseExpiry("0")` are 0
without error, and so is `ParseExpiry(digits ++ u)` for every unit letter `u`
among `m`, `h`, `d`, `w`, `M`, `y` and every digit run of value zero. -/
theorem parseExpiry_no_expiration (now : Time) :
    ParseExpiry now [] = .ok 0 ∧ ParseExpiry now ['0'] = .ok 0 ∧
      ∀ (d : List Char) (u : Char), d ≠ [] → (∀ c ∈ d, isDigit c = true) →
        digitsVal d = 0 → u ∈ ['m', 'h', 'd', 'w', 'M', 'y'] →
        ParseExpiry now (d ++ [u]) = .ok 0 := by
  refine ⟨by simp [ParseExpiry], by simp [ParseExpiry], ?_⟩
  intro d u hd hdd hv hu
  have hu' : isUnit u = true ∧ isDigit u = false ∧ u ≠ '-' := by
    simp only [List.mem_cons, List.mem_singleton, List.not_mem_nil, or_false] at hu
    rcases hu with rfl | rfl | rfl | rfl | rfl | rfl <;> decide
  have hne : ¬ (d ++ [u] = [] ∨ d ++ [u] = ['0']) := by
    rintro (h | h)
    · simp at h
    · have hl := congrArg List.length h
      simp only [List.length_append, List.length_cons, List.length_nil] at hl
      have := List.length_pos.mpr hd
      omega
  have hdate : dateRe.matchString (d ++ [u]) = false := by
    apply dateRe_matchString_no_dash
    intro hm
    rcases List.mem_append.mp hm with hm | hm
    · exact (isDigit_ne_dash _ (hdd _ hm)).1 rfl
    · exact hu'.2.2 (List.mem_singleton.mp hm).symm
  obtain ⟨m, hm, _, h1, _⟩ := digitsThen_find isUnit d u [] hd hdd hu'.1 hu'.2.1
  have hm' : intervalRe.find (d ++ [u]) = some m := hm
  have hp := ParseInt_digits_ok d hd hdd (by rw [hv]; decide)
  simp [ParseExpiry, hne, hdate, hm', h1, hp, hv]

/-- C10 (witness): the text `000w`. -/
theorem parseExpiry_no_expiration_witness :
    ParseExpiry ⟨1736899200, 0, UTC⟩ "000w".toList = .ok 0 :=
  (parseExpiry_no_expiration ⟨1736899200, 0, UTC⟩).2.2 "000".toList 'w' (by decide) (by decide)
    (by decide) (by decide)

/-- C11 (counterexample): at 2025-03-08 17:00:00 UTC in the location
`America/New_York`, noon of the day before daylight saving time starts,
`ParseExpiry("1d")` is `now + 82800`, noon of the next day in New York and 23
hours later, not `now + 86400`. -/
theorem parseExpiry_day_across_dst :
    Time.WellFormed ⟨1741453200, 0, newYork2025⟩ ∧
      Nat.toDigits 10 1 ++ ['d'] = "1d".toList ∧
      ParseExpiry ⟨1741453200, 0, newYork2025⟩ "1d".toList = .ok (1741453200 + 82800) ∧
      ParseExpiry ⟨1741453200, 0, newYork2025⟩ "1d".toList ≠ .ok (1741453200 + 86400 * 1) := by
  refine ⟨⟨by decide, by decide, by decide, by decide, fun u => ?_⟩, by decide, by decide,
    by decide⟩
  unfold newYork2025
  by_cases h : u < 1741503600
  · simp only [if_pos h]; decide
  · simp only [if_neg h]; decide

/-- C11 (amended): for every well-formed current time `now`, an instant in its
local location, and every count `1 ≤ n ≤ 100000` written in decimal,
`ParseExpiry(n ++ "m")` is `now + 60 n` and `ParseExpiry(n ++ "h")` is
`now + 3600 n`, whatever the location; `ParseExpiry(n ++ "d")` and
`ParseExpiry(n ++ "w")` move the wall-clock reading of the location,
`now + zoneOffset`, by `n` and `7 n` days of 86400 seconds and give that
reading less the zone offset that holds for it, which is `now + 86400 n` and
`now + 7 * 86400 n` exactly when that offset is the offset at `now`; the week
count `n` gives the result of the day count `7 n`. In a location with one
offset at all times, such as UTC, `ParseExpiry("2w")` is `now` plus 14 days,
and the day and week results are `now + 86400 n` and `now + 7 * 86400 n`. -/
theorem parseExpiry_fixed_units (now : Time) (hwf : now.WellFormed) :
    (∀ n : Nat, 1 ≤ n → n ≤ 100000 →
        ParseExpiry now (Nat.toDigits 10 n ++ ['m']) = .ok (now.Unix + 60 * n) ∧
        ParseExpiry now (Nat.toDigits 10 n ++ ['h']) = .ok (now.Unix + 3600 * n) ∧
        ParseExpiry now (Nat.toDigits 10 n ++ ['d']) =
          .ok (now.Unix + now.zoneOffset + 86400 * n
            - now.loc.offsetFor (now.Unix + now.zoneOffset + 86400 * n)) ∧
        ParseExpiry now (Nat.toDigits 10 n ++ ['w']) =
          .ok (now.Unix + now.zoneOffset + 7 * 86400 * n
            - now.loc.offsetFor (now.Unix + now.zoneOffset + 7 * 86400 * n)) ∧
        (ParseExpiry now (Nat.toDigits 10 n ++ ['d']) = .ok (now.Unix + 86400 * n) ↔
          now.loc.offsetFor (now.Unix + now.zoneOffset + 86400 * n) = now.zoneOffset) ∧
        (ParseExpiry now (Nat.toDigits 10 n ++ ['w']) = .ok (now.Unix + 7 * 86400 * n) ↔
          now.loc.offsetFor (now.Unix + now.zoneOffset + 7 * 86400 * n) = now.zoneOffset) ∧
        ParseExpiry now (Nat.toDigits 10 n ++ ['w'])
          = ParseExpiry now (Nat.toDigits 10 (7 * n) ++ ['d'])) ∧
      (∀ o : Int, now.loc.Fixed o →
        ParseExpiry now "2w".toList = .ok (now.Unix + 14 * 86400) ∧
        ∀ n : Nat, 1 ≤ n → n ≤ 100000 →
          ParseExpiry now (Nat.toDigits 10 n ++ ['d']) = .ok (now.Unix + 86400 * n) ∧
          ParseExpiry now (Nat.toDigits 10 n ++ ['w']) = .ok (now.Unix + 7 * 86400 * n)) := by
  have hrun : ∀ (k : Nat) (u : Char), 1 ≤ k → k ≤ 700000 → isUnit u = true →
      ParseExpiry now (Nat.toDigits 10 k ++ [u]) =
        if u = 'm' then .ok (now.Add (wrap64 ((k : Int) * Minute))).Unix
        else if u = 'h' then .ok (now.Add (wrap64 ((k : Int) * Hour))).Unix
        else if u = 'd' then .ok (now.AddDate 0 0 (k : Int)).Unix
        else if u = 'w' then .ok (now.AddDate 0 0 (wrap64 (7 * (k : Int)))).Unix
        else if u = 'M' then .ok (now.AddDate 0 (k : Int) 0).Unix
        else .ok (now.AddDate (k : Int) 0 0).Unix := by
    intro k u hk1 hk2 hu
    obtain ⟨hne, hdd, hval⟩ := toDigits_spec k
    have := parseExpiry_digits_unit now (Nat.toDigits 10 k) u hne hdd hu (by omega)
      (by rw [hval]; norm_num; omega)
    rw [hval] at this
    exact this
  have hmin : ∀ k : Nat, 1 ≤ k → k ≤ 700000 →
      ParseExpiry now (Nat.toDigits 10 k ++ ['m']) = .ok (now.Unix + 60 * k) := by
    intro k hk1 hk2
    have e : wrap64 ((k : Int) * Minute) = (60 * (k : Int)) * 1000000000 := by
      rw [wrap64_id _ (by simp only [Minute]; norm_num; omega)
        (by simp only [Minute]; norm_num; omega)]
      simp only [Minute]; ring
    rw [hrun k 'm' hk1 hk2 (by decide), if_pos rfl, e, add_seconds now hwf]
    rfl
  have hhour : ∀ k : Nat, 1 ≤ k → k ≤ 700000 →
      ParseExpiry now (Nat.toDigits 10 k ++ ['h']) = .ok (now.Unix + 3600 * k) := by
    intro k hk1 hk2
    have e : wrap64 ((k : Int) * Hour) = (3600 * (k : Int)) * 1000000000 := by
      rw [wrap64_id _ (by simp only [Hour]; norm_num; omega)
        (by simp only [Hour]; norm_num; omega)]
      simp only [Hour]; ring
    rw [hrun k 'h' hk1 hk2 (by decide), if_neg (by decide), if_pos rfl, e,
      add_seconds now hwf]
    rfl
  have hday : ∀ k : Nat, 1 ≤ k → k ≤ 700000 →
      ParseExpiry now (Nat.toDigits 10 k ++ ['d']) =
        .ok (now.Unix + now.zoneOffset + 86400 * k
          - now.loc.offsetFor (now.Unix + now.zoneOffset + 86400 * k)) := by
    intro k hk1 hk2
    rw [hrun k 'd' hk1 hk2 (by decide), if_neg (by decide), if_neg (by decide), if_pos rfl,
      addDate_days now hwf k (by norm_num; omega) (by norm_num; omega)]
    rfl
  have hweek : ∀ k : Nat, 1 ≤ k → k ≤ 100000 →
      ParseExpiry now (Nat.toDigits 10 k ++ ['w']) =
        .ok (now.Unix + now.zoneOffset + 7 * 86400 * k
          - now.loc.offsetFor (now.Unix + now.zoneOffset + 7 * 86400 * k)) := by
    intro k hk1 hk2
    have e : wrap64 (7 * (k : Int)) = 7 * (k : Int) :=
      wrap64_id _ (by norm_num; omega) (by norm_num; omega)
    rw [hrun k 'w' hk1 (by omega) (by decide), if_neg (by decide), if_neg (by decide),
      if_neg (by decide), if_pos rfl, e,
      addDate_days now hwf _ (by norm_num; omega) (by norm_num; omega)]
    rw [show (86400 : Int) * (7 * (k : Int)) = 7 * 86400 * k by ring]
    rfl
  have hiff : ∀ a b c : Int, (Except.ok (a + b - c) : Except Error Int) = .ok a ↔ c = b := by
    intro a b c
    constructor
    · intro h
      have := Except.ok.inj h
      omega
    · intro h
      rw [h]
      congr 1
      omega
  refine ⟨?_, ?_⟩
  · intro n h1 h2
    refine ⟨hmin n h1 (by omega), hhour n h1 (by omega), hday n h1 (by omega), hweek n h1 h2,
      ?_, ?_, ?_⟩
    · rw [hday n h1 (by omega)]
      rw [show now.Unix + now.zoneOffset + 86400 * (n : Int)
        = now.Unix + 86400 * (n : Int) + now.zoneOffset by ring]
      rw [show now.Unix + 86400 * (n : Int) + now.zoneOffset
          - now.loc.offsetFor (now.Unix + 86400 * (n : Int) + now.zoneOffset)
        = (now.Unix + 86400 * (n : Int)) + now.zoneOffset
          - now.loc.offsetFor (now.Unix + 86400 * (n : Int) + now.zoneOffset) by ring]
      exact hiff _ _ _
    · rw [hweek n h1 h2]
      rw [show now.Unix + now.zoneOffset + 7 * 86400 * (n : Int)
        = now.Unix + 7 * 86400 * (n : Int) + now.zoneOffset by ring]
      exact hiff _ _ _
    · have e : (86400 : Int) * ((7 * n : Nat) : Int) = 7 * 86400 * (n : Int) := by
        push_cast; ring
      rw [hweek n h1 h2, hday (7 * n) (by omega) (by omega), e]
  · intro o ho
    have hz : now.zoneOffset = o := ho now.sec
    have hfix : ∀ w, now.loc.offsetFor w = o := offsetFor_fixed now.loc o ho
    have hd' : ∀ n : Nat, 1 ≤ n → n ≤ 700000 →
        ParseExpiry now (Nat.toDigits 10 n ++ ['d']) = .ok (now.Unix + 86400 * n) := by
      intro n h1 h2
      rw [hday n h1 h2, hfix, hz]
      congr 1
      omega
    have hw' : ∀ n : Nat, 1 ≤ n → n ≤ 100000 →
        ParseExpiry now (Nat.toDigits 10 n ++ ['w']) = .ok (now.Unix + 7 * 86400 * n) := by
      intro n h1 h2
      rw [hweek n h1 h2, hfix, hz]
      congr 1
      omega
    refine ⟨?_, fun n h1 h2 => ⟨hd' n h1 (by omega), hw' n h1 h2⟩⟩
    have := hw' 2 (by decide) (by decide)
    have e : Nat.toDigits 10 2 ++ ['w'] = "2w".toList := by decide
    rw [e] at this
    rw [this]
    rfl

/-- C11 (witness): at 2025-01-15 00:00:00 UTC in the location UTC, `2w` and
the count 90. -/
theorem parseExpiry_fixed_units_witness :
    Time.WellFormed ⟨1736899200, 0, UTC⟩ ∧ UTC.Fixed 0 ∧
      ParseExpiry ⟨1736899200, 0, UTC⟩ "2w".toList = .ok (1736899200 + 14 * 86400) ∧
      ParseExpiry ⟨1736899200, 0, UTC⟩ "90m".toList = .ok (1736899200 + 60 * 90) ∧
      ParseExpiry ⟨1736899200, 0, UTC⟩ "90d".toList = .ok (1736899200 + 86400 * 90) :=
  have hwf : Time.WellFormed ⟨1736899200, 0, UTC⟩ :=
    ⟨by decide, by decide, by decide, by decide,
      fun _ => (by decide : (-2 : Int) ^ 31 ≤ 0 ∧ (0 : Int) ≤ 2 ^ 31)⟩
  have hfix : UTC.Fixed 0 := fun _ => rfl
  ⟨hwf, hfix, ((parseExpiry_fixed_units ⟨1736899200, 0, UTC⟩ hwf).2 0 hfix).1,
    ((parseExpiry_fixed_units ⟨1736899200, 0, UTC⟩ hwf).1 90 (by decide) (by decide)).1,
    (((parseExpiry_fixed_units ⟨1736899200, 0, UTC⟩ hwf).2 0 hfix).2 90 (by decide)
      (by decide)).1⟩

/-- C12 (counterexample): at 2025-01-31 01:02:03 UTC in the location UTC,
`ParseExpiry("1M")` is 2025-03-03 01:02:03 UTC, which is not 2025-02-28
01:02:03 UTC, the last day of February at the same time of day. -/
theorem parseExpiry_month_overflows :
    Time.Date ⟨1738285323, 5, UTC⟩ = (2025, 1, 31) ∧
      Time.Clock ⟨1738285323, 5, UTC⟩ = (1, 2, 3) ∧
      ParseExpiry ⟨1738285323, 5, UTC⟩ "1M".toList = .ok 1740963723 ∧
      (Date 2025 3 3 1 2 3 5 UTC).Unix = 1740963723 ∧
      (Date 2025 2 28 1 2 3 5 UTC).Unix = 1740704523 ∧
      ParseExpiry ⟨1738285323, 5, UTC⟩ "1M".toList ≠ .ok (Date 2025 2 28 1 2 3 5 UTC).Unix := by
  decide

/-- C12 (amended): when the well-formed current time, read in its local
location, is on 31 January of year `Y` at `h:mi:s`, `ParseExpiry("1M")` is the
instant of 3 March of year `Y` (2 March in a leap year) at `h:mi:s` in that
location: the day 31 of February is carried over into March. That is the
wall-clock reading of the location moved by 31 days, less the zone offset that
holds for it. In a location with one offset at all times, such as UTC, it is
31 days after the current time, three days (two in a leap year) after the
last day of February at the same time of day. -/
theorem parseExpiry_month_from_jan31 (now : Time) (hwf : now.WellFormed) (Y h mi s : Int)
    (hd : now.Date = (Y, 1, 31)) (hc : now.Clock = (h, mi, s)) :
    ParseExpiry now "1M".toList =
        .ok (Date Y 3 (if isLeap Y = true then 2 else 3) h mi s now.nsec now.loc).Unix ∧
      ParseExpiry now "1M".toList =
        .ok (now.Unix + now.zoneOffset + 31 * 86400
          - now.loc.offsetFor (now.Unix + now.zoneOffset + 31 * 86400)) ∧
      (∀ o : Int, now.loc.Fixed o →
        ParseExpiry now "1M".toList = .ok (now.Unix + 31 * 86400) ∧
        (Date Y 2 (if isLeap Y = true then 29 else 28) h mi s now.nsec now.loc).Unix
          = now.Unix + (if isLeap Y = true then 29 else 28) * 86400) := by
  obtain ⟨y, mo, dy, h', mi', s', he, hc', hmo, hdy, hh, hmi, hs, hy, hsec⟩ :=
    time_fields now hwf
  rw [hd, Prod.mk.injEq, Prod.mk.injEq] at he
  obtain ⟨rfl, rfl, rfl⟩ := he
  rw [hc, Prod.mk.injEq, Prod.mk.injEq] at hc'
  obtain ⟨rfl, rfl, rfl⟩ := hc'
  have ha : absoluteZeroYear = -292277022399 := rfl
  have ho := hwf.2.2.2.2 now.sec
  have e1 : (if isLeap Y = true ∧ (1 : Int) ≥ 3 then (1 : Int) else 0) = 0 := by
    rw [if_neg]; rintro ⟨_, h3⟩; exact absurd h3 (by decide)
  have e2 : (if isLeap Y = true ∧ (2 : Int) ≥ 3 then (1 : Int) else 0) = 0 := by
    rw [if_neg]; rintro ⟨_, h3⟩; exact absurd h3 (by decide)
  have e3 : daysBefore ((1 : Int) - 1).toNat = 0 := by decide
  have e4 : daysBefore ((2 : Int) - 1).toNat = 31 := by decide
  have e5 : daysBefore ((3 : Int) - 1).toNat = 59 := by decide
  have e6 : (isLeap Y = true ∧ (3 : Int) ≥ 3) ↔ isLeap Y = true :=
    ⟨fun hh => hh.1, fun hh => ⟨hh, by decide⟩⟩
  rw [e1, e3] at hsec
  have hy1 : Y ≤ absoluteZeroYear + 2 ^ 50 := by
    have := hy.2; norm_num at this ⊢; omega
  have hmain : ParseExpiry now "1M".toList =
      .ok (now.Unix + now.zoneOffset + 31 * 86400
        - now.loc.offsetFor (now.Unix + now.zoneOffset + 31 * 86400)) := by
    have hp := parseExpiry_digits_unit now ['1'] 'M' (by decide) (by decide) (by decide)
      (by decide) (by decide)
    have hv : ((digitsVal ['1'] : Nat) : Int) = 1 := by decide
    rw [hv] at hp
    have e : "1M".toList = ['1'] ++ ['M'] := by decide
    rw [e, hp, if_neg (by decide), if_neg (by decide), if_neg (by decide), if_neg (by decide),
      if_pos rfl, addDate_month_jan31 now hwf Y hd]
    rfl
  have hmarch : (Date Y 3 (if isLeap Y = true then 2 else 3) h mi s now.nsec now.loc).Unix =
      now.Unix + now.zoneOffset + 31 * 86400
        - now.loc.offsetFor (now.Unix + now.zoneOffset + 31 * 86400) := by
    rw [date_fields Y 3 _ h mi s now.nsec now.loc hy.1 hy1 (by decide) (by decide)
      hh.1 hh.2 hmi.1 hmi.2 hs.1 hs.2 hwf.2.2.1 hwf.2.2.2.1
      (now.sec + (now.loc.lookup now.sec).1 + 31 * 86400)
      (by rw [hsec, e5]; simp only [e6]; split_ifs <;> ring)
      (by have := hwf.1; norm_num at this ho ⊢; omega)
      (by have := hwf.2.1; norm_num at this ho ⊢; omega) hwf.2.2.2.2]
    rfl
  refine ⟨by rw [hmain, hmarch], hmain, ?_⟩
  intro o hfix
  have hz : now.zoneOffset = o := hfix now.sec
  have hz' : (now.loc.lookup now.sec).1 = o := hfix now.sec
  have hoff : ∀ w, now.loc.offsetFor w = o := offsetFor_fixed now.loc o hfix
  refine ⟨?_, ?_⟩
  · rw [hmain, hoff, hz]
    congr 1
    omega
  · rw [date_fields Y 2 _ h mi s now.nsec now.loc hy.1 hy1 (by decide) (by decide)
      hh.1 hh.2 hmi.1 hmi.2 hs.1 hs.2 hwf.2.2.1 hwf.2.2.2.1
      (now.sec + (now.loc.lookup now.sec).1 + (if isLeap Y = true then 29 else 28) * 86400)
      (by rw [hsec, e2, e4]; split_ifs <;> ring)
      (by have := hwf.1; norm_num at this ho ⊢; split_ifs <;> omega)
      (by have := hwf.2.1; norm_num at this ho ⊢; split_ifs <;> omega) hwf.2.2.2.2]
    simp only [Time.Unix, hoff, hz']
    omega

/-- C12 (witness): 2024-01-31 12:00:00 UTC in the location UTC, in a leap
year; the result is 2024-03-02 12:00:00 UTC, 31 days later. -/
theorem parseExpiry_month_from_jan31_witness :
    Time.WellFormed ⟨1706702400, 0, UTC⟩ ∧ Time.Date ⟨1706702400, 0, UTC⟩ = (2024, 1, 31) ∧
      Time.Clock ⟨1706702400, 0, UTC⟩ = (12, 0, 0) ∧ UTC.Fixed 0 ∧
      ParseExpiry ⟨1706702400, 0, UTC⟩ "1M".toList = .ok (1706702400 + 31 * 86400) :=
  have hwf : Time.WellFormed ⟨1706702400, 0, UTC⟩ :=
    ⟨by decide, by decide, by decide, by decide,
      fun _ => (by decide : (-2 : Int) ^ 31 ≤ 0 ∧ (0 : Int) ≤ 2 ^ 31)⟩
  have hfix : UTC.Fixed 0 := fun _ => rfl
  ⟨hwf, by decide, by decide, hfix,
    ((parseExpiry_month_from_jan31 ⟨1706702400, 0, UTC⟩ hwf 2024 12 0 0 (by decide)
      (by decide)).2.2 0 hfix).1⟩

/-- C13 (evaluation at the failing input): whatever the current time,
`ParseExpiry("3q")` fails with the generic `couldn't parse expiry` error and
not with the `unknown interval` error, and no input at all is answered with
the `unknown interval` error. -/
theorem parseExpiry_unknown_unit :
    (∀ now : Time, ParseExpiry now "3q".toList = .error (.couldntParseExpiry "3q".toList)) ∧
      (∀ (now : Time) (s u w : List Char),
        ParseExpiry now s ≠ .error (.unknownInterval u w)) := by
  refine ⟨fun now => ?_, parseExpiry_never_unknownInterval⟩
  rw [parseExpiry_relative now _ (by decide) (by decide)]
  have : intervalRe.find "3q".toList = none :=
    digitsThen_find_none isUnit _ (by decide)
  rw [this]

/-- C14 (counterexample): the text `-5d` is not empty, not `0`, has no
date-shaped part and is not a digit run followed by one unit letter (it has a
leading sign), yet `ParseExpiry` accepts it as five days from now. -/
theorem parseExpiry_accepts_leading_sign :
    "-5d".toList ≠ [] ∧ "-5d".toList ≠ ['0'] ∧
      ¬ (∃ pre a post, "-5d".toList = pre ++ (a ++ post) ∧ DateShaped a) ∧
      ¬ (∃ d u, "-5d".toList = d ++ [u] ∧ d ≠ [] ∧ (∀ x ∈ d, isDigit x = true) ∧
        isUnit u = true) ∧
      ParseExpiry ⟨1736899200, 0, UTC⟩ "-5d".toList = .ok (1736899200 + 5 * 86400) := by
  refine ⟨by decide, by decide, ?_, ?_, by decide⟩
  · rw [← dateRe_matchString_iff]
    decide
  · rintro ⟨d, u, h, _, hd, _⟩
    have h' : ['-', '5'] ++ ['d'] = d ++ [u] := h
    obtain ⟨rfl, _⟩ := List.append_inj' h' rfl
    exact absurd (hd '-' (by simp)) (by decide)

/-- C14 (amended): for every current time and every string that is not empty,
not `0`, has no date-shaped part and in which no decimal digit is immediately
followed by a unit letter among `m`, `h`, `d`, `w`, `M`, `y`, `ParseExpiry`
fails with the `couldn't parse expiry` error. -/
theorem parseExpiry_rejects (now : Time) (s : List Char) (h1 : s ≠ []) (h2 : s ≠ ['0'])
    (hdate : ¬ ∃ pre a post, s = pre ++ (a ++ post) ∧ DateShaped a)
    (hunit : ∀ pre x c post, s = pre ++ x :: c :: post → isDigit x = true →
      isUnit c = false) :
    ParseExpiry now s = .error (.couldntParseExpiry s) := by
  have hne : ¬ (s = [] ∨ s = ['0']) := by
    rintro (h | h)
    · exact h1 h
    · exact h2 h
  have hd : dateRe.matchString s = false := by
    cases hm : dateRe.matchString s with
    | false => rfl
    | true => exact absurd ((dateRe_matchString_iff s).mp hm) hdate
  have hf : intervalRe.find s = none := by
    cases hf : intervalRe.find s with
    | none => rfl
    | some m =>
      obtain ⟨pre, d, c, post, hxs, hd', hdd, hc, _⟩ := digitsThen_find_sound isUnit s m hf
      obtain ⟨d', x, rfl⟩ := exists_last d hd'
      have := hunit (pre ++ d') x c post (by simp [hxs]) (hdd x (by simp))
      rw [this] at hc
      cases hc
  rw [parseExpiry_relative now s hne hd, hf]

/-- C14 (witness): the text `soon`. -/
theorem parseExpiry_rejects_witness :
    ParseExpiry ⟨1736899200, 0, UTC⟩ "soon".toList = .error (.couldntParseExpiry "soon".toList) :=
  parseExpiry_rejects _ _ (by decide) (by decide)
    (by rw [← dateRe_matchString_iff]; decide)
    (by
      intro pre x c post h hx
      have hmem : x ∈ "soon".toList := by rw [h]; simp
      have hall : ∀ y ∈ "soon".toList, isDigit y = false := by decide
      rw [hall x hmem] at hx
      cases hx)

/-- C15: `LooksLikeNKey(s, c)` is true if and only if `s` contains no path
separator and either its length is 58 or 109 and it starts with `S` followed
by `c`, or its length is 56 and it starts with `c`; hence it is false for
every string that contains a path separator and for every length other than
56, 58 and 109. -/
theorem looksLikeNKey_iff (sep : Char) (s : List Char) (pfx : Char) :
    (LooksLikeNKey sep s pfx = true ↔
      sep ∉ s ∧ (((byteLen s = 58 ∨ byteLen s = 109) ∧ ['S', pfx] <+: s) ∨
        (byteLen s = 56 ∧ [pfx] <+: s))) ∧
    (sep ∈ s → LooksLikeNKey sep s pfx = false) ∧
    (byteLen s ≠ 56 → byteLen s ≠ 58 → byteLen s ≠ 109 →
      LooksLikeNKey sep s pfx = false) := by
  have hcore : ∀ pre : List Char,
      (pre.isPrefixOf s && !s.contains sep) = true ↔ sep ∉ s ∧ pre <+: s := by
    intro pre
    simp [List.isPrefixOf_iff_prefix, and_comm]
  have hiff : LooksLikeNKey sep s pfx = true ↔
      sep ∉ s ∧ (((byteLen s = 58 ∨ byteLen s = 109) ∧ ['S', pfx] <+: s) ∨
        (byteLen s = 56 ∧ [pfx] <+: s)) := by
    unfold LooksLikeNKey
    by_cases h1 : byteLen s = 109 ∨ byteLen s = 58
    · have h56 : byteLen s ≠ 56 := by omega
      have h1' : byteLen s = 58 ∨ byteLen s = 109 := h1.symm
      rw [if_pos h1, hcore]
      simp only [h1', h56, true_and, false_and, or_false]
    · have h1' : ¬ (byteLen s = 58 ∨ byteLen s = 109) := fun h => h1 h.symm
      by_cases h2 : byteLen s = 56
      · rw [if_neg h1, if_pos h2, hcore]
        simp [h2]
      · rw [if_neg h1, if_neg h2]
        simp only [h1', h2, false_and, or_false, and_false, Bool.false_eq_true]
  refine ⟨hiff, ?_, ?_⟩
  · intro hm
    cases h : LooksLikeNKey sep s pfx with
    | false => rfl
    | true => exact absurd hm (hiff.mp h).1
  · intro h56 h58 h109
    cases h : LooksLikeNKey sep s pfx with
    | false => rfl
    | true =>
      rcases (hiff.mp h).2 with ⟨h' | h', _⟩ | ⟨h', _⟩
      · exact absurd h' h58
      · exact absurd h' h109
      · exact absurd h' h56

/-- C15 (witness): a text of 56 characters with a path separator in it, and a
text of 57 characters with the right first character. -/
theorem looksLikeNKey_iff_witness :
    LooksLikeNKey '/' ('U' :: '/' :: List.replicate 54 'A') 'U' = false ∧
      LooksLikeNKey '/' ('U' :: List.replicate 56 'A') 'U' = false :=
  ⟨(looksLikeNKey_iff '/' ('U' :: '/' :: List.replicate 54 'A') 'U').2.1 (by decide),
    (looksLikeNKey_iff '/' ('U' :: List.replicate 56 'A') 'U').2.2
      (by decide) (by decide) (by decide)⟩

/-- C16 (evaluation at the failing input): on the empty string `ParseNKey`
does not return, the index expression `s[0]` panics; on every other string it
returns the result of the seed decoder when the first character is `S` and of
the public-key decoder otherwise. -/
theorem parseNKey_dispatch {KeyPair : Type}
    (fromSeed fromPublicKey : List Char → Except Error KeyPair) :
    ParseNKey fromSeed fromPublicKey [] = none ∧
      (∀ rest, ParseNKey fromSeed fromPublicKey ('S' :: rest) =
        some (fromSeed ('S' :: rest))) ∧
      (∀ c rest, ParseNKey fromSeed fromPublicKey (c :: rest) =
        some (if c = 'S' then fromSeed (c :: rest) else fromPublicKey (c :: rest))) := by
  refine ⟨rfl, fun rest => by simp [ParseNKey], fun c rest => ?_⟩
  by_cases hc : c = 'S' <;> simp [ParseNKey, hc]

/-- C17: for every label `t` and payload `p`, `FormatJwt(t, p)` is exactly the
line of five dashes, `BEGIN`, the upper-case label, `JWT` and five dashes, the
payload unmodified on a line of its own, the line of six dashes, `END`, the
upper-case label, `JWT` and six dashes, and an empty line. -/
theorem formatJwt_text (tbl : Char → Char) (t p : List Char) :
    FormatJwt tbl t p =
      (List.replicate 5 '-' ++ "BEGIN ".toList ++ ToUpper tbl t ++ " JWT".toList
          ++ List.replicate 5 '-' ++ ['\n'])
        ++ (p ++ ['\n'])
        ++ (List.replicate 6 '-' ++ "END ".toList ++ ToUpper tbl t ++ " JWT".toList
          ++ List.replicate 6 '-' ++ ['\n'])
        ++ ['\n'] := by
  simp [FormatJwt, List.replicate]

/-- C18: for every label `t`, public key `pub` and private key `priv`,
`FormatKeys(t, pub, priv)` is the private section (present exactly when
`priv` is not empty), then the public block (present exactly when `pub` is
not empty), then one line feed, for the upper-case label; with `priv` empty
nothing comes before the public block, and with both empty the output is a
single line feed. -/
theorem formatKeys_text (tbl : Char → Char) (t pub priv : List Char) :
    FormatKeys tbl t pub priv =
        (if priv ≠ [] then privateSection (ToUpper tbl t) priv else [])
          ++ (if pub ≠ [] then publicBlock (ToUpper tbl t) pub else [])
          ++ ['\n'] ∧
      FormatKeys tbl t pub [] =
        (if pub ≠ [] then publicBlock (ToUpper tbl t) pub else []) ++ ['\n'] ∧
      FormatKeys tbl t [] [] = ['\n'] := by
  have hmain := formatKeys_sections tbl t
  refine ⟨hmain pub priv, ?_, ?_⟩
  · rw [hmain pub []]
    simp only [ne_eq, not_true_eq_false, if_false, List.nil_append]
  · rw [hmain [] []]
    simp only [ne_eq, not_true_eq_false, if_false, List.nil_append]

/-- C19 (evaluation at the failing input): the message of the error that
`ParseNumber("abc")` returns is `couldn't parse number: ABC`, and that of
`ParseDataSize("abc")` is `couldn't parse data size: ABC`; neither contains
the input `abc`. `ParseExpiry("abc")` does carry `abc`. -/
theorem parse_error_message_case :
    (ParseNumber id "abc".toList).toOption = none ∧
      ((match ParseNumber id "abc".toList with
        | .error e => e.message
        | .ok _ => none) = some "couldn't parse number: ABC".toList) ∧
      ¬ "abc".toList <:+: "couldn't parse number: ABC".toList ∧
      ((match ParseDataSize id "abc".toList with
        | .error e => e.message
        | .ok _ => none) = some "couldn't parse data size: ABC".toList) ∧
      ¬ "abc".toList <:+: "couldn't parse data size: ABC".toList ∧
      ((match ParseExpiry ⟨0, 0, UTC⟩ "abc".toList with
        | .error e => e.message
        | .ok _ => none) = some "couldn't parse expiry: abc".toList) := by
  decide

/-- C20: for every non-empty label of ASCII letters and digits and all
non-empty `pub` and `priv` without whitespace and dashes,
`ExtractToken(FormatKeys(label, pub, priv)) == pub`, whereas with `pub` empty
the same call returns `priv`. -/
theorem extractToken_formatKeys (tbl : Char → Char) (label pub priv : List Char)
    (hlabel : label ≠ []) (hl : ∀ c ∈ label, isAlnum c = true)
    (hpub : pub ≠ []) (hpubc : ∀ c ∈ pub, isSpace c = false ∧ c ≠ '-')
    (hpriv : priv ≠ []) (hprivc : ∀ c ∈ priv, isSpace c = false ∧ c ≠ '-') :
    ExtractToken (FormatKeys tbl label pub priv) = pub ∧
      ExtractToken (FormatKeys tbl label [] priv) = priv :=
  ⟨extractToken_keys_both tbl label pub priv hlabel hl hpub hpubc hpriv hprivc,
    extractToken_keys_private tbl label priv hlabel hl hpriv hprivc⟩

/-- C20 (witness): the label `user` with short keys. -/
theorem extractToken_formatKeys_witness :
    ExtractToken (FormatKeys id "user".toList "UABC".toList "SUXYZ".toList) = "UABC".toList ∧
      ExtractToken (FormatKeys id "user".toList [] "SUXYZ".toList) = "SUXYZ".toList :=
  extractToken_formatKeys id "user".toList "UABC".toList "SUXYZ".toList (by decide)
    (by decide) (by decide) (by decide) (by decide) (by decide)

end Nsc
